import Mathlib

/-!
# Minnow: a user-space TCP/IP core

A shallow embedding of the sequence-number arithmetic (`wrapping_integers.cc`),
the byte stream (`byte_stream.cc`) and the reassembler (`reassembler.cc`,
`reassembler.hh`), followed by theorems about them.

Conventions of the embedding:

* `uint32_t` and `uint64_t` values are natural numbers; a C++ operation that can
  wrap is written with an explicit `% 2^32` or `% 2^64` (`add64`, `sub64`). The
  lifetime byte counters of a stream are the one exception, see `ByteStream`.
* `std::string` is `List Char`.
* member functions take the object state as an argument and return the new state.
-/

namespace Minnow

/-! ## Machine arithmetic -/

/-- Two to the 32. -/
abbrev U32 : Nat := 4294967296

/-- Two to the 64. -/
abbrev U64 : Nat := 18446744073709551616

/-- Addition of two `uint64_t` values. -/
def add64 (a b : Nat) : Nat := (a + b) % U64

/-- Subtraction of two `uint64_t` values (wraps below zero). -/
def sub64 (a b : Nat) : Nat := (a + U64 - b % U64) % U64

/-- Reading of a `uint64_t` bit pattern as a two's complement `long long`. -/
def toInt64 (u : Nat) : Int := if u < 9223372036854775808 then (u : Int) else (u : Int) - U64

/-! ## wrapping_integers.cc -/

/-- The class `Wrap32`: one `uint32_t` member. -/
structure Wrap32 where
  raw_value_ : Nat
  deriving DecidableEq, Repr

/-- `Wrap32::wrap( uint64_t n, Wrap32 zero_point )`: the 64-bit sum, cast to `uint32_t`. -/
def Wrap32.wrap (n : Nat) (zero_point : Wrap32) : Wrap32 :=
  ⟨add64 zero_point.raw_value_ n % U32⟩

/-- `Wrap32::unwrap( Wrap32 zero_point, uint64_t checkpoint )`.
`distance` is a `uint32_t` difference, `point` and the result are `uint64_t`,
`judge` is the 64-bit difference read as `long long`; `abs` is `std::abs(long long)`. -/
def Wrap32.unwrap (self zero_point : Wrap32) (checkpoint : Nat) : Nat :=
  let distance := (self.raw_value_ + U32 - zero_point.raw_value_ % U32) % U32
  let point := (add64 checkpoint 2147483648 / U32 * U32) % U64
  let judge := toInt64 (sub64 (add64 point distance) checkpoint)
  if judge.natAbs ≤ 2147483648 ∨ point = 0 then
    add64 point distance
  else
    sub64 point (sub64 U32 distance)


/-! ## byte_stream.cc -/

/-- A `std::string` (and a `std::string_view`): its characters. -/
abbrev Bytes := List Char

/-- Modelled from the spec: the class declaration (`byte_stream.hh`) is not among the sources.
The members are the ones `byte_stream.cc` reads and writes: the fixed capacity, the `closed` and
`error` flags, the buffered byte count, the two lifetime counters, the queue of owned strings and
the queue of views onto them. `buffered_` never exceeds `capacity_`; the lifetime counters
`bytes_pushed_` and `bytes_popped_` are kept exact (a stream would have to carry 2^64 bytes for
them to wrap). -/
structure ByteStream where
  capacity_ : Nat
  is_close_ : Bool
  error_ : Bool
  buffered_ : Nat
  bytes_pushed_ : Nat
  bytes_popped_ : Nat
  real_queue : List Bytes
  view_queue : List Bytes
  deriving DecidableEq, Repr

/-- `ByteStream::ByteStream( uint64_t capacity )`: the constructor clears the two flags; the
counters start at zero and the queues empty (their initialisers are in the header). -/
def ByteStream.new (capacity : Nat) : ByteStream :=
  { capacity_ := capacity, is_close_ := false, error_ := false, buffered_ := 0,
    bytes_pushed_ := 0, bytes_popped_ := 0, real_queue := [], view_queue := [] }

/-- `Writer::is_closed()`. -/
def ByteStream.is_closed (s : ByteStream) : Bool := s.is_close_

/-- `Writer::available_capacity()`. -/
def ByteStream.available_capacity (s : ByteStream) : Nat :=
  if s.capacity_ > s.buffered_ then sub64 s.capacity_ s.buffered_ else 0

/-- `Writer::push( string data )`. -/
def ByteStream.push (s : ByteStream) (data : Bytes) : ByteStream :=
  if s.is_closed then s
  else
    let len := data.length
    let push_len := min s.available_capacity len
    if push_len > 0 then
      { s with
        real_queue := s.real_queue ++ [data.take push_len]
        view_queue := s.view_queue ++ [data.take push_len]
        buffered_ := s.buffered_ + push_len
        bytes_pushed_ := s.bytes_pushed_ + push_len }
    else s

/-- `Writer::close()`. -/
def ByteStream.close (s : ByteStream) : ByteStream := { s with is_close_ := true }

/-- `Writer::bytes_pushed()`. -/
def ByteStream.bytes_pushed (s : ByteStream) : Nat := s.bytes_pushed_

/-- `Reader::is_finished()`. -/
def ByteStream.is_finished (s : ByteStream) : Bool := s.is_close_ && s.buffered_ == 0

/-- `Reader::bytes_popped()`. -/
def ByteStream.bytes_popped (s : ByteStream) : Nat := s.bytes_popped_

/-- `Reader::peek()`: the front view when something is buffered, the empty view otherwise. -/
def ByteStream.peek (s : ByteStream) : Bytes :=
  if s.buffered_ > 0 then s.view_queue.headD [] else []

/-- The `while` loop of `Reader::pop`, by recursion on the view queue. One iteration either
removes the front chunk and goes on with what is left of `len`, or shortens the front view by
`len`, after which `len` is zero and the loop ends. `len -= len_pop` cannot wrap, `len_pop`
being the smaller of the two. The loop never runs on an empty queue in a state where `buffered_`
is the total length of the views; the first equation covers that case by leaving the state
alone. -/
def ByteStream.popLoop (len : Nat) (real : List Bytes) :
    List Bytes → Nat → Nat → List Bytes × List Bytes × Nat × Nat
  | [], buffered, popped => (real, [], buffered, popped)
  | view_str :: rest, buffered, popped =>
    if len > 0 ∧ buffered > 0 then
      let len_str := view_str.length
      let len_pop := min len len_str
      if len ≥ len_str then
        ByteStream.popLoop (len - len_pop) real.tail rest
          (sub64 buffered len_pop) (popped + len_pop)
      else
        (real, view_str.drop len :: rest, sub64 buffered len_pop, popped + len_pop)
    else (real, view_str :: rest, buffered, popped)

/-- `Reader::pop( uint64_t len )`. -/
def ByteStream.pop (s : ByteStream) (len : Nat) : ByteStream :=
  let r := ByteStream.popLoop len s.real_queue s.view_queue s.buffered_ s.bytes_popped_
  { s with real_queue := r.1, view_queue := r.2.1, buffered_ := r.2.2.1, bytes_popped_ := r.2.2.2 }

/-- `Reader::bytes_buffered()`. -/
def ByteStream.bytes_buffered (s : ByteStream) : Nat := s.buffered_

/-- Modelled from the spec: `set_error()` is defined in `byte_stream.hh`, which is not among the
sources; it sets the error flag. -/
def ByteStream.set_error (s : ByteStream) : ByteStream := { s with error_ := true }

/-- Modelled from the spec: `has_error()` is defined in `byte_stream.hh`, which is not among the
sources; it reads the error flag. -/
def ByteStream.has_error (s : ByteStream) : Bool := s.error_

/-- The bytes a reader can still obtain: the views of the queue, front first. -/
def ByteStream.content (s : ByteStream) : Bytes := s.view_queue.flatten

/-- The calls a writer and a reader can make on a stream. -/
inductive StreamOp where
  | push (data : Bytes)
  | pop (len : Nat)
  | close
  | set_error
  deriving DecidableEq, Repr

/-- One call on a stream. -/
def ByteStream.step (s : ByteStream) : StreamOp → ByteStream
  | .push data => s.push data
  | .pop len => s.pop len
  | .close => s.close
  | .set_error => s.set_error

/-- A sequence of calls on a stream, first call first. -/
def ByteStream.run (s : ByteStream) (ops : List StreamOp) : ByteStream :=
  ops.foldl ByteStream.step s

/-! ## reassembler.hh, reassembler.cc -/

/-- `PendingBytes::PendingBytesUnit`. -/
structure PendingBytesUnit where
  first_index_ : Nat
  is_delete_ : Bool
  is_last_substring_ : Bool
  data_ : Bytes
  deriving DecidableEq, Repr

/-- The constructor `PendingBytesUnit(first_index, data, is_last_substring)`. -/
def PendingBytesUnit.new (first_index : Nat) (data : Bytes) (is_last_substring : Bool) :
    PendingBytesUnit :=
  { first_index_ := first_index, is_delete_ := false, is_last_substring_ := is_last_substring,
    data_ := data }

/-- `Reassembler::PendingBytes`. -/
structure PendingBytes where
  unpushed_first_index_ : Nat
  bytes_list_ : List PendingBytesUnit
  deriving DecidableEq, Repr

/-- `Reassembler`. -/
structure Reassembler where
  output_ : ByteStream
  pending_bytes_ : Nat
  reassembler_ : PendingBytes
  deriving DecidableEq, Repr

/-- `Reassembler( ByteStream&& output )`. -/
def Reassembler.new (output : ByteStream) : Reassembler :=
  { output_ := output, pending_bytes_ := 0,
    reassembler_ := { unpushed_first_index_ := 0, bytes_list_ := [] } }

/-- `PendingBytes::getPendingLen()`: a `uint64_t` sum. -/
def PendingBytes.getPendingLen (p : PendingBytes) : Nat :=
  p.bytes_list_.foldl (fun len i => add64 len i.data_.length) 0

/-- Whose character one iteration of the loop in `getMergedData` appends. -/
inductive MergeSource where
  | cur_data
  | data
  deriving DecidableEq, Repr

/-- The body of the `for` loop of `getMergedData` at iteration `i`: which string is read and at
which position, or `none` when no branch of the `if` chain fires and nothing is appended. -/
def mergedRead (cur_first_index first_index cur_data_len data_len final_first_index
    left_intersect right_intersect i : Nat) : Option (MergeSource × Nat) :=
  if add64 cur_first_index i < left_intersect then
    some (.cur_data, i)
  else if add64 first_index i < left_intersect then
    some (.data, i)
  else if add64 final_first_index i ≥ left_intersect
      ∧ add64 final_first_index i ≤ right_intersect ∧ left_intersect ≤ right_intersect then
    some (.data, sub64 (add64 final_first_index i) first_index)
  else if add64 final_first_index i > sub64 (add64 cur_first_index cur_data_len) 1 then
    some (.data, sub64 (add64 final_first_index i) first_index)
  else if add64 final_first_index i > sub64 (add64 first_index data_len) 1 then
    some (.cur_data, sub64 (add64 final_first_index i) cur_first_index)
  else none

/-- The `operator[]` of `std::string`. A position inside the string gives its character; the
position equal to the size gives the terminating zero character; any later position is outside
the C++ contract and is given the zero character as well. -/
def strAt (s : Bytes) (i : Nat) : Char := s.getD i (Char.ofNat 0)

/-- `PendingBytes::getMergedData`, called with an empty `final_data`: the pair
`(final_first_index, final_data)` it leaves in its two output parameters. -/
def PendingBytes.getMergedData (cur_first_index first_index : Nat) (cur_data data : Bytes) :
    Nat × Bytes :=
  let cur_data_len := cur_data.length
  let data_len := data.length
  let final_first_index := min cur_first_index first_index
  let final_last_index :=
    sub64 (max (add64 cur_first_index cur_data_len) (add64 first_index data_len)) 1
  let final_data_len := add64 (sub64 final_last_index final_first_index) 1
  let left_intersect := max cur_first_index first_index
  let right_intersect :=
    sub64 (min (add64 cur_first_index cur_data_len) (add64 first_index data_len)) 1
  (final_first_index,
    (List.range final_data_len).filterMap fun i =>
      (mergedRead cur_first_index first_index cur_data_len data_len final_first_index
        left_intersect right_intersect i).map fun r =>
          match r.1 with
          | .cur_data => strAt cur_data r.2
          | .data => strAt data r.2)

/-- The second loop of `insert_bytes_list` (under `if (can_merge)`): `top` is the unit the first
loop merged into, `top_index` the local copy of its first index, `top_data_len` the length its
data had when the loop was entered (the local is not refreshed by the loop). Every following
unit that starts at or before `top_index + top_data_len` is merged into `top.data_` and erased. -/
def mergeFollowers (top_index top_data_len : Nat) (top : PendingBytesUnit) :
    List PendingBytesUnit → List PendingBytesUnit
  | [] => [top]
  | cur :: rest =>
    if add64 top_index top_data_len < cur.first_index_ then top :: cur :: rest
    else
      let m := PendingBytes.getMergedData cur.first_index_ top_index cur.data_ top.data_
      mergeFollowers m.1 top_data_len { top with data_ := m.2 } rest

/-- The first loop of `insert_bytes_list` together with the code after it, on the part of the
list from the iterator on. Reaching the end appends a new unit; a unit that starts after the end
of the new data gets the new unit inserted before it; a unit that ends before the new data is
skipped; any other unit takes the merged index and data and the second loop follows. -/
def insertLoop (first_index : Nat) (data : Bytes) (is_last_substring : Bool) :
    List PendingBytesUnit → List PendingBytesUnit
  | [] => [PendingBytesUnit.new first_index data is_last_substring]
  | cur :: rest =>
    if add64 first_index data.length < cur.first_index_ then
      PendingBytesUnit.new first_index data is_last_substring :: cur :: rest
    else if first_index > add64 cur.first_index_ cur.data_.length then
      cur :: insertLoop first_index data is_last_substring rest
    else
      let m := PendingBytes.getMergedData cur.first_index_ first_index cur.data_ data
      let top := { cur with first_index_ := m.1, data_ := m.2 }
      mergeFollowers top.first_index_ top.data_.length top rest

/-- `PendingBytes::insert_bytes_list`. The list is never empty afterwards, so `front()` is its
head. -/
def PendingBytes.insert_bytes_list (p : PendingBytes) (first_index : Nat) (data : Bytes)
    (is_last_substring : Bool) : PendingBytes :=
  let l := insertLoop first_index data is_last_substring p.bytes_list_
  { unpushed_first_index_ :=
      match l with
      | [] => p.unpushed_first_index_
      | u :: _ => u.first_index_
    bytes_list_ := l }

/-- `PendingBytes::delete_bytes_list( max_len, data )`: the returned flag, the string assigned to
`data`, and the object afterwards. It is only called on a non-empty list. -/
def PendingBytes.delete_bytes_list (p : PendingBytes) (max_len : Nat) :
    Bool × Bytes × PendingBytes :=
  match p.bytes_list_ with
  | [] => (false, [], p)
  | u :: rest =>
    let pushed_len := min max_len u.data_.length
    (u.is_last_substring_, u.data_.take pushed_len, { p with bytes_list_ := rest })

/-- `Reassembler::insert( first_index, data, is_last_substring )`. -/
def Reassembler.insert (r : Reassembler) (first_index : Nat) (data : Bytes)
    (is_last_substring : Bool) : Reassembler :=
  let pushed_num := r.output_.bytes_pushed
  let capacity_num := r.output_.available_capacity
  let data_len := data.length
  let pushed_first_index := max pushed_num first_index
  let pushed_data_len := min data_len (add64 (sub64 capacity_num pushed_first_index) pushed_num)
  if sub64 pushed_first_index first_index > data_len
      ∨ pushed_first_index ≥ add64 pushed_num capacity_num then r
  else
    let data1 := (data.drop (sub64 pushed_first_index first_index)).take pushed_data_len
    let is_last1 :=
      if add64 (sub64 pushed_first_index first_index) pushed_data_len < data_len then false
      else is_last_substring
    let p1 := r.reassembler_.insert_bytes_list pushed_first_index data1 is_last1
    if p1.unpushed_first_index_ = pushed_num then
      let d := p1.delete_bytes_list capacity_num
      let out := r.output_.push d.2.1
      let p2 := d.2.2
      { output_ := if d.1 then out.close else out
        pending_bytes_ := p2.getPendingLen
        reassembler_ := p2 }
    else
      { output_ := r.output_, pending_bytes_ := p1.getPendingLen, reassembler_ := p1 }

/-- `Reassembler::bytes_pending()`. -/
def Reassembler.bytes_pending (r : Reassembler) : Nat := r.pending_bytes_

/-- The calls made on a reassembler: `insert`, and `pop` on the reader of its output. -/
inductive ReassemblerOp where
  | insert (first_index : Nat) (data : Bytes) (is_last_substring : Bool)
  | pop (len : Nat)
  deriving DecidableEq, Repr

/-- A reassembler together with the bytes its reader has popped so far, oldest first. -/
structure Observed where
  r : Reassembler
  popped : Bytes
  deriving DecidableEq, Repr

/-- One call. A `pop` hands the reader the first `len` buffered bytes (all of them when fewer
are buffered). -/
def Observed.step (o : Observed) : ReassemblerOp → Observed
  | .insert first_index data is_last_substring =>
    { o with r := o.r.insert first_index data is_last_substring }
  | .pop len =>
    { r := { o.r with output_ := o.r.output_.pop len }
      popped := o.popped ++ o.r.output_.content.take len }

/-- A fresh reassembler over a stream of the given capacity. -/
def Observed.new (capacity : Nat) : Observed :=
  { r := Reassembler.new (ByteStream.new capacity), popped := [] }

/-- A sequence of calls, first call first. -/
def Observed.run (o : Observed) (ops : List ReassemblerOp) : Observed :=
  ops.foldl Observed.step o

/-- Every byte written to the output stream so far: those already popped, then those buffered. -/
def Observed.written (o : Observed) : Bytes := o.popped ++ o.r.output_.content

/-! ## tcp_receiver.cc -/

/-- A `bool` used as an integer. -/
def b2n (b : Bool) : Nat := if b then 1 else 0

/-- Modelled from the spec: `TCPSenderMessage` (`tcp_sender_message.hh`) is not among the
sources. Its fields are the ones the sender fills in and the receiver reads. -/
structure TCPSenderMessage where
  seqno : Wrap32
  SYN : Bool
  payload : Bytes
  FIN : Bool
  RST : Bool
  deriving DecidableEq, Repr

/-- Modelled from the spec: `TCPSenderMessage::sequence_length()` is not among the sources; the
sequence length is `SYN + |payload| + FIN`. -/
def TCPSenderMessage.sequence_length (m : TCPSenderMessage) : Nat :=
  b2n m.SYN + m.payload.length + b2n m.FIN

/-- Modelled from the spec: `TCPReceiverMessage` (`tcp_receiver_message.hh`) is not among the
sources. `window_size` is a `uint16_t`. -/
structure TCPReceiverMessage where
  ackno : Option Wrap32
  window_size : Nat
  RST : Bool
  deriving DecidableEq, Repr

/-- Modelled from the spec: the class declaration (`tcp_receiver.hh`) is not among the sources.
The members are the ones `tcp_receiver.cc` reads and writes; a fresh receiver has no ISN. -/
structure TCPReceiver where
  reassembler_ : Reassembler
  ISN_ : Wrap32
  has_ISN_ : Bool
  ackno_ : Nat
  deriving DecidableEq, Repr

/-- A fresh receiver over a reassembler. -/
def TCPReceiver.new (reassembler : Reassembler) : TCPReceiver :=
  { reassembler_ := reassembler, ISN_ := ⟨0⟩, has_ISN_ := false, ackno_ := 0 }

/-- `TCPReceiver::receive( TCPSenderMessage message )`. -/
def TCPReceiver.receive (r : TCPReceiver) (message : TCPSenderMessage) : TCPReceiver :=
  let r1 := if message.SYN then { r with ISN_ := message.seqno, has_ISN_ := true } else r
  let offset := if message.SYN then 1 else 0
  let r2 :=
    if r1.has_ISN_ then
      let checkpoint := add64 r1.reassembler_.output_.bytes_pushed 1
      { r1 with
        reassembler_ := r1.reassembler_.insert
          (add64 (sub64 (message.seqno.unwrap r1.ISN_ checkpoint) 1) offset)
          message.payload (message.FIN || message.RST) }
    else r1
  let r3 :=
    { r2 with
      ackno_ := add64 (add64 (b2n r2.has_ISN_) r2.reassembler_.output_.bytes_pushed)
        (b2n r2.reassembler_.output_.is_closed) }
  if message.RST then
    { r3 with
      has_ISN_ := false
      reassembler_ := { r3.reassembler_ with output_ := r3.reassembler_.output_.set_error } }
  else r3

/-- `TCPReceiver::send()`. -/
def TCPReceiver.send (r : TCPReceiver) : TCPReceiverMessage :=
  { ackno := if r.has_ISN_ then some (Wrap32.wrap r.ackno_ r.ISN_) else none
    window_size := min r.reassembler_.output_.available_capacity 65535 % 65536
    RST := r.reassembler_.output_.has_error || r.reassembler_.output_.has_error }

/-- The calls made on a receiver: `receive`, and `pop` on the reader of its output. -/
inductive ReceiverOp where
  | receive (message : TCPSenderMessage)
  | pop (len : Nat)
  deriving DecidableEq, Repr

/-- One call on a receiver. -/
def TCPReceiver.step (r : TCPReceiver) : ReceiverOp → TCPReceiver
  | .receive message => r.receive message
  | .pop len =>
    { r with reassembler_ := { r.reassembler_ with output_ := r.reassembler_.output_.pop len } }

/-- A sequence of calls on a receiver, first call first. -/
def TCPReceiver.run (r : TCPReceiver) (ops : List ReceiverOp) : TCPReceiver :=
  ops.foldl TCPReceiver.step r

/-! ## tcp_sender.hh, tcp_sender.cc -/

/-- Modelled from the spec: `TCPConfig` (`tcp_config.hh`) is not among the sources.
`MAX_PAYLOAD_SIZE` is a compile-time constant (typically 1000), taken as a parameter. -/
structure TCPConfig where
  MAX_PAYLOAD_SIZE : Nat
  deriving DecidableEq, Repr

/-- Modelled from the spec: the helper `read( Reader&, uint64_t len, std::string& out )` is not
among the sources. It drains up to `len` buffered bytes from the stream into `out`: the pair of
the stream afterwards and the bytes read. -/
def read (reader : ByteStream) (len : Nat) : ByteStream × Bytes :=
  (reader.pop len, reader.content.take len)

/-- `RetransmissionTimer::AckWrapper`. -/
structure AckWrapper where
  mes_ : TCPSenderMessage
  start_ms_ : Nat
  deriving DecidableEq, Repr

/-- `TCPSender::RetransmissionTimer`. -/
structure RetransmissionTimer where
  cur_RTO_ms_ : Nat
  consecutive_retransmissions_ : Nat
  expected_ackno_list_ : List AckWrapper
  win_nonzero_ : Bool
  deriving DecidableEq, Repr

/-- `RetransmissionTimer(uint64_t initial_RTO_ms)`. -/
def RetransmissionTimer.new (initial_RTO_ms : Nat) : RetransmissionTimer :=
  { cur_RTO_ms_ := initial_RTO_ms, consecutive_retransmissions_ := 0,
    expected_ackno_list_ := [], win_nonzero_ := true }

/-- `RetransmissionTimer::updateWinNonZero`. -/
def RetransmissionTimer.updateWinNonZero (t : RetransmissionTimer) (peer_win_size : Nat) :
    RetransmissionTimer :=
  { t with win_nonzero_ := decide (peer_win_size ≠ 0) }

/-- `RetransmissionTimer::getConsecutiveRetransmissions`. -/
def RetransmissionTimer.getConsecutiveRetransmissions (t : RetransmissionTimer) : Nat :=
  t.consecutive_retransmissions_

/-- `RetransmissionTimer::getSequenceNumbersInFlight`: a `uint64_t` sum. -/
def RetransmissionTimer.getSequenceNumbersInFlight (t : RetransmissionTimer) : Nat :=
  t.expected_ackno_list_.foldl (fun sum i => add64 sum i.mes_.sequence_length) 0

/-- `RetransmissionTimer::resetConsecutiveRetransmissions`. -/
def RetransmissionTimer.resetConsecutiveRetransmissions (t : RetransmissionTimer) :
    RetransmissionTimer :=
  { t with consecutive_retransmissions_ := 0 }

/-- `RetransmissionTimer::resetRTOms`. -/
def RetransmissionTimer.resetRTOms (t : RetransmissionTimer) (initial_RTO_ms : Nat) :
    RetransmissionTimer :=
  { t with cur_RTO_ms_ := initial_RTO_ms }

/-- `RetransmissionTimer::resetTimer`. -/
def RetransmissionTimer.resetTimer (t : RetransmissionTimer) (cur_ms : Nat) :
    RetransmissionTimer :=
  { t with expected_ackno_list_ := t.expected_ackno_list_.map fun i => { i with start_ms_ := cur_ms } }

/-- `RetransmissionTimer::insertAcknoList`. -/
def RetransmissionTimer.insertAcknoList (t : RetransmissionTimer) (msg_ : TCPSenderMessage)
    (start_ms_ : Nat) : RetransmissionTimer :=
  { t with expected_ackno_list_ := t.expected_ackno_list_ ++ [⟨msg_, start_ms_⟩] }

/-- `RetransmissionTimer::updateRetransmissionTimer`: the loop body ends in `break`, so only the
first entry is looked at. The result is the timer afterwards and the segments handed to
`transmit`. -/
def RetransmissionTimer.updateRetransmissionTimer (t : RetransmissionTimer) (cur_ms : Nat) :
    RetransmissionTimer × List TCPSenderMessage :=
  match t.expected_ackno_list_ with
  | [] => (t, [])
  | it :: rest =>
    if sub64 cur_ms it.start_ms_ ≥ t.cur_RTO_ms_ then
      let t1 := { t with expected_ackno_list_ := { it with start_ms_ := cur_ms } :: rest }
      let t2 :=
        if t1.win_nonzero_ then
          { t1 with
            consecutive_retransmissions_ := add64 t1.consecutive_retransmissions_ 1
            cur_RTO_ms_ := (t1.cur_RTO_ms_ * 2) % U64 }
        else t1
      (t2, [it.mes_])
    else (t, [])

/-- The `for` loop of `updateAcknoList` from the iterator on: the value of
`has_remove_outstanding` at the end (it starts `true`) and the list left. The last test of the
chain, `ackno > abs_seqno`, is only reached when `ackno <= abs_seqno` failed, so it always
breaks. -/
def ackLoop (ackno : Nat) (isn : Wrap32) (checkpoint : Nat) :
    Bool → List AckWrapper → Bool × List AckWrapper
  | _, [] => (true, [])
  | is_first, it :: rest =>
    let abs_seqno := it.mes_.seqno.unwrap isn checkpoint
    let seq_num := it.mes_.sequence_length
    if ackno ≤ abs_seqno then (if is_first then false else true, it :: rest)
    else if add64 abs_seqno seq_num ≤ ackno then ackLoop ackno isn checkpoint false rest
    else (true, it :: rest)

/-- `RetransmissionTimer::updateAcknoList`: the returned flag and the timer afterwards. -/
def RetransmissionTimer.updateAcknoList (t : RetransmissionTimer) (ackno : Nat) (isn : Wrap32)
    (checkpoint : Nat) : Bool × RetransmissionTimer :=
  match t.expected_ackno_list_.getLast? with
  | some last_msg =>
    if ackno > add64 (last_msg.mes_.seqno.unwrap isn checkpoint) last_msg.mes_.sequence_length then
      (false, t)
    else
      let r := ackLoop ackno isn checkpoint true t.expected_ackno_list_
      (r.1, { t with expected_ackno_list_ := r.2 })
  | none =>
    let r := ackLoop ackno isn checkpoint true t.expected_ackno_list_
    (r.1, { t with expected_ackno_list_ := r.2 })

/-- `TCPSender`. `saveTransFunc_` records whether a transmit function has been stored (an empty
`std::function` is `false`). -/
structure TCPSender where
  input_ : ByteStream
  isn_ : Wrap32
  initial_RTO_ms_ : Nat
  cur_ms_ : Nat
  peer_win_size_ : Nat
  largest_ackno : Nat
  has_isn_ : Bool
  has_fin_ : Bool
  retransmissionTimer_ : RetransmissionTimer
  saveTransFunc_ : Bool
  deriving DecidableEq, Repr

/-- `TCPSender( ByteStream&& input, Wrap32 isn, uint64_t initial_RTO_ms )` with the default
member initialisers of the header. -/
def TCPSender.new (input : ByteStream) (isn : Wrap32) (initial_RTO_ms : Nat) : TCPSender :=
  { input_ := input, isn_ := isn, initial_RTO_ms_ := initial_RTO_ms, cur_ms_ := 0,
    peer_win_size_ := 1, largest_ackno := 0, has_isn_ := false, has_fin_ := false,
    retransmissionTimer_ := RetransmissionTimer.new initial_RTO_ms, saveTransFunc_ := false }

/-- `TCPSender::sequence_numbers_in_flight()`. -/
def TCPSender.sequence_numbers_in_flight (s : TCPSender) : Nat :=
  s.retransmissionTimer_.getSequenceNumbersInFlight

/-- `TCPSender::consecutive_retransmissions()`. -/
def TCPSender.consecutive_retransmissions (s : TCPSender) : Nat :=
  s.retransmissionTimer_.getConsecutiveRetransmissions

/-- `TCPSender::getCanSentFin()`. -/
def TCPSender.getCanSentFin (s : TCPSender) : Bool :=
  !s.has_fin_ && s.input_.is_finished
    && decide (s.peer_win_size_ >
      sub64 (add64 (add64 s.input_.bytes_popped (b2n s.has_isn_)) s.input_.bytes_buffered)
        s.largest_ackno)

/-- What a call that may transmit leaves behind: the sender, the segments handed to the transmit
function in order, and whether the call ended by invoking an empty `std::function` (which
throws `std::bad_function_call`). -/
structure Transmitted where
  sender : TCPSender
  segments : List TCPSenderMessage
  threw : Bool
  deriving DecidableEq, Repr

/-- The condition of the `while` loop of `TCPSender::push`. -/
def TCPSender.pushCond (s : TCPSender) : Bool :=
  (decide (sub64 s.peer_win_size_ s.sequence_numbers_in_flight > 0)
      && decide (s.input_.bytes_buffered > 0))
    || !s.has_isn_ || s.getCanSentFin

/-- One run of the body of the `while` loop of `TCPSender::push`, up to and including
`insertAcknoList`: the sender afterwards and the segment built. The initialisers of `msg` are
evaluated in order, so `FIN` is computed after `read` and before `has_isn_` is set. -/
def TCPSender.pushBody (cfg : TCPConfig) (s : TCPSender) : TCPSender × TCPSenderMessage :=
  let trans_len :=
    min (min cfg.MAX_PAYLOAD_SIZE (sub64 s.peer_win_size_ s.sequence_numbers_in_flight))
      s.input_.bytes_buffered
  let index := s.input_.bytes_popped
  let rd := if s.has_isn_ then read s.input_ trans_len else (s.input_, [])
  let s1 := { s with input_ := rd.1 }
  let msg : TCPSenderMessage :=
    { seqno := Wrap32.wrap (add64 index (b2n s1.has_isn_)) s1.isn_
      SYN := !s1.has_isn_
      payload := rd.2
      FIN := s1.getCanSentFin
      RST := s1.input_.has_error }
  let s2 := if !s1.has_isn_ then { s1 with has_isn_ := true } else s1
  let s3 := if !s2.has_fin_ && s2.getCanSentFin then { s2 with has_fin_ := true } else s2
  ({ s3 with retransmissionTimer_ := s3.retransmissionTimer_.insertAcknoList msg s3.cur_ms_ },
    msg)

/-- The `while` loop of `TCPSender::push` with a bound on the number of iterations: `none` when
the bound is used up while the condition still holds. `transmit` tells whether the transmit
function is callable; calling an empty one throws after the segment has been recorded. -/
def TCPSender.pushLoop (cfg : TCPConfig) (transmit : Bool) :
    Nat → TCPSender → List TCPSenderMessage → Option Transmitted
  | 0, s, out => if s.pushCond then none else some ⟨s, out, false⟩
  | fuel + 1, s, out =>
    if s.pushCond then
      let b := s.pushBody cfg
      if transmit then TCPSender.pushLoop cfg transmit fuel b.1 (out ++ [b.2])
      else some ⟨b.1, out, true⟩
    else some ⟨s, out, false⟩

/-- `TCPSender::push( const TransmitFunction& transmit )`. The loop is run with the bound
`bytes_buffered + 2`: an iteration sets `has_isn_`, or drains at least one byte, or sets
`has_fin_`, when `MAX_PAYLOAD_SIZE` is at least 1 (`none` stands for a loop that does not end). -/
def TCPSender.push (cfg : TCPConfig) (s : TCPSender) (transmit : Bool) : Option Transmitted :=
  let s0 :=
    if s.input_.is_closed || !s.getCanSentFin then { s with saveTransFunc_ := transmit } else s
  TCPSender.pushLoop cfg transmit (s0.input_.bytes_buffered + 2) s0 []

/-- `TCPSender::make_empty_message()`. -/
def TCPSender.make_empty_message (s : TCPSender) : TCPSenderMessage :=
  { seqno := Wrap32.wrap (add64 (add64 (b2n s.has_isn_) s.input_.bytes_popped) (b2n s.has_fin_))
      s.isn_
    SYN := false
    payload := []
    FIN := false
    RST := s.input_.has_error }

/-- The part of `TCPSender::receive` before the final `if (getCanSentFin())`. -/
def TCPSender.receiveAck (s : TCPSender) (msg : TCPReceiverMessage) : TCPSender :=
  if msg.RST then
    { s with
      input_ := s.input_.close.set_error
      has_isn_ := false
      peer_win_size_ := 0 }
  else
    let s1 :=
      if msg.window_size ≠ 0 then { s with peer_win_size_ := msg.window_size }
      else
        { s with
          peer_win_size_ := 1
          retransmissionTimer_ := s.retransmissionTimer_.updateWinNonZero 0 }
    match msg.ackno with
    | some ackno =>
      if s1.has_isn_ then
        let checkpoint := add64 s1.input_.bytes_popped (b2n s1.has_isn_)
        let u := s1.retransmissionTimer_.updateAcknoList (ackno.unwrap s1.isn_ checkpoint)
          s1.isn_ checkpoint
        let t :=
          if u.1 then
            ((u.2.resetRTOms s1.initial_RTO_ms_).resetTimer
              s1.cur_ms_).resetConsecutiveRetransmissions
          else u.2
        { s1 with
          retransmissionTimer_ := t
          largest_ackno := max s1.largest_ackno (ackno.unwrap s1.isn_ checkpoint) }
      else s1
    | none => s1

/-- `TCPSender::receive( const TCPReceiverMessage& msg )`. -/
def TCPSender.receive (cfg : TCPConfig) (s : TCPSender) (msg : TCPReceiverMessage) :
    Option Transmitted :=
  let s1 := s.receiveAck msg
  if s1.getCanSentFin then s1.push cfg s1.saveTransFunc_ else some ⟨s1, [], false⟩

/-- `TCPSender::tick( uint64_t ms_since_last_tick, const TransmitFunction& transmit )`, called
with a callable transmit function. -/
def TCPSender.tick (s : TCPSender) (ms_since_last_tick : Nat) : Transmitted :=
  let s1 := { s with cur_ms_ := add64 s.cur_ms_ ms_since_last_tick }
  let u := s1.retransmissionTimer_.updateRetransmissionTimer s1.cur_ms_
  ⟨{ s1 with retransmissionTimer_ := u.1 }, u.2, false⟩

/-- The calls made on a sender: the writer of its input stream (`push`, `close`), `push` with a
callable transmit function, `receive` and `tick`. -/
inductive SenderOp where
  | write (data : Bytes)
  | close
  | push
  | receive (msg : TCPReceiverMessage)
  | tick (ms_since_last_tick : Nat)
  deriving DecidableEq, Repr

/-- One call on a sender: `none` when a loop does not end. The segments transmitted by the call
are appended to those transmitted before, and a thrown `std::bad_function_call` is remembered. -/
def Transmitted.step (cfg : TCPConfig) (t : Transmitted) : SenderOp → Option Transmitted
  | .write data => some { t with sender := { t.sender with input_ := t.sender.input_.push data } }
  | .close => some { t with sender := { t.sender with input_ := t.sender.input_.close } }
  | .push =>
    (t.sender.push cfg true).map fun r =>
      ⟨r.sender, t.segments ++ r.segments, t.threw || r.threw⟩
  | .receive msg =>
    (t.sender.receive cfg msg).map fun r =>
      ⟨r.sender, t.segments ++ r.segments, t.threw || r.threw⟩
  | .tick ms =>
    some ⟨(t.sender.tick ms).sender, t.segments ++ (t.sender.tick ms).segments, t.threw⟩

/-- A sequence of calls on a sender, first call first. -/
def Transmitted.run (cfg : TCPConfig) : Transmitted → List SenderOp → Option Transmitted
  | t, [] => some t
  | t, op :: ops => (t.step cfg op).bind fun t1 => Transmitted.run cfg t1 ops

/-- A fresh sender that has transmitted nothing. -/
def Transmitted.new (capacity : Nat) (isn : Wrap32) (initial_RTO_ms : Nat) : Transmitted :=
  ⟨TCPSender.new (ByteStream.new capacity) isn initial_RTO_ms, [], false⟩

/-- A fresh receiver whose output stream has the given capacity. -/
def TCPReceiver.fresh (capacity : Nat) : TCPReceiver :=
  TCPReceiver.new (Reassembler.new (ByteStream.new capacity))

/-! ## network_interface.hh, network_interface.cc -/

/-- Modelled from the spec: `EthernetAddress` (`ethernet_header.hh`) is not among the sources;
an address is six octets. -/
abbrev EthernetAddress := List Nat

/-- Modelled from the spec: `ETHERNET_BROADCAST`, the address `ff:ff:ff:ff:ff:ff`. -/
def ETHERNET_BROADCAST : EthernetAddress := [255, 255, 255, 255, 255, 255]

/-- Modelled from the spec: `EthernetHeader::TYPE_IPv4 = 0x0800`. -/
abbrev TYPE_IPv4 : Nat := 2048

/-- Modelled from the spec: `EthernetHeader::TYPE_ARP = 0x0806`. -/
abbrev TYPE_ARP : Nat := 2054

/-- Modelled from the spec: `ARPMessage::OPCODE_REQUEST = 1`. -/
abbrev OPCODE_REQUEST : Nat := 1

/-- Modelled from the spec: `ARPMessage::OPCODE_REPLY = 2`. -/
abbrev OPCODE_REPLY : Nat := 2

/-- Modelled from the spec: `ARPMessage::TYPE_ETHERNET = 1`. -/
abbrev TYPE_ETHERNET : Nat := 1

/-- Modelled from the spec: `IPv4Header` (`ipv4_header.hh`) is not among the sources; the fields
are those of an IPv4 header without options. An address is its 32-bit numeric value. -/
structure IPv4Header where
  ver : Nat
  hlen : Nat
  tos : Nat
  len : Nat
  id : Nat
  df : Bool
  mf : Bool
  offset : Nat
  ttl : Nat
  proto : Nat
  cksum : Nat
  src : Nat
  dst : Nat
  deriving DecidableEq, Repr

/-- Modelled from the spec: `IPv4Header::compute_checksum()` is not among the sources; the spec
says the header checksum is recomputed. It is taken to be the Internet checksum of the ten
16-bit words of the header with the checksum word zero. -/
def IPv4Header.compute_checksum (h : IPv4Header) : IPv4Header :=
  let words : List Nat :=
    [(h.ver % 16) * 4096 + (h.hlen % 16) * 256 + h.tos % 256, h.len % 65536, h.id % 65536,
      (if h.df then 16384 else 0) + (if h.mf then 8192 else 0) + h.offset % 8192,
      (h.ttl % 256) * 256 + h.proto % 256, 0, h.src / 65536 % 65536, h.src % 65536,
      h.dst / 65536 % 65536, h.dst % 65536]
  let sum := words.foldl (fun a w => a + w) 0
  let fold1 := sum % 65536 + sum / 65536
  let fold2 := fold1 % 65536 + fold1 / 65536
  { h with cksum := 65535 - fold2 }

/-- Modelled from the spec: `InternetDatagram` (`ipv4_datagram.hh`) is not among the sources: a
header and a payload. -/
structure InternetDatagram where
  header : IPv4Header
  payload : Bytes
  deriving DecidableEq, Repr

/-- Modelled from the spec: `ARPMessage` (`arp_message.hh`) is not among the sources; the fields
are those `genArpEthernetFrame` assigns (the two address sizes are constants). -/
structure ARPMessage where
  hardware_type : Nat
  protocol_type : Nat
  opcode : Nat
  sender_ethernet_address : EthernetAddress
  sender_ip_address : Nat
  target_ethernet_address : EthernetAddress
  target_ip_address : Nat
  deriving DecidableEq, Repr

/-- Modelled from the spec: the ARP message contract. A message is well-formed when it is for
Ethernet and IPv4 and its opcode is REQUEST or REPLY; the parser reports an error otherwise. -/
def ARPMessage.supported (m : ARPMessage) : Bool :=
  m.hardware_type == TYPE_ETHERNET && m.protocol_type == TYPE_IPv4
    && (m.opcode == OPCODE_REQUEST || m.opcode == OPCODE_REPLY)

/-- Modelled from the spec: the payload of a frame is an opaque byte buffer, written by a
serializer and read by a parser that can report an error. A buffer is represented by what it
was serialized from; any other buffer is `other`. -/
inductive Payload where
  | datagram (dgram : InternetDatagram)
  | arp (msg : ARPMessage)
  | other (bytes : List Nat)
  deriving DecidableEq, Repr

/-- Modelled from the spec: `InternetDatagram::parse`. The buffer of a serialized datagram
parses to that datagram; any other buffer sets the parser's error flag (`none`). -/
def Payload.parseDatagram : Payload → Option InternetDatagram
  | .datagram dgram => some dgram
  | _ => none

/-- Modelled from the spec: `ARPMessage::parse`. The buffer of a serialized well-formed message
parses to that message; any other buffer sets the parser's error flag (`none`). -/
def Payload.parseARP : Payload → Option ARPMessage
  | .arp msg => if msg.supported then some msg else none
  | _ => none

/-- Modelled from the spec: `EthernetHeader` (`ethernet_header.hh`) is not among the sources. -/
structure EthernetHeader where
  dst : EthernetAddress
  src : EthernetAddress
  type : Nat
  deriving DecidableEq, Repr

/-- Modelled from the spec: `EthernetFrame` (`ethernet_frame.hh`) is not among the sources. -/
structure EthernetFrame where
  header : EthernetHeader
  payload : Payload
  deriving DecidableEq, Repr

/-- `NetworkInterface::MacAddrUnit`. -/
structure MacAddrUnit where
  mac_addr_ : EthernetAddress
  learning_time_ : Nat
  deriving DecidableEq, Repr

/-- `NetworkInterface::ARP_INTERVAL_`. -/
abbrev ARP_INTERVAL_ : Nat := 5000

/-- `NetworkInterface::ARP_TIMEOUT_`. -/
abbrev ARP_TIMEOUT_ : Nat := 30000

/-- `NetworkInterface`, without its name and its output port: the frames handed to `transmit`
are returned by the member functions. An `unordered_map` is a function from keys: `none` for a
key that `find` does not find; `map_queue_` is only accessed with `operator[]`, which gives an
empty queue for a new key. An `Address` is its `ipv4_numeric()` value. -/
structure NetworkInterface where
  ethernet_address_ : EthernetAddress
  ip_address_ : Nat
  datagrams_received_ : List InternetDatagram
  cur_time_ : Nat
  map_ip_ : Nat → Option MacAddrUnit
  map_queue_ : Nat → List InternetDatagram
  map_send_time_ : Nat → Option Nat

/-- `NetworkInterface( name, port, ethernet_address, ip_address )`. -/
def NetworkInterface.new (ethernet_address : EthernetAddress) (ip_address : Nat) :
    NetworkInterface :=
  { ethernet_address_ := ethernet_address, ip_address_ := ip_address, datagrams_received_ := [],
    cur_time_ := 0, map_ip_ := fun _ => none, map_queue_ := fun _ => [],
    map_send_time_ := fun _ => none }

/-- `NetworkInterface::datagramToEthernetFrame` on a datagram. -/
def datagramToEthernetFrame (internetDatagram : InternetDatagram) (dst src : EthernetAddress)
    (type : Nat) : EthernetFrame :=
  { header := { dst := dst, src := src, type := type % 65536 },
    payload := .datagram internetDatagram }

/-- `NetworkInterface::datagramToEthernetFrame<ARPMessage>`. -/
def arpToEthernetFrame (arpMessage : ARPMessage) (dst src : EthernetAddress) (type : Nat) :
    EthernetFrame :=
  { header := { dst := dst, src := src, type := type % 65536 }, payload := .arp arpMessage }

/-- `NetworkInterface::genArpEthernetFrame` with the default hardware and protocol types. -/
def genArpEthernetFrame (opcode : Nat) (src dst : EthernetAddress) (src_ip dst_ip : Nat) :
    ARPMessage :=
  { hardware_type := TYPE_ETHERNET, protocol_type := TYPE_IPv4, opcode := opcode,
    sender_ip_address := src_ip, target_ip_address := dst_ip, sender_ethernet_address := src,
    target_ethernet_address := dst }

/-- `NetworkInterface::send_datagram( dgram, next_hop )`: the interface afterwards and the
frames transmitted. -/
def NetworkInterface.send_datagram (n : NetworkInterface) (dgram : InternetDatagram)
    (next_hop : Nat) : NetworkInterface × List EthernetFrame :=
  let ip_numeric := next_hop
  let miss : NetworkInterface × List EthernetFrame :=
    let n1 :=
      { n with
        map_queue_ :=
          (Function.update n.map_queue_ ip_numeric (n.map_queue_ ip_numeric ++ [dgram])) }
    let ARP_msg := genArpEthernetFrame OPCODE_REQUEST n.ethernet_address_ [0, 0, 0, 0, 0, 0]
      n.ip_address_ ip_numeric
    let frame := arpToEthernetFrame ARP_msg ETHERNET_BROADCAST n.ethernet_address_ TYPE_ARP
    match n1.map_send_time_ ip_numeric with
    | some send_time =>
      if sub64 n1.cur_time_ send_time ≤ ARP_INTERVAL_ then (n1, []) else (n1, [frame])
    | none =>
      ({ n1 with map_send_time_ := Function.update n1.map_send_time_ ip_numeric n1.cur_time_ },
        [frame])
  match n.map_ip_ ip_numeric with
  | none => miss
  | some it_res =>
    if sub64 n.cur_time_ it_res.learning_time_ ≥ ARP_TIMEOUT_ then miss
    else
      (n, [datagramToEthernetFrame dgram it_res.mac_addr_ n.ethernet_address_ TYPE_IPv4])

/-- `NetworkInterface::transmitDgramInQueue`: the queue for `sender_ip_address` is emptied from
the front, each datagram transmitted as an IPv4 frame to `senderMac`. -/
def NetworkInterface.transmitDgramInQueue (n : NetworkInterface) (sender_ip_address : Nat)
    (senderMac : EthernetAddress) : NetworkInterface × List EthernetFrame :=
  let rec loop : List InternetDatagram → List EthernetFrame → List EthernetFrame
    | [], out => out
    | dgram :: senderQueue, out =>
      loop senderQueue
        (out ++ [datagramToEthernetFrame dgram senderMac n.ethernet_address_ TYPE_IPv4])
  ({ n with map_queue_ := Function.update n.map_queue_ sender_ip_address [] },
    loop (n.map_queue_ sender_ip_address) [])

/-- `NetworkInterface::recv_frame( frame )`: the interface afterwards and the frames
transmitted. -/
def NetworkInterface.recv_frame (n : NetworkInterface) (frame : EthernetFrame) :
    NetworkInterface × List EthernetFrame :=
  let dst := frame.header.dst
  if dst ≠ n.ethernet_address_ ∧ dst ≠ ETHERNET_BROADCAST then (n, [])
  else if frame.header.type = TYPE_IPv4 then
    match frame.payload.parseDatagram with
    | some dgram => ({ n with datagrams_received_ := n.datagrams_received_ ++ [dgram] }, [])
    | none => (n, [])
  else if frame.header.type = TYPE_ARP then
    match frame.payload.parseARP with
    | some arpMessage =>
      let reply : List EthernetFrame :=
        if arpMessage.opcode = OPCODE_REQUEST ∧ arpMessage.target_ip_address = n.ip_address_ then
          [arpToEthernetFrame
            (genArpEthernetFrame OPCODE_REPLY n.ethernet_address_
              arpMessage.sender_ethernet_address n.ip_address_ arpMessage.sender_ip_address)
            arpMessage.sender_ethernet_address n.ethernet_address_ TYPE_ARP]
        else []
      let n1 :=
        { n with
          map_ip_ :=
            (Function.update n.map_ip_ arpMessage.sender_ip_address
              (some ⟨arpMessage.sender_ethernet_address, n.cur_time_⟩)) }
      let flushed := n1.transmitDgramInQueue arpMessage.sender_ip_address
        arpMessage.sender_ethernet_address
      (flushed.1, reply ++ flushed.2)
    | none => (n, [])
  else (n, [])

/-- `NetworkInterface::tick( ms_since_last_tick )`. -/
def NetworkInterface.tick (n : NetworkInterface) (ms_since_last_tick : Nat) : NetworkInterface :=
  { n with cur_time_ := add64 n.cur_time_ ms_since_last_tick }

/-- The calls made on a network interface. -/
inductive InterfaceOp where
  | send_datagram (dgram : InternetDatagram) (next_hop : Nat)
  | recv_frame (frame : EthernetFrame)
  | tick (ms_since_last_tick : Nat)
  deriving DecidableEq, Repr

/-- A network interface together with the frames it has transmitted so far, oldest first, each
with the value of `cur_time_` at which it was transmitted. -/
structure Transmitting where
  interface : NetworkInterface
  frames : List (Nat × EthernetFrame)

/-- One call on a network interface. -/
def Transmitting.step (t : Transmitting) : InterfaceOp → Transmitting
  | .send_datagram dgram next_hop =>
    ⟨(t.interface.send_datagram dgram next_hop).1,
      t.frames ++ (t.interface.send_datagram dgram next_hop).2.map
        (fun frame => (t.interface.cur_time_, frame))⟩
  | .recv_frame frame =>
    ⟨(t.interface.recv_frame frame).1,
      t.frames ++ (t.interface.recv_frame frame).2.map
        (fun f => (t.interface.cur_time_, f))⟩
  | .tick ms_since_last_tick => ⟨t.interface.tick ms_since_last_tick, t.frames⟩

/-- A sequence of calls on a network interface, first call first. -/
def Transmitting.run (t : Transmitting) (ops : List InterfaceOp) : Transmitting :=
  ops.foldl Transmitting.step t

/-! ## router.cc -/

/-- Modelled from the spec: `router.hh` is not among the sources. An entry of `router_table_`
holds the four values `add_route` emplaces, under the names `routeHelperFunc` reads them by. -/
structure RouteEntry where
  route_prefix_ : Nat
  prefix_length_ : Nat
  next_hop_ : Option Nat
  interface_num_ : Nat
  deriving DecidableEq, Repr

/-- Modelled from the spec: `Router` (`router.hh` is not among the sources): the interfaces, by
index, and the routing table. The interfaces are held by value, so two entries of
`_interfaces` are two interfaces. -/
structure Router where
  _interfaces : List NetworkInterface
  router_table_ : List RouteEntry

/-- `Router::add_route( route_prefix, prefix_length, next_hop, interface_num )`. -/
def Router.add_route (r : Router) ( route_prefix prefix_length : Nat) (next_hop : Option Nat)
    (interface_num : Nat) : Router :=
  { r with
    router_table_ :=
      r.router_table_ ++ [⟨ route_prefix, prefix_length, next_hop, interface_num⟩] }

/-- The locals `route_interface`, `max_prefix` and `next_hop` of `Router::routeHelperFunc`. -/
structure RouteChoice where
  route_interface : Nat
  max_prefix : Nat
  next_hop : Option Nat
  deriving DecidableEq, Repr

/-- The `for` loop of `Router::routeHelperFunc` over the routing table from the iterator on.
`ip_numeric` and `route_prefix_` are `uint32_t`; a shift by `32 - cur_prefix_len` is only
defined for a prefix length of at most 32. -/
def Router.routeLoop (ip_numeric : Nat) : RouteChoice → List RouteEntry → RouteChoice
  | c, [] => c
  | c, item :: rest =>
    let cur_prefix_len := item.prefix_length_
    let ip_comp := if cur_prefix_len > 0 then ip_numeric >>> (32 - cur_prefix_len) else 0
    let prefix_comp :=
      if cur_prefix_len > 0 then item.route_prefix_ >>> (32 - cur_prefix_len) else 0
    if ip_comp = prefix_comp then
      if cur_prefix_len ≥ c.max_prefix then
        Router.routeLoop ip_numeric ⟨item.interface_num_, cur_prefix_len, item.next_hop_⟩ rest
      else Router.routeLoop ip_numeric c rest
    else Router.routeLoop ip_numeric c rest

/-- A call `_interfaces[interface_num]->send_datagram( dgram, next_hop )`. -/
structure SendCall where
  interface_num : Nat
  dgram : InternetDatagram
  next_hop : Nat
  deriving DecidableEq, Repr

/-- A router at work: its state, the `send_datagram` calls it has made so far and the frames its
interfaces have transmitted so far (with the index of the interface), oldest first. -/
structure Routing where
  router : Router
  calls : List SendCall
  frames : List (Nat × EthernetFrame)

/-- `Router::routeHelperFunc( dgram )`. -/
def Router.routeHelperFunc (t : Routing) (dgram : InternetDatagram) : Routing :=
  let ip_numeric := dgram.header.dst
  let c := Router.routeLoop ip_numeric ⟨t.router._interfaces.length, 0, none⟩
    t.router.router_table_
  if c.route_interface < t.router._interfaces.length then
    match t.router._interfaces[c.route_interface]? with
    | some interface =>
      let next_hop :=
        match c.next_hop with
        | some address => address
        | none => ip_numeric
      let sent := interface.send_datagram dgram next_hop
      { router :=
          { t.router with _interfaces := t.router._interfaces.set c.route_interface sent.1 }
        calls := t.calls ++ [⟨c.route_interface, dgram, next_hop⟩]
        frames := t.frames ++ sent.2.map (fun frame => (c.route_interface, frame)) }
    | none => t
  else t

/-- The body of the `while` loop of `Router::route` before `dgram_queue.pop()`, on the datagram
at the front of the queue: `ttl` is an `int`, the new TTL is cast to `uint8_t`. -/
def Router.routeFront (t : Routing) (dgram : InternetDatagram) : Routing :=
  let ttl : Int := dgram.header.ttl
  let dgram1 : InternetDatagram :=
    { dgram with
      header := ({ dgram.header with ttl := (max (ttl - 1) 0).toNat % 256 }).compute_checksum }
  if dgram1.header.ttl ≠ 0 then Router.routeHelperFunc t dgram1 else t

/-- The `while` loop of `Router::route` on the interface with index `i`, with a bound on the
number of iterations: `none` when the bound is used up while the queue is not empty. -/
def Router.drain (i : Nat) : Nat → Routing → Option Routing
  | fuel, t =>
    match t.router._interfaces[i]? with
    | none => some t
    | some item =>
      match item.datagrams_received_ with
      | [] => some t
      | dgram :: _ =>
        match fuel with
        | 0 => none
        | fuel + 1 =>
          let t1 := Router.routeFront t dgram
          let t2 : Routing :=
            match t1.router._interfaces[i]? with
            | some item1 =>
              { t1 with
                router :=
                  { t1.router with
                    _interfaces := t1.router._interfaces.set i
                      { item1 with datagrams_received_ := item1.datagrams_received_.tail } } }
            | none => t1
          Router.drain i fuel t2

/-- The `for` loop of `Router::route` over the interfaces with the given indices. The `while`
loop on an interface is run with the length of its queue as the bound: an iteration pops one
datagram and pushes none. -/
def Router.routeFrom : List Nat → Routing → Option Routing
  | [], t => some t
  | i :: rest, t =>
    let bound :=
      match t.router._interfaces[i]? with
      | some item => item.datagrams_received_.length
      | none => 0
    (Router.drain i bound t).bind (Router.routeFrom rest)

/-- `Router::route()`. -/
def Router.route (r : Router) : Option Routing :=
  Router.routeFrom (List.range r._interfaces.length) ⟨r, [], []⟩

/-! ## Specification vocabulary -/

/-- The consistency of a stream state: the buffered count is the total length of the queued
views, the counters differ by it, it fits the capacity, the capacity is a 64-bit value and no
queued view is empty. -/
structure StreamInv (s : ByteStream) : Prop where
  buffered_eq : s.buffered_ = s.content.length
  counters : s.bytes_pushed_ = s.bytes_popped_ + s.buffered_
  le_capacity : s.buffered_ ≤ s.capacity_
  capacity_lt : s.capacity_ < U64
  nonempty : ∀ v ∈ s.view_queue, v ≠ []

/-- Two to the 63: stream indices below it can be added without wrapping. -/
abbrev I63 : Nat := 9223372036854775808

/-- What a merge of the stored extent `(c, cur)` with the incoming extent `(f, d)` holds at the
absolute index `p`: the incoming byte when `p` lies in the incoming extent, the stored byte
otherwise. -/
def mergedAt (c f : Nat) (cur d : Bytes) (p : Nat) : Char :=
  if f ≤ p ∧ p < f + d.length then strAt d (p - f) else strAt cur (p - c)

/-- The stored units are in ascending order and any two of them are separated by at least one
missing index. -/
def Separated (l : List PendingBytesUnit) : Prop :=
  l.Pairwise fun a b => a.first_index_ + a.data_.length < b.first_index_

/-- Every stored unit starts at `lo` or later, ends inside the 64-bit range and has the
property `Q` (of a first index and a payload). -/
def UnitsOk (Q : Nat → Bytes → Prop) (lo : Nat) (l : List PendingBytesUnit) : Prop :=
  ∀ u ∈ l, lo ≤ u.first_index_ ∧ u.first_index_ + u.data_.length < U64
    ∧ Q u.first_index_ u.data_

/-- A property of extents that survives `getMergedData` on two extents that overlap or touch. -/
def MergeClosed (Q : Nat → Bytes → Prop) : Prop :=
  ∀ (c f : Nat) (cur d : Bytes), 0 < c → c + cur.length < U64 → f + d.length < U64 →
    c ≤ f + d.length → f ≤ c + cur.length → Q c cur → Q f d →
    Q (min c f) (PendingBytes.getMergedData c f cur d).2

/-- The payload `d` stored at first index `idx` agrees with the stream `s`: it lies inside `s`
and each of its bytes is the byte of `s` at the same absolute index. -/
def Matches (s : Bytes) (idx : Nat) (d : Bytes) : Prop :=
  idx + d.length ≤ s.length ∧ ∀ j, j < d.length → d[j]? = s[idx + j]?

/-- The consistency of a reassembler state: its output stream is consistent, the stored units
are ordered and separated, and each of them starts after the first unassembled index, ends
inside the 64-bit range and has the property `Q`. -/
structure ReInv (Q : Nat → Bytes → Prop) (r : Reassembler) : Prop where
  stream : StreamInv r.output_
  sep : Separated r.reassembler_.bytes_list_
  units : UnitsOk Q (r.output_.bytes_pushed_ + 1) r.reassembler_.bytes_list_

/-- The last block of `Reassembler::insert` ("push data into bytestream" and the update of
`pending_bytes_`), as a function of the object and of the pending list `p1` left by
`insert_bytes_list`. -/
def Reassembler.pushFront (r : Reassembler) (p1 : PendingBytes) : Reassembler :=
  if p1.unpushed_first_index_ = r.output_.bytes_pushed then
    let d := p1.delete_bytes_list r.output_.available_capacity
    let out := r.output_.push d.2.1
    let p2 := d.2.2
    { output_ := if d.1 then out.close else out
      pending_bytes_ := p2.getPendingLen
      reassembler_ := p2 }
  else
    { output_ := r.output_, pending_bytes_ := p1.getPendingLen, reassembler_ := p1 }

/-- A call is consistent with the stream `s`: an `insert(i, d, l)` carries `d = s[i, i+|d|)`,
and `l` only when `i + |d| = |s|`. -/
def ReassemblerOp.ConsistentWith (s : Bytes) : ReassemblerOp → Prop
  | .insert first_index data is_last_substring =>
    Matches s first_index data
      ∧ (is_last_substring = true → first_index + data.length = s.length)
  | .pop _ => True

/-- The consistency of an observed reassembler with the stream `s`: the state is consistent,
every stored payload agrees with `s`, and the bytes written so far are the first
`bytes_pushed` bytes of `s`. -/
structure ObsInv (s : Bytes) (o : Observed) : Prop where
  re : ReInv (Matches s) o.r
  pre : o.written <+: s
  len : o.written.length = o.r.output_.bytes_pushed_

instance (s : Bytes) (idx : Nat) (d : Bytes) : Decidable (Matches s idx d) := by
  unfold Matches
  exact inferInstance

instance (s : Bytes) (op : ReassemblerOp) : Decidable (op.ConsistentWith s) := by
  cases op <;> unfold ReassemblerOp.ConsistentWith <;> exact inferInstance

/-- The first part of `TCPReceiver::receive`, up to and including the call of
`Reassembler::insert`. -/
def TCPReceiver.afterInsert (r : TCPReceiver) (message : TCPSenderMessage) : TCPReceiver :=
  let r1 := if message.SYN then { r with ISN_ := message.seqno, has_ISN_ := true } else r
  let offset := if message.SYN then 1 else 0
  if r1.has_ISN_ then
    let checkpoint := add64 r1.reassembler_.output_.bytes_pushed 1
    { r1 with
      reassembler_ := r1.reassembler_.insert
        (add64 (sub64 (message.seqno.unwrap r1.ISN_ checkpoint) 1) offset)
        message.payload (message.FIN || message.RST) }
  else r1

/-- While a receiver has an ISN, the stored `ackno_` is one plus the bytes pushed to the output
plus one if the output is closed. -/
def AcknoInv (r : TCPReceiver) : Prop :=
  r.has_ISN_ = true →
    r.ackno_ = add64 (add64 1 r.reassembler_.output_.bytes_pushed)
      (b2n r.reassembler_.output_.is_closed)

/-- Two to the 31: while fewer sequence numbers than this have been used, a sequence number is
its own distance from the ISN and `unwrap` is exact. -/
abbrev I31 : Nat := 2147483648

/-- The distance of a segment's seqno from the ISN on the 32-bit circle. -/
def seqDist (isn : Wrap32) (m : TCPSenderMessage) : Nat :=
  (m.seqno.raw_value_ + U32 - isn.raw_value_ % U32) % U32

/-- The distance from the ISN of the first sequence number after a segment. -/
def seqEnd (isn : Wrap32) (m : TCPSenderMessage) : Nat :=
  seqDist isn m + m.sequence_length

/-- The segments of the outstanding list, oldest first. -/
def TCPSender.outstanding (s : TCPSender) : List TCPSenderMessage :=
  s.retransmissionTimer_.expected_ackno_list_.map fun e => e.mes_

/-- The outstanding list of a sender is in sending order: every segment occupies at least one
sequence number and ends no later than the next sequence number to be sent, and starts and ends
do not decrease along the list. -/
structure Outstanding (s : TCPSender) : Prop where
  units : ∀ m ∈ s.outstanding,
    1 ≤ m.sequence_length
      ∧ seqEnd s.isn_ m ≤ s.input_.bytes_popped_ + b2n s.has_isn_ + b2n s.input_.is_finished
  ordered : s.outstanding.Pairwise fun a b =>
    seqDist s.isn_ a ≤ seqDist s.isn_ b ∧ seqEnd s.isn_ a ≤ seqEnd s.isn_ b

/-- The consistency of a sender that has not been reset: its input stream is consistent, the ISN
is a 32-bit value, nothing is outstanding before the SYN is sent, and the outstanding list is in
sending order as long as fewer than 2^31 sequence numbers have been used. -/
structure SenderInv (s : TCPSender) : Prop where
  stream : StreamInv s.input_
  isn_lt : s.isn_.raw_value_ < U32
  no_syn : s.has_isn_ = false → s.outstanding = []
  outstanding : s.input_.bytes_popped_ + 2 ≤ I31 → Outstanding s

/-- The number of iterations the loop of `push` can still make: one for the SYN, one for each
buffered byte, one for the FIN. -/
def TCPSender.pushMeasure (s : TCPSender) : Nat :=
  s.input_.buffered_ + b2n (!s.has_isn_) + b2n (!s.has_fin_)

/-- The number of bytes one iteration of the loop of `push` asks `read` for. -/
def TCPSender.transLen (cfg : TCPConfig) (s : TCPSender) : Nat :=
  min (min cfg.MAX_PAYLOAD_SIZE (sub64 s.peer_win_size_ s.sequence_numbers_in_flight))
    s.input_.bytes_buffered

/-- The segment `push` builds once everything has been read from the closed input and the FIN
fits: no payload, `FIN` set, at the sequence number after the last byte. -/
def TCPSender.finSegment (s : TCPSender) : TCPSenderMessage :=
  { seqno := Wrap32.wrap (add64 s.input_.bytes_popped 1) s.isn_
    SYN := false
    payload := []
    FIN := true
    RST := s.input_.has_error }

/-- The state of a receiver that has got the SYN and the first `p` bytes of `s`, in order, and
from which nothing has been read: nothing is pending, the output holds `s[0, p)`, and it is
closed exactly when `c` holds. -/
structure RecvAt (s : Bytes) (isn : Wrap32) (cap_out p : Nat) (c : Bool) (r : TCPReceiver) :
    Prop where
  has_ISN : r.has_ISN_ = true
  ISN : r.ISN_ = isn
  list : r.reassembler_.reassembler_.bytes_list_ = []
  stream : StreamInv r.reassembler_.output_
  capacity : r.reassembler_.output_.capacity_ = cap_out
  content : r.reassembler_.output_.content = s.take p
  popped : r.reassembler_.output_.bytes_popped_ = 0
  closed : r.reassembler_.output_.is_close_ = c
  no_error : r.reassembler_.output_.error_ = false
  ackno : r.ackno_ = p + 1 + b2n c

/-- The segments `segs` carry the bytes `s[p, q)` in order, one after the other, without SYN or
RST; `fin` tells whether the last of them has FIN, and no other has. -/
def Chain (s : Bytes) (isn : Wrap32) : Nat → List TCPSenderMessage → Nat → Bool → Prop
  | p, [], q, fin => q = p ∧ fin = false
  | p, m :: rest, q, fin =>
    m.seqno = Wrap32.wrap (p + 1) isn ∧ m.SYN = false ∧ m.RST = false
      ∧ m.payload = (s.drop p).take m.payload.length
      ∧ p + m.payload.length ≤ s.length
      ∧ (if m.FIN then rest = [] ∧ q = p + m.payload.length ∧ fin = true
          else Chain s isn (p + m.payload.length) rest q fin)

/-- The segment `m` occupies the sequence numbers `[x, x + sequence_length)` for an `x` with
`lo ≤ x` and `x + sequence_length ≤ hi`, and it occupies at least one. -/
def InRange (isn : Wrap32) (lo hi : Nat) (m : TCPSenderMessage) : Prop :=
  ∃ x, m.seqno = Wrap32.wrap x isn ∧ lo ≤ x ∧ 1 ≤ m.sequence_length
    ∧ x + m.sequence_length ≤ hi

/-- The state of a sender of the closed input `s` inside a round: SYN sent and acknowledged,
the first `p` bytes acknowledged (`largest_ackno = p + 1`), the next `j` bytes read and in
flight, FIN not sent, the window `W`. -/
structure SendAt (s : Bytes) (isn : Wrap32) (W p j : Nat) (snd : TCPSender) : Prop where
  inv : SenderInv snd
  closed : snd.input_.is_close_ = true
  no_error : snd.input_.error_ = false
  popped : snd.input_.bytes_popped_ = p + j
  content : snd.input_.content = s.drop (p + j)
  isn_eq : snd.isn_ = isn
  has_isn : snd.has_isn_ = true
  has_fin : snd.has_fin_ = false
  acked : snd.largest_ackno = p + 1
  window : snd.peer_win_size_ = W
  in_flight : snd.sequence_numbers_in_flight = j
  entries : ∀ m ∈ snd.outstanding, InRange isn (p + 1) (p + j + 1) m
  last : ∀ m, snd.outstanding.getLast? = some m →
    ∃ x, m.seqno = Wrap32.wrap x isn ∧ p + 1 ≤ x ∧ x + m.sequence_length = p + j + 1
  saved : snd.saveTransFunc_ = true

/-- The state of a sender of the closed input `s` that has read `P` bytes, sent the SYN but not
the FIN, and whose outstanding segments lie in the sequence numbers `[a, P + 1)` and end at
`P + 1`. -/
structure Flight (s : Bytes) (isn : Wrap32) (a P : Nat) (snd : TCPSender) : Prop where
  inv : SenderInv snd
  closed : snd.input_.is_close_ = true
  no_error : snd.input_.error_ = false
  popped : snd.input_.bytes_popped_ = P
  content : snd.input_.content = s.drop P
  isn_eq : snd.isn_ = isn
  has_isn : snd.has_isn_ = true
  has_fin : snd.has_fin_ = false
  acked : snd.largest_ackno ≤ P + 1
  entries : ∀ m ∈ snd.outstanding, InRange isn a (P + 1) m
  last : ∀ m, snd.outstanding.getLast? = some m →
    ∃ x, m.seqno = Wrap32.wrap x isn ∧ a ≤ x ∧ x + m.sequence_length = P + 1
  saved : snd.saveTransFunc_ = true

/-- A sender and a receiver joined by a link that loses and reorders nothing: `wire` holds the
segments the sender has transmitted and the receiver has not yet been given, oldest first. -/
structure System where
  sender : TCPSender
  receiver : TCPReceiver
  wire : List TCPSenderMessage
  deriving DecidableEq, Repr

/-- One round: `sender.push`; every segment transmitted so far and not yet delivered goes to
`receiver.receive` in the order of transmission; `receiver.send()` goes to `sender.receive`. A
segment that `sender.receive` transmits itself (through the saved transmit function) is
delivered at the start of the next round. `none` when a loop of the sender does not end. -/
def System.round (cfg : TCPConfig) (sys : System) : Option System :=
  match sys.sender.push cfg true with
  | none => none
  | some r1 =>
    let rcv := (sys.wire ++ r1.segments).foldl TCPReceiver.receive sys.receiver
    match r1.sender.receive cfg rcv.send with
    | none => none
    | some r2 => some ⟨r2.sender, rcv, r2.segments⟩

/-- The round repeated `n` times. -/
def System.rounds (cfg : TCPConfig) : Nat → System → Option System
  | 0, sys => some sys
  | n + 1, sys => (sys.round cfg).bind (System.rounds cfg n)

/-- A fresh sender whose input stream has been given `s` and closed, and a fresh receiver. -/
def System.start (s : Bytes) (cap_in cap_out : Nat) (isn : Wrap32) (initial_RTO_ms : Nat) :
    System :=
  ⟨TCPSender.new (((ByteStream.new cap_in).push s).close) isn initial_RTO_ms,
    TCPReceiver.fresh cap_out, []⟩

/-- The system at the start of a round, after the SYN and the first `p` bytes of `s` have been
delivered and acknowledged, with bytes still to send. -/
structure SysAt (s : Bytes) (isn : Wrap32) (cap_out p : Nat) (sys : System) : Prop where
  sender : SendAt s isn (min (cap_out - p) 65535) p 0 sys.sender
  receiver : RecvAt s isn cap_out p false sys.receiver
  wire : sys.wire = []
  lt : p < s.length

/-- The system at the start of a round, after all of `s` has been delivered and acknowledged and
`sender.receive` has transmitted the FIN segment, which is still on the wire. -/
structure SysFin (s : Bytes) (isn : Wrap32) (cap_out : Nat) (sys : System) : Prop where
  inv : SenderInv sys.sender
  has_isn : sys.sender.has_isn_ = true
  has_fin : sys.sender.has_fin_ = true
  buffered : sys.sender.input_.bytes_buffered = 0
  receiver : RecvAt s isn cap_out s.length false sys.receiver
  wire : Chain s isn s.length sys.wire s.length true

/-- The state of a sender before its first `push`, with `s` written to its input and the input
closed. -/
structure SendStart (s : Bytes) (isn : Wrap32) (snd : TCPSender) : Prop where
  inv : SenderInv snd
  closed : snd.input_.is_close_ = true
  no_error : snd.input_.error_ = false
  popped : snd.input_.bytes_popped_ = 0
  content : snd.input_.content = s
  isn_eq : snd.isn_ = isn
  has_isn : snd.has_isn_ = false
  has_fin : snd.has_fin_ = false
  acked : snd.largest_ackno = 0
  window : snd.peer_win_size_ = 1

/-- The goal of the transfer: the bytes written to the receiver's output are exactly `s` (they
are all still buffered, nothing has been read), the output is closed, and it is finished once
these bytes are read. -/
def Done (s : Bytes) (sys : System) : Prop :=
  sys.receiver.reassembler_.output_.content = s
    ∧ sys.receiver.reassembler_.output_.bytes_popped = 0
    ∧ sys.receiver.reassembler_.output_.bytes_pushed = s.length
    ∧ sys.receiver.reassembler_.output_.is_closed = true
    ∧ (sys.receiver.reassembler_.output_.pop s.length).is_finished = true

/-- The payload `d` stored at first index `idx` ends at or before the index `B`. -/
def EndsBy (B : Nat) (idx : Nat) (d : Bytes) : Prop := idx + d.length ≤ B

/-- The storage invariant of a reassembler: the state is consistent, every stored unit ends at
or before the first unacceptable index `capacity + bytes_popped` (which is `bytes_pushed +
available_capacity`), and `pending_bytes_` is what `getPendingLen` computes from the list. -/
structure StoreInv (r : Reassembler) : Prop where
  re : ReInv (EndsBy (r.output_.capacity_ + r.output_.bytes_popped_)) r
  pending : r.pending_bytes_ = r.reassembler_.getPendingLen

/-- What the storage of a reassembler has to satisfy: the pending list is sorted by first index,
any two stored units are separated by at least one missing index, every stored byte has its
index in `[bytes_pushed, bytes_pushed + available_capacity)`, `bytes_pending` is the sum of the
stored payload lengths, and buffered plus pending bytes fit the capacity. -/
structure Reassembler.StorageOk (r : Reassembler) : Prop where
  sorted : r.reassembler_.bytes_list_.Pairwise fun a b => a.first_index_ < b.first_index_
  separated : r.reassembler_.bytes_list_.Pairwise fun a b =>
    a.first_index_ + a.data_.length < b.first_index_
  in_window : ∀ u ∈ r.reassembler_.bytes_list_,
    r.output_.bytes_pushed ≤ u.first_index_
      ∧ u.first_index_ + u.data_.length
          ≤ r.output_.bytes_pushed + r.output_.available_capacity
  pending : r.bytes_pending = (r.reassembler_.bytes_list_.map fun u => u.data_.length).sum
  fits : r.output_.bytes_buffered + r.bytes_pending ≤ r.output_.capacity_

/-- The frame carries an ARP request for the IP address `ip`. -/
def EthernetFrame.isArpRequestFor (frame : EthernetFrame) (ip : Nat) : Bool :=
  match frame.payload with
  | .arp msg => msg.opcode == OPCODE_REQUEST && msg.target_ip_address == ip
  | _ => false

/-- The top `prefix_length_` bits (of 32) of the address `dst` equal those of the route's
prefix; a prefix length of 0 matches every address. -/
def RouteEntry.TopBitsMatch (R : RouteEntry) (dst : Nat) : Prop :=
  ∀ k, k < R.prefix_length_ → dst.testBit (31 - k) = R.route_prefix_.testBit (31 - k)

instance (R : RouteEntry) (dst : Nat) : Decidable (R.TopBitsMatch dst) := by
  unfold RouteEntry.TopBitsMatch
  exact inferInstance

/-- The choice `c` is what longest-prefix match gives for the address `dst` over the routes
`table`, with `size` interfaces: the initial values when no route matches; otherwise the values
of a matching route `R` such that no matching route has a larger prefix length and every
matching route added after `R` has a smaller one. -/
def LongestMatch (table : List RouteEntry) (dst size : Nat) (c : RouteChoice) : Prop :=
  ((∀ R ∈ table, ¬ R.TopBitsMatch dst) ∧ c = ⟨size, 0, none⟩)
    ∨ ∃ pre R post, table = pre ++ R :: post ∧ R.TopBitsMatch dst
        ∧ (∀ R1 ∈ pre, R1.TopBitsMatch dst → R1.prefix_length_ ≤ R.prefix_length_)
        ∧ (∀ R1 ∈ post, R1.TopBitsMatch dst → R1.prefix_length_ < R.prefix_length_)
        ∧ c = ⟨R.interface_num_, R.prefix_length_, R.next_hop_⟩

/-- The `send_datagram` calls `routeHelperFunc` makes for `dgram`, as a function of the routing
table and the number of interfaces. -/
def callsFor (table : List RouteEntry) (size : Nat) (dgram : InternetDatagram) :
    List SendCall :=
  if (Router.routeLoop dgram.header.dst ⟨size, 0, none⟩ table).route_interface < size then
    [⟨(Router.routeLoop dgram.header.dst ⟨size, 0, none⟩ table).route_interface, dgram,
      match (Router.routeLoop dgram.header.dst ⟨size, 0, none⟩ table).next_hop with
      | some address => address
      | none => dgram.header.dst⟩]
  else []

/-- The datagram `Router::route` passes on for `dgram`: the TTL decremented (not below 0) and
cast to `uint8_t`, the checksum recomputed. -/
def decremented (dgram : InternetDatagram) : InternetDatagram :=
  { dgram with
    header :=
      ({ dgram.header with
          ttl := (max ((dgram.header.ttl : Int) - 1) 0).toNat % 256 }).compute_checksum }

/-- The `send_datagram` calls one iteration of the `while` loop of `Router::route` makes for
the datagram `dgram` at the front of a queue. -/
def frontCalls (table : List RouteEntry) (size : Nat) (dgram : InternetDatagram) :
    List SendCall :=
  if (decremented dgram).header.ttl ≠ 0 then callsFor table size (decremented dgram) else []

/-- The received-datagram queues of the interfaces of a router, by index. -/
def Router.received (r : Router) : List (List InternetDatagram) :=
  r._interfaces.map fun item => item.datagrams_received_

/-- A datagram to `dst` with the given TTL, for the examples. -/
def exampleDatagram (dst ttl : Nat) : InternetDatagram :=
  ⟨⟨4, 5, 0, 20, 0, false, false, 0, ttl, 6, 0, 1, dst⟩, []⟩

/-- The router of the longest-prefix scenario of the spec: three interfaces and the routes
`0.0.0.0/0 → 0 via 999`, `10.0.0.0/8 → 1 direct`, `10.1.0.0/16 → 2 via 888`; four datagrams
wait on the first interface, to `10.1.2.3` (TTL 2), `10.2.0.5` (TTL 64) and `10.1.2.3` (TTL 1
and 0). -/
def exampleRouter : Router :=
  { _interfaces :=
      [{ NetworkInterface.new [1, 1, 1, 1, 1, 1] 100 with
          datagrams_received_ :=
            [exampleDatagram 167838211 2, exampleDatagram 167903237 64,
              exampleDatagram 167838211 1, exampleDatagram 167838211 0] },
        NetworkInterface.new [2, 2, 2, 2, 2, 2] 200, NetworkInterface.new [3, 3, 3, 3, 3, 3] 300]
    router_table_ :=
      [⟨0, 0, some 999, 0⟩, ⟨167772160, 8, none, 1⟩, ⟨167837696, 16, some 888, 2⟩] }

/-- The segments of the list were built by `push` one after the other, the first at the
sequence number `x` counted from the ISN without wrapping: each has the seqno of its position
and occupies at least one sequence number, the next one starts after the SYN and the payload of
the one before (a FIN does not move the position, `push` computes `seqno` from `bytes_popped`),
and a segment built after the last would start at `n`. -/
def Sent (isn : Wrap32) : Nat → List TCPSenderMessage → Nat → Prop
  | x, [], n => x = n
  | x, m :: rest, n =>
    m.seqno = Wrap32.wrap x isn ∧ 1 ≤ m.sequence_length
      ∧ Sent isn (x + b2n m.SYN + m.payload.length) rest n

/-- The consistency of a sender that has not been reset, without a bound on the bytes sent: the
outstanding list is a run of segments in sending order that ends at the next sequence number
`bytes_popped + has_isn_`, and the sequence numbers in flight are at most the bytes read plus
the SYN, the FIN and one more (the FIN can be sent twice, in the SYN segment and after it). -/
structure Sending (s : TCPSender) : Prop where
  inv : SenderInv s
  chain : ∃ x, Sent s.isn_ x s.outstanding (s.input_.bytes_popped_ + b2n s.has_isn_)
  total : (s.outstanding.map TCPSenderMessage.sequence_length).sum
    ≤ s.input_.bytes_popped_ + 2 * b2n s.has_isn_ + b2n s.has_fin_

/-! ## Auxiliary facts: machine arithmetic and the loop body of `getMergedData` -/

theorem add64_of_lt {a b : Nat} (h : a + b < U64) : add64 a b = a + b := by
  simp only [add64, U64] at *; omega

theorem sub64_of_le {a b : Nat} (h : b ≤ a) (ha : a < U64) : sub64 a b = a - b := by
  simp only [sub64, U64] at *; omega

theorem mergedRead_eq (c f cl dl i : Nat) (hc0 : 0 < c) (hc : c + cl ≤ I63) (hf : f + dl ≤ I63)
    (h1 : c ≤ f + dl) (h2 : f ≤ c + cl) (hi : min c f + i < max (c + cl) (f + dl)) :
    mergedRead c f cl dl (min c f) (max c f)
        (sub64 (min (add64 c cl) (add64 f dl)) 1) i
      = some (if f ≤ min c f + i ∧ min c f + i < f + dl then (MergeSource.data, min c f + i - f)
          else (MergeSource.cur_data, min c f + i - c)) := by
  rw [add64_of_lt (by simp only [I63, U64] at *; omega),
    add64_of_lt (by simp only [I63, U64] at *; omega)]
  rcases Nat.le_total c f with hcf | hcf <;>
  rcases Nat.le_total (c + cl) (f + dl) with he | he <;>
  simp only [Nat.min_eq_left hcf, Nat.max_eq_right hcf, Nat.min_eq_right hcf, Nat.max_eq_left hcf,
    Nat.min_eq_left he, Nat.max_eq_right he, Nat.min_eq_right he, Nat.max_eq_left he,
    mergedRead, add64, sub64, U64, I63] at * <;>
  split_ifs <;> first | (exfalso; omega) | (congr 2; omega)

theorem mergedRead_isSome (c f cl dl i : Nat) (hc0 : 0 < c) (hc : c + cl < U64)
    (hf : f + dl < U64) (h1 : c ≤ f + dl) (h2 : f ≤ c + cl) :
    (mergedRead c f cl dl (min c f) (max c f)
        (sub64 (min (add64 c cl) (add64 f dl)) 1) i).isSome = true := by
  rw [add64_of_lt hc, add64_of_lt hf]
  rcases Nat.le_total c f with hcf | hcf <;>
  rcases Nat.le_total (c + cl) (f + dl) with he | he <;>
  simp only [Nat.min_eq_left hcf, Nat.max_eq_right hcf, Nat.min_eq_right hcf, Nat.max_eq_left hcf,
    Nat.min_eq_left he, Nat.max_eq_right he, Nat.min_eq_right he, Nat.max_eq_left he,
    mergedRead, add64, sub64, U64, I63] at * <;>
  split_ifs <;> first | rfl | (exfalso; omega)

/-! ## Theorems: wrapping_integers.cc -/

/-- The result of `unwrap` is congruent to `raw − zero` modulo 2^32, for every checkpoint. -/
theorem unwrap_mod (raw zero_point checkpoint : Nat) (hz : zero_point < U32) :
    (Wrap32.mk raw).unwrap ⟨zero_point⟩ checkpoint % U32 = (raw + U32 - zero_point) % U32 := by
  simp only [Wrap32.unwrap, add64, sub64, toInt64, U32, U64] at *
  split_ifs <;> omega

/-- The result of `unwrap` is a 64-bit value. -/
theorem unwrap_lt (raw zero_point checkpoint : Nat) :
    (Wrap32.mk raw).unwrap ⟨zero_point⟩ checkpoint < U64 := by
  simp only [Wrap32.unwrap, add64, sub64, toInt64, U32, U64] at *
  split_ifs <;> omega

/-- For a checkpoint below `2^64 − 2^31` the result of `unwrap` is within 2^31 of the
checkpoint, or it is below 2^32 and not below the checkpoint. -/
theorem unwrap_near (raw zero_point checkpoint : Nat) (hc : checkpoint < U64 - 2147483648) :
    ((Wrap32.mk raw).unwrap ⟨zero_point⟩ checkpoint ≤ checkpoint + 2147483648
        ∧ checkpoint ≤ (Wrap32.mk raw).unwrap ⟨zero_point⟩ checkpoint + 2147483648)
      ∨ ((Wrap32.mk raw).unwrap ⟨zero_point⟩ checkpoint < U32
        ∧ checkpoint ≤ (Wrap32.mk raw).unwrap ⟨zero_point⟩ checkpoint) := by
  simp only [Wrap32.unwrap, add64, sub64, toInt64, U32, U64] at *
  split_ifs <;> omega

/-- For a checkpoint below `2^64 − 2^31`, `unwrap` returns a value closest to the checkpoint
among all natural numbers congruent to `raw − zero` modulo 2^32. -/
theorem unwrap_minimal_of_lt (raw zero_point checkpoint y : Nat) (hz : zero_point < U32)
    (hc : checkpoint < U64 - 2147483648) (hy : y % U32 = (raw + U32 - zero_point) % U32) :
    (((Wrap32.mk raw).unwrap ⟨zero_point⟩ checkpoint : Int) - checkpoint).natAbs
      ≤ ((y : Int) - checkpoint).natAbs := by
  have h1 := unwrap_near raw zero_point checkpoint hc
  have h2 := unwrap_mod raw zero_point checkpoint hz
  rw [← hy] at h2
  generalize (Wrap32.mk raw).unwrap ⟨zero_point⟩ checkpoint = x at h1 h2 ⊢
  simp only [U32, U64] at *
  rcases Nat.lt_trichotomy (x / 4294967296) (y / 4294967296) with h | h | h <;> omega

/-- For `n` below `2^64 − 2^31`, unwrapping `wrap(n, zero)` with checkpoint `n` gives `n`. -/
theorem unwrap_wrap_of_lt (n zero_point : Nat) (hz : zero_point < U32) (hn : n < U64 - 2147483648) :
    (Wrap32.wrap n ⟨zero_point⟩).unwrap ⟨zero_point⟩ n = n := by
  simp only [Wrap32.unwrap, Wrap32.wrap, add64, sub64, toInt64, U32, U64] at *
  split_ifs <;> omega

/-- The example of the specification: `Wrap32(17).unwrap(Wrap32(0), 3·2^32 + 10)` is
`3·2^32 + 17`. -/
theorem unwrap_example : (Wrap32.mk 17).unwrap ⟨0⟩ 12884901898 = 12884901905 := by
  decide

/-- C1 (evaluation at the failing input): with `n = 2^64 − 1` and zero point 0 the sum
`checkpoint + 2^31` wraps, `point` is 0, and the round trip `wrap(n, zero).unwrap(zero, n)`
returns `2^32 − 1`, not `n`. -/
theorem C1_roundtrip_fails_at_top :
    (Wrap32.wrap 18446744073709551615 ⟨0⟩).unwrap ⟨0⟩ 18446744073709551615 = 4294967295
      ∧ (Wrap32.wrap 18446744073709551615 ⟨0⟩).unwrap ⟨0⟩ 18446744073709551615
          ≠ 18446744073709551615 := by
  decide

/-- C2 (evaluation at the failing input): for raw 0, zero point 0 and checkpoint `2^64 − 1`,
`unwrap` returns 0 although `y = 2^64 − 2^32` is a 64-bit value congruent to `raw − zero`
modulo 2^32 and strictly closer to the checkpoint. -/
theorem C2_unwrap_not_minimal_at_top :
    (Wrap32.mk 0).unwrap ⟨0⟩ 18446744073709551615 = 0
      ∧ 18446744069414584320 < U64
      ∧ 18446744069414584320 % U32 = (0 + U32 - 0) % U32
      ∧ ((18446744069414584320 : Int) - 18446744073709551615).natAbs
          < ((((Wrap32.mk 0).unwrap ⟨0⟩ 18446744073709551615 : Nat) : Int)
              - 18446744073709551615).natAbs := by
  decide

/-- C3: `unwrap` is a right inverse of `wrap`: for every 32-bit raw value and zero point and
every checkpoint, wrapping the unwrapped value with the same zero point gives back the raw
value, and the unwrapped value is congruent to `raw − zero` modulo 2^32. -/
theorem C3_wrap_unwrap (raw zero_point checkpoint : Nat) (hr : raw < U32) (hz : zero_point < U32) :
    Wrap32.wrap ((Wrap32.mk raw).unwrap ⟨zero_point⟩ checkpoint) ⟨zero_point⟩ = ⟨raw⟩
      ∧ (Wrap32.mk raw).unwrap ⟨zero_point⟩ checkpoint % U32
        = (raw + U32 - zero_point) % U32 := by
  simp only [Wrap32.unwrap, Wrap32.wrap, add64, sub64, toInt64, U32, U64, Wrap32.mk.injEq] at *
  split_ifs <;> omega

/-- C3 at a concrete input: raw 17, zero point 5, checkpoint `3·2^32 + 10`. -/
theorem C3_wrap_unwrap_witness :
    (17 < U32 ∧ 5 < U32) ∧
      Wrap32.wrap ((Wrap32.mk 17).unwrap ⟨5⟩ 12884901898) ⟨5⟩ = ⟨17⟩ :=
  ⟨by decide, (C3_wrap_unwrap 17 5 12884901898 (by decide) (by decide)).1⟩

/-! ## Auxiliary facts: byte_stream.cc -/

theorem StreamInv_new (C : Nat) (hC : C < U64) : StreamInv (ByteStream.new C) := by
  constructor <;> simp [ByteStream.new, ByteStream.content, hC]

theorem available_capacity_eq (s : ByteStream) (h : s.capacity_ < U64) :
    s.available_capacity = s.capacity_ - s.buffered_ := by
  simp only [ByteStream.available_capacity, sub64, U64] at *
  split_ifs <;> omega

theorem push_closed (s : ByteStream) (data : Bytes) (h : s.is_close_ = true) :
    s.push data = s := by
  unfold ByteStream.push ByteStream.is_closed
  rw [if_pos h]

theorem push_open (s : ByteStream) (data : Bytes) (h : s.is_close_ = false) :
    (s.push data).view_queue.flatten
        = s.view_queue.flatten ++ data.take (min s.available_capacity data.length)
      ∧ (s.push data).buffered_ = s.buffered_ + min s.available_capacity data.length
      ∧ (s.push data).bytes_pushed_ = s.bytes_pushed_ + min s.available_capacity data.length
      ∧ (∀ v ∈ (s.push data).view_queue, v ∈ s.view_queue ∨ v ≠ []) := by
  unfold ByteStream.push ByteStream.is_closed
  rw [if_neg (by simp [h])]
  by_cases hp : min s.available_capacity data.length > 0
  · simp only [hp, ↓reduceIte, List.flatten_append, List.flatten_cons, List.flatten_nil,
      List.append_nil, true_and, List.mem_append, List.mem_singleton]
    intro v hv
    rcases hv with hv | hv
    · exact Or.inl hv
    · right
      subst hv
      intro h0
      have := congrArg List.length h0
      simp only [List.length_take, List.length_nil] at this
      omega
  · simp only [hp, ↓reduceIte]
    have h0 : min s.available_capacity data.length = 0 := by omega
    rw [h0]
    simp only [List.take_zero, List.append_nil, Nat.add_zero, true_and]
    intro v hv; exact Or.inl hv

theorem push_fields (s : ByteStream) (data : Bytes) :
    (s.push data).bytes_popped_ = s.bytes_popped_ ∧ (s.push data).capacity_ = s.capacity_
      ∧ (s.push data).is_close_ = s.is_close_ ∧ (s.push data).error_ = s.error_ := by
  unfold ByteStream.push
  dsimp only
  split_ifs <;> simp

theorem StreamInv_push (s : ByteStream) (data : Bytes) (hs : StreamInv s) :
    StreamInv (s.push data) := by
  cases h : s.is_close_
  · obtain ⟨h1, h2, h3, h4⟩ := push_open s data h
    obtain ⟨f1, f2, _, _⟩ := push_fields s data
    have ha := available_capacity_eq s hs.capacity_lt
    have hb := hs.buffered_eq
    have hc := hs.counters
    have hd := hs.le_capacity
    simp only [ByteStream.content] at hb
    constructor
    · simp only [ByteStream.content]
      rw [h1, h2, List.length_append, List.length_take]; omega
    · rw [h3, f1, h2]; omega
    · rw [h2, f2]; omega
    · rw [f2]; exact hs.capacity_lt
    · intro v hv
      rcases h4 v hv with h5 | h5
      · exact hs.nonempty v h5
      · exact h5
  · rw [push_closed s data h]; exact hs

theorem popLoop_spec (view : List Bytes) :
    ∀ (len : Nat) (real : List Bytes) (buffered popped : Nat),
      buffered = view.flatten.length → buffered < U64 →
      (∀ v ∈ view, v ≠ []) →
      (ByteStream.popLoop len real view buffered popped).2.1.flatten = view.flatten.drop len
        ∧ (ByteStream.popLoop len real view buffered popped).2.2.1 = buffered - min len buffered
        ∧ (ByteStream.popLoop len real view buffered popped).2.2.2 = popped + min len buffered
        ∧ ∀ v ∈ (ByteStream.popLoop len real view buffered popped).2.1, v ≠ [] := by
  induction view with
  | nil =>
    intro len real buffered popped hb _ _
    simp only [List.flatten_nil, List.length_nil] at hb
    subst hb
    simp [ByteStream.popLoop]
  | cons v rest ih =>
    intro len real buffered popped hb hlt hne
    have hv : v ≠ [] := hne v (List.mem_cons_self _ _)
    have hvl : 0 < v.length := List.length_pos.mpr hv
    have hrest : ∀ w ∈ rest, w ≠ [] := fun w hw => hne w (List.mem_cons_of_mem _ hw)
    simp only [List.flatten_cons, List.length_append] at hb
    simp only [ByteStream.popLoop]
    by_cases hlen : len > 0 ∧ buffered > 0
    · rw [if_pos hlen]
      by_cases hge : len ≥ v.length
      · rw [if_pos hge]
        have hmin : min len v.length = v.length := by omega
        have e2 : sub64 buffered (min len v.length) = buffered - v.length := by
          rw [hmin]; exact sub64_of_le (by omega) hlt
        rw [e2, hmin]
        obtain ⟨i1, i2, i3, i4⟩ := ih (len - v.length) real.tail (buffered - v.length)
          (popped + v.length) (by omega) (by omega) hrest
        refine ⟨?_, ?_, ?_, i4⟩
        · rw [i1, List.flatten_cons, List.drop_append_eq_append_drop,
            List.drop_eq_nil_of_le hge, List.nil_append]
        · rw [i2]; omega
        · rw [i3]; omega
      · rw [if_neg hge]
        have hmin : min len v.length = len := by omega
        have e2 : sub64 buffered (min len v.length) = buffered - len := by
          rw [hmin]; exact sub64_of_le (by omega) hlt
        rw [e2, hmin]
        dsimp only
        refine ⟨?_, ?_, ?_, ?_⟩
        · rw [List.flatten_cons, List.flatten_cons, List.drop_append_of_le_length (by omega)]
        · omega
        · omega
        · intro w hw
          simp only [List.mem_cons] at hw
          rcases hw with hw | hw
          · subst hw
            intro h0
            have := congrArg List.length h0
            simp only [List.length_drop, List.length_nil] at this
            omega
          · exact hrest w hw
    · rw [if_neg hlen]
      dsimp only
      have : len = 0 := by omega
      subst this
      refine ⟨by simp, by simp, by simp, hne⟩

theorem pop_fields (s : ByteStream) (len : Nat) :
    (s.pop len).bytes_pushed_ = s.bytes_pushed_ ∧ (s.pop len).capacity_ = s.capacity_
      ∧ (s.pop len).is_close_ = s.is_close_ ∧ (s.pop len).error_ = s.error_ := by
  simp [ByteStream.pop]

theorem pop_spec (s : ByteStream) (len : Nat) (hs : StreamInv s) :
    (s.pop len).content = s.content.drop len
      ∧ (s.pop len).buffered_ = s.buffered_ - min len s.buffered_
      ∧ (s.pop len).bytes_popped_ = s.bytes_popped_ + min len s.buffered_
      ∧ ∀ v ∈ (s.pop len).view_queue, v ≠ [] := by
  have hb := hs.buffered_eq
  have hlt : s.buffered_ < U64 := lt_of_le_of_lt hs.le_capacity hs.capacity_lt
  exact popLoop_spec s.view_queue len s.real_queue s.buffered_ s.bytes_popped_ hb hlt hs.nonempty

theorem StreamInv_pop (s : ByteStream) (len : Nat) (hs : StreamInv s) :
    StreamInv (s.pop len) := by
  obtain ⟨h1, h2, h3, h4⟩ := pop_spec s len hs
  obtain ⟨f1, f2, _, _⟩ := pop_fields s len
  have hb := hs.buffered_eq
  have hc := hs.counters
  have hd := hs.le_capacity
  constructor
  · rw [h1, h2, List.length_drop]; omega
  · rw [f1, h3, h2]; omega
  · rw [h2, f2]; omega
  · rw [f2]; exact hs.capacity_lt
  · exact h4

theorem StreamInv_step (s : ByteStream) (op : StreamOp) (hs : StreamInv s) :
    StreamInv (s.step op) := by
  cases op with
  | push data => exact StreamInv_push s data hs
  | pop len => exact StreamInv_pop s len hs
  | close => exact ⟨hs.buffered_eq, hs.counters, hs.le_capacity, hs.capacity_lt, hs.nonempty⟩
  | set_error =>
    exact ⟨hs.buffered_eq, hs.counters, hs.le_capacity, hs.capacity_lt, hs.nonempty⟩

theorem StreamInv_run (ops : List StreamOp) :
    ∀ s : ByteStream, StreamInv s → StreamInv (s.run ops) := by
  induction ops with
  | nil => intro s hs; exact hs
  | cons op ops ih =>
    intro s hs
    exact ih (s.step op) (StreamInv_step s op hs)

/-! ## Theorems: byte_stream.cc -/

theorem run_capacity (ops : List StreamOp) :
    ∀ s : ByteStream, (s.run ops).capacity_ = s.capacity_ := by
  induction ops with
  | nil => intro s; rfl
  | cons op ops ih =>
    intro s
    show ((s.step op).run ops).capacity_ = s.capacity_
    rw [ih]
    cases op with
    | push data => exact (push_fields s data).2.1
    | pop len => exact (pop_fields s len).2.1
    | close => rfl
    | set_error => rfl

theorem step_monotone (s : ByteStream) (op : StreamOp) (hs : StreamInv s) :
    s.bytes_pushed_ ≤ (s.step op).bytes_pushed_
      ∧ s.bytes_popped_ ≤ (s.step op).bytes_popped_ := by
  cases op with
  | push data =>
    refine ⟨?_, le_of_eq (push_fields s data).1.symm⟩
    cases h : s.is_close_
    · have := (push_open s data h).2.2.1
      show s.bytes_pushed_ ≤ (s.push data).bytes_pushed_
      omega
    · show s.bytes_pushed_ ≤ (s.push data).bytes_pushed_
      rw [push_closed s data h]
  | pop len =>
    refine ⟨le_of_eq (pop_fields s len).1.symm, ?_⟩
    have := (pop_spec s len hs).2.2.1
    show s.bytes_popped_ ≤ (s.pop len).bytes_popped_
    omega
  | close => exact ⟨le_refl _, le_refl _⟩
  | set_error => exact ⟨le_refl _, le_refl _⟩

/-- C8: in every state reached from `ByteStream(C)` by pushes, pops, `close` (and `set_error`),
`bytes_pushed − bytes_popped` equals `bytes_buffered`, which is at most `C` and equals the total
length of the queued chunks; and no further call decreases `bytes_pushed` or `bytes_popped`. -/
theorem C8_counter_invariant (C : Nat) (hC : C < U64) (ops : List StreamOp) :
    ((ByteStream.new C).run ops).bytes_pushed - ((ByteStream.new C).run ops).bytes_popped
        = ((ByteStream.new C).run ops).bytes_buffered
      ∧ ((ByteStream.new C).run ops).bytes_popped ≤ ((ByteStream.new C).run ops).bytes_pushed
      ∧ ((ByteStream.new C).run ops).bytes_buffered ≤ C
      ∧ ((ByteStream.new C).run ops).bytes_buffered
          = (((ByteStream.new C).run ops).view_queue.map List.length).sum
      ∧ ∀ op : StreamOp,
          ((ByteStream.new C).run ops).bytes_pushed
              ≤ (((ByteStream.new C).run ops).step op).bytes_pushed
            ∧ ((ByteStream.new C).run ops).bytes_popped
              ≤ (((ByteStream.new C).run ops).step op).bytes_popped := by
  have hs := StreamInv_run ops _ (StreamInv_new C hC)
  have hcap := run_capacity ops (ByteStream.new C)
  have h1 := hs.buffered_eq
  have h2 := hs.counters
  have h3 := hs.le_capacity
  rw [hcap] at h3
  simp only [ByteStream.content, List.length_flatten] at h1
  simp only [ByteStream.bytes_pushed, ByteStream.bytes_popped, ByteStream.bytes_buffered]
  refine ⟨by omega, by omega, h3, h1, fun op => step_monotone _ op hs⟩

/-- C8 at a concrete input: capacity 2, `push("cat")`, `pop(1)`, `close()`. -/
theorem C8_counter_invariant_witness :
    (2 : Nat) < U64 ∧
      ((ByteStream.new 2).run [.push ['c', 'a', 't'], .pop 1, .close]).bytes_pushed
          - ((ByteStream.new 2).run [.push ['c', 'a', 't'], .pop 1, .close]).bytes_popped
        = ((ByteStream.new 2).run [.push ['c', 'a', 't'], .pop 1, .close]).bytes_buffered :=
  ⟨by decide, (C8_counter_invariant 2 (by decide) [.push ['c', 'a', 't'], .pop 1, .close]).1⟩

/-- C9: on an open stream `push(data)` appends exactly the first `min(|data|, C − B)` bytes of
`data` to the buffered content and adds that count to `bytes_pushed` and `bytes_buffered`; on a
closed stream it changes nothing; with capacity 2, `push("cat")` buffers `"ca"`. -/
theorem C9_push_truncates (s : ByteStream) (data : Bytes) (hC : s.capacity_ < U64) :
    (if s.is_closed = true then s.push data = s
      else (s.push data).content
            = s.content ++ data.take (min data.length (s.capacity_ - s.bytes_buffered))
          ∧ (s.push data).bytes_pushed
            = s.bytes_pushed + min data.length (s.capacity_ - s.bytes_buffered)
          ∧ (s.push data).bytes_buffered
            = s.bytes_buffered + min data.length (s.capacity_ - s.bytes_buffered))
      ∧ ((ByteStream.new 2).push ['c', 'a', 't']).content = ['c', 'a'] := by
  refine ⟨?_, by decide⟩
  cases h : s.is_close_
  · rw [if_neg (by simp [ByteStream.is_closed, h])]
    obtain ⟨h1, h2, h3, _⟩ := push_open s data h
    rw [available_capacity_eq s hC, Nat.min_comm] at h1 h2 h3
    exact ⟨h1, h3, h2⟩
  · rw [if_pos (by simp [ByteStream.is_closed, h])]
    exact push_closed s data h

/-- C9 at a concrete input: capacity 2 holding `"a"`, `push("cat")` appends `"c"`. -/
theorem C9_push_truncates_witness :
    ((ByteStream.new 2).push ['a']).capacity_ < U64 ∧
      (((ByteStream.new 2).push ['a']).push ['c', 'a', 't']).content = ['a', 'c'] :=
  ⟨by decide,
    ((C9_push_truncates ((ByteStream.new 2).push ['a']) ['c', 'a', 't'] (by decide)).1).1⟩

theorem peek_of_content (s : ByteStream) (hs : StreamInv s) (hne : s.content ≠ []) :
    s.peek ≠ [] ∧ s.peek <+: s.content := by
  have hb := hs.buffered_eq
  have hpos : s.buffered_ > 0 := by
    rw [hb]; exact List.length_pos.mpr hne
  unfold ByteStream.peek
  rw [if_pos hpos]
  have hn := hs.nonempty
  unfold ByteStream.content at hne ⊢
  cases hq : s.view_queue with
  | nil => rw [hq] at hne; simp at hne
  | cons v rest =>
    rw [hq] at hn
    refine ⟨hn v (List.mem_cons_self _ _), ?_⟩
    simp only [List.headD_cons, List.flatten_cons]
    exact List.prefix_append _ _

/-- C10: in every reachable stream state with buffered content `w`, `pop(n)` leaves `w` without
its first `min(n, |w|)` bytes, adds `min(n, |w|)` to `bytes_popped`, and afterwards `peek()` is a
non-empty prefix of the remaining content whenever bytes remain. -/
theorem C10_pop_fifo (C : Nat) (hC : C < U64) (ops : List StreamOp) (n : Nat) :
    (((ByteStream.new C).run ops).pop n).content
        = ((ByteStream.new C).run ops).content.drop
            (min n ((ByteStream.new C).run ops).content.length)
      ∧ (((ByteStream.new C).run ops).pop n).bytes_popped
        = ((ByteStream.new C).run ops).bytes_popped
            + min n ((ByteStream.new C).run ops).content.length
      ∧ ((((ByteStream.new C).run ops).pop n).content ≠ [] →
          (((ByteStream.new C).run ops).pop n).peek ≠ []
            ∧ (((ByteStream.new C).run ops).pop n).peek
                <+: (((ByteStream.new C).run ops).pop n).content) := by
  have hs := StreamInv_run ops _ (StreamInv_new C hC)
  generalize (ByteStream.new C).run ops = s at hs
  obtain ⟨h1, _, h3, _⟩ := pop_spec s n hs
  have hb := hs.buffered_eq
  refine ⟨?_, ?_, fun hne => peek_of_content _ (StreamInv_pop s n hs) hne⟩
  · rw [h1]
    rcases Nat.le_total n s.content.length with h | h
    · rw [Nat.min_eq_left h]
    · rw [Nat.min_eq_right h, List.drop_eq_nil_of_le h, List.drop_eq_nil_of_le (le_refl _)]
  · show (s.pop n).bytes_popped_ = s.bytes_popped_ + _
    rw [h3, hb]

/-- C10 at a concrete input: capacity 2, `push("cat")`, then `pop(1)` leaves `"a"` to peek. -/
theorem C10_pop_fifo_witness :
    (2 : Nat) < U64 ∧
      (((ByteStream.new 2).run [.push ['c', 'a', 't']]).pop 1).content = ['a']
      ∧ (((ByteStream.new 2).run [.push ['c', 'a', 't']]).pop 1).peek = ['a'] :=
  ⟨by decide, (C10_pop_fifo 2 (by decide) [.push ['c', 'a', 't']] 1).1, by decide⟩

/-! ## Auxiliary facts: `getMergedData` -/

theorem filterMap_length_of_isSome {α β : Type} (g : α → Option β) (l : List α)
    (h : ∀ x ∈ l, (g x).isSome = true) : (l.filterMap g).length = l.length := by
  induction l with
  | nil => rfl
  | cons a l ih =>
    have ha := h a (List.mem_cons_self _ _)
    obtain ⟨b, hb⟩ := Option.isSome_iff_exists.mp ha
    rw [List.filterMap_cons_some hb, List.length_cons, List.length_cons,
      ih (fun x hx => h x (List.mem_cons_of_mem _ hx))]

theorem filterMap_eq_map_of_some {α β : Type} (g : α → Option β) (k : α → β) (l : List α)
    (h : ∀ x ∈ l, g x = some (k x)) : l.filterMap g = l.map k := by
  induction l with
  | nil => rfl
  | cons a l ih =>
    rw [List.filterMap_cons_some (h a (List.mem_cons_self _ _)), List.map_cons,
      ih (fun x hx => h x (List.mem_cons_of_mem _ hx))]

theorem final_data_len_eq (c f cl dl : Nat) (hc0 : 0 < c) (hc : c + cl < U64)
    (hf : f + dl < U64) :
    add64 (sub64 (sub64 (max (add64 c cl) (add64 f dl)) 1) (min c f)) 1
      = max (c + cl) (f + dl) - min c f := by
  rw [add64_of_lt hc, add64_of_lt hf]
  simp only [add64, sub64, U64] at *
  omega

theorem getMergedData_fst (c f : Nat) (cur d : Bytes) :
    (PendingBytes.getMergedData c f cur d).1 = min c f :=
  rfl

theorem getMergedData_length (c f : Nat) (cur d : Bytes) (hc0 : 0 < c)
    (hc : c + cur.length < U64) (hf : f + d.length < U64)
    (h1 : c ≤ f + d.length) (h2 : f ≤ c + cur.length) :
    (PendingBytes.getMergedData c f cur d).2.length
      = max (c + cur.length) (f + d.length) - min c f := by
  unfold PendingBytes.getMergedData
  dsimp only
  rw [filterMap_length_of_isSome, List.length_range, final_data_len_eq c f _ _ hc0 hc hf]
  intro i _
  rw [Option.isSome_map']
  exact mergedRead_isSome c f cur.length d.length i hc0 hc hf h1 h2

theorem getMergedData_eq (c f : Nat) (cur d : Bytes) (hc0 : 0 < c)
    (hc : c + cur.length ≤ I63) (hf : f + d.length ≤ I63)
    (h1 : c ≤ f + d.length) (h2 : f ≤ c + cur.length) :
    (PendingBytes.getMergedData c f cur d).2
      = (List.range (max (c + cur.length) (f + d.length) - min c f)).map
          (fun i => mergedAt c f cur d (min c f + i)) := by
  unfold PendingBytes.getMergedData
  dsimp only
  rw [final_data_len_eq c f _ _ hc0 (by simp only [I63, U64] at *; omega)
    (by simp only [I63, U64] at *; omega)]
  apply filterMap_eq_map_of_some
  intro i hi
  rw [List.mem_range] at hi
  rw [mergedRead_eq c f cur.length d.length i hc0 hc hf h1 h2 (by omega)]
  unfold mergedAt
  split_ifs <;> rfl

/-! ## Auxiliary facts: `insert_bytes_list` keeps the list ordered and separated -/

theorem mergeFollowers_inv (Q : Nat → Bytes → Prop) (hQ : MergeClosed Q) (lo ti tl : Nat)
    (hlo : lo ≤ ti) (rest : List PendingBytesUnit) :
    ∀ top : PendingBytesUnit, top.first_index_ = ti → tl ≤ top.data_.length →
      ti + top.data_.length < U64 → Q ti top.data_ → Separated rest → UnitsOk Q ti rest →
      (∀ x ∈ rest, 0 < x.first_index_) →
      (∀ x ∈ rest, ti + tl < x.first_index_ → ti + top.data_.length < x.first_index_) →
      Separated (mergeFollowers ti tl top rest)
        ∧ UnitsOk Q lo (mergeFollowers ti tl top rest) := by
  induction rest with
  | nil =>
    intro top ht _ hend hq _ _ _ _
    refine ⟨by simp [mergeFollowers, Separated], ?_⟩
    intro u hu
    simp only [mergeFollowers, List.mem_singleton] at hu
    subst hu
    rw [ht]
    exact ⟨hlo, hend, hq⟩
  | cons cur rest ih =>
    intro top ht htl hend hq hsep hok hpos hH
    have hsep' := List.pairwise_cons.mp hsep
    have hcur := hok cur (List.mem_cons_self _ _)
    rw [mergeFollowers]
    rw [add64_of_lt (by omega)]
    by_cases hbr : ti + tl < cur.first_index_
    · rw [if_pos hbr]
      have htop : ∀ x ∈ cur :: rest, top.first_index_ + top.data_.length < x.first_index_ := by
        intro x hx
        rw [ht]
        apply hH x hx
        rcases List.mem_cons.mp hx with h | h
        · rw [h]; exact hbr
        · have := hsep'.1 x h
          omega
      refine ⟨List.pairwise_cons.mpr ⟨htop, hsep⟩, ?_⟩
      intro u hu
      rcases List.mem_cons.mp hu with h | h
      · rw [h, ht]; exact ⟨hlo, hend, hq⟩
      · have := hok u h
        exact ⟨by omega, this.2.1, this.2.2⟩
    · rw [if_neg hbr]
      dsimp only
      have hc0 := hpos cur (List.mem_cons_self _ _)
      have h1 : cur.first_index_ ≤ ti + top.data_.length := by omega
      have h2 : ti ≤ cur.first_index_ + cur.data_.length := by omega
      have hlen := getMergedData_length cur.first_index_ ti cur.data_ top.data_ hc0 hcur.2.1
        hend h1 h2
      have hmin : min cur.first_index_ ti = ti := Nat.min_eq_right hcur.1
      rw [hmin] at hlen
      have hq' := hQ cur.first_index_ ti cur.data_ top.data_ hc0 hcur.2.1 hend h1 h2 hcur.2.2 hq
      rw [hmin] at hq'
      rw [getMergedData_fst, hmin]
      apply ih
      · exact ht
      · show tl ≤ (PendingBytes.getMergedData cur.first_index_ ti cur.data_ top.data_).2.length
        omega
      · show ti + (PendingBytes.getMergedData cur.first_index_ ti cur.data_ top.data_).2.length
          < U64
        omega
      · exact hq'
      · exact hsep'.2
      · intro x hx; exact hok x (List.mem_cons_of_mem _ hx)
      · intro x hx; exact hpos x (List.mem_cons_of_mem _ hx)
      · intro x hx hlt
        show ti + (PendingBytes.getMergedData cur.first_index_ ti cur.data_ top.data_).2.length
          < x.first_index_
        have a1 := hsep'.1 x hx
        have a2 := hH x (List.mem_cons_of_mem _ hx) hlt
        omega

theorem insertLoop_inv (Q : Nat → Bytes → Prop) (hQ : MergeClosed Q) (f : Nat) (d : Bytes)
    (il : Bool) (hf : f + d.length < U64) (hq : Q f d) (l : List PendingBytesUnit) :
    ∀ lo : Nat, lo ≤ f → Separated l → UnitsOk Q lo l → (∀ x ∈ l, 0 < x.first_index_) →
      Separated (insertLoop f d il l) ∧ UnitsOk Q lo (insertLoop f d il l) := by
  induction l with
  | nil =>
    intro lo hlo _ _ _
    refine ⟨by simp [insertLoop, Separated], ?_⟩
    intro u hu
    simp only [insertLoop, List.mem_singleton] at hu
    subst hu
    exact ⟨hlo, hf, hq⟩
  | cons cur rest ih =>
    intro lo hlo hsep hok hpos
    have hsep' := List.pairwise_cons.mp hsep
    have hcur := hok cur (List.mem_cons_self _ _)
    have hc0 := hpos cur (List.mem_cons_self _ _)
    rw [insertLoop]
    rw [add64_of_lt hf, add64_of_lt hcur.2.1]
    by_cases hb1 : f + d.length < cur.first_index_
    · rw [if_pos hb1]
      constructor
      · apply List.pairwise_cons.mpr
        refine ⟨?_, hsep⟩
        intro x hx
        show f + d.length < x.first_index_
        rcases List.mem_cons.mp hx with h | h
        · rw [h]; exact hb1
        · have := hsep'.1 x h
          omega
      · intro u hu
        rcases List.mem_cons.mp hu with h | h
        · rw [h]; exact ⟨hlo, hf, hq⟩
        · exact hok u h
    · rw [if_neg hb1]
      by_cases hb2 : f > cur.first_index_ + cur.data_.length
      · rw [if_pos hb2]
        have hrest : UnitsOk Q (cur.first_index_ + cur.data_.length + 1) rest := by
          intro x hx
          have a1 := hsep'.1 x hx
          have a2 := hok x (List.mem_cons_of_mem _ hx)
          exact ⟨by omega, a2.2.1, a2.2.2⟩
        obtain ⟨i1, i2⟩ := ih (cur.first_index_ + cur.data_.length + 1) (by omega) hsep'.2 hrest
          (fun x hx => hpos x (List.mem_cons_of_mem _ hx))
        constructor
        · apply List.pairwise_cons.mpr
          refine ⟨?_, i1⟩
          intro x hx
          have := (i2 x hx).1
          omega
        · intro u hu
          rcases List.mem_cons.mp hu with h | h
          · rw [h]; exact hcur
          · have := i2 u h
            exact ⟨by omega, this.2.1, this.2.2⟩
      · rw [if_neg hb2]
        dsimp only
        have h1 : cur.first_index_ ≤ f + d.length := by omega
        have h2 : f ≤ cur.first_index_ + cur.data_.length := by omega
        have hlen := getMergedData_length cur.first_index_ f cur.data_ d hc0 hcur.2.1 hf h1 h2
        have hq' := hQ cur.first_index_ f cur.data_ d hc0 hcur.2.1 hf h1 h2 hcur.2.2 hq
        rw [getMergedData_fst]
        apply mergeFollowers_inv Q hQ lo
        · have := hcur.1
          omega
        · rfl
        · exact le_refl _
        · show min cur.first_index_ f
            + (PendingBytes.getMergedData cur.first_index_ f cur.data_ d).2.length < U64
          omega
        · exact hq'
        · exact hsep'.2
        · intro x hx
          have a1 := hsep'.1 x hx
          have a2 := hok x (List.mem_cons_of_mem _ hx)
          exact ⟨by omega, a2.2.1, a2.2.2⟩
        · intro x hx; exact hpos x (List.mem_cons_of_mem _ hx)
        · intro x _ hlt
          exact hlt

/-! ## Auxiliary facts: payloads that agree with one stream -/

theorem strAt_of_matches (s : Bytes) (idx : Nat) (d : Bytes) (h : Matches s idx d) (j : Nat)
    (hj : j < d.length) : some (strAt d j) = s[idx + j]? := by
  rw [← h.2 j hj]
  unfold strAt
  rw [List.getD_eq_getElem?_getD, List.getElem?_eq_getElem hj]
  rfl

theorem mergeClosed_true : MergeClosed (fun _ _ => True) := by
  intro _ _ _ _ _ _ _ _ _ _ _
  trivial

theorem mergeClosed_matches (s : Bytes) (hs : s.length ≤ I63) : MergeClosed (Matches s) := by
  intro c f cur d hc0 _ _ h1 h2 hcur hd
  have e1 := hcur.1
  have e2 := hd.1
  have hlen := getMergedData_length c f cur d hc0 (by simp only [I63, U64] at *; omega)
    (by simp only [I63, U64] at *; omega) h1 h2
  have heq := getMergedData_eq c f cur d hc0 (by omega) (by omega) h1 h2
  have hm1 : min c f ≤ c := Nat.min_le_left _ _
  have hm2 : min c f ≤ f := Nat.min_le_right _ _
  have hm3 : min c f = c ∨ min c f = f := by omega
  constructor
  · rw [hlen]; omega
  · intro j hj
    rw [hlen] at hj
    rw [heq, List.getElem?_map, List.getElem?_range hj]
    simp only [Option.map_some', mergedAt]
    split_ifs with hin
    · have := strAt_of_matches s f d hd (min c f + j - f) (by omega)
      rw [this]; congr 1; omega
    · have := strAt_of_matches s c cur hcur (min c f + j - c) (by omega)
      rw [this]; congr 1; omega

theorem matches_sub (s : Bytes) (f : Nat) (d : Bytes) (k n : Nat) (hk : k ≤ d.length)
    (h : Matches s f d) : Matches s (f + k) ((d.drop k).take n) := by
  constructor
  · simp only [List.length_take, List.length_drop]
    have := h.1
    omega
  · intro j hj
    simp only [List.length_take, List.length_drop] at hj
    rw [List.getElem?_take_of_lt (by omega), List.getElem?_drop, h.2 (k + j) (by omega)]
    congr 1; omega

theorem written_append_take (s w x : Bytes) (k : Nat) (hw : w <+: s)
    (hx : Matches s w.length x) : w ++ x.take k <+: s := by
  obtain ⟨t, rfl⟩ := hw
  apply (List.prefix_append_right_inj w).mpr
  have hxt : x = t.take x.length := by
    apply List.ext_getElem?
    intro j
    by_cases hj : j < x.length
    · rw [List.getElem?_take_of_lt hj, hx.2 j hj, List.getElem?_append_right (by omega)]
      congr 1; omega
    · have hl := hx.1
      simp only [List.length_append] at hl
      rw [List.getElem?_eq_none (by omega), List.getElem?_eq_none]
      simp only [List.length_take]; omega
  have h1 : x.take k <+: x := List.take_prefix _ _
  have h2 : x <+: t := by rw [hxt]; exact List.take_prefix _ _
  exact h1.trans h2

/-! ## Auxiliary facts: `Reassembler::insert` keeps the state consistent -/

theorem trim_bound (pn cap pfi dl : Nat) (h : pfi < add64 pn cap) :
    pfi + min dl (add64 (sub64 cap pfi) pn) < U64 := by
  simp only [add64, sub64, U64] at *
  omega

theorem push_nil (s : ByteStream) : s.push [] = s := by
  unfold ByteStream.push
  simp

theorem push_pushed_le (s : ByteStream) (data : Bytes) :
    (s.push data).bytes_pushed_ ≤ s.bytes_pushed_ + data.length := by
  cases h : s.is_close_
  · have := (push_open s data h).2.2.1
    omega
  · rw [push_closed s data h]; omega

theorem StreamInv_close (s : ByteStream) (hs : StreamInv s) : StreamInv s.close :=
  ⟨hs.buffered_eq, hs.counters, hs.le_capacity, hs.capacity_lt, hs.nonempty⟩

theorem insert_eq (r : Reassembler) (first_index : Nat) (data : Bytes) (is_last : Bool) :
    r.insert first_index data is_last
      = if sub64 (max r.output_.bytes_pushed_ first_index) first_index > data.length
            ∨ max r.output_.bytes_pushed_ first_index
              ≥ add64 r.output_.bytes_pushed_ r.output_.available_capacity then r
        else r.pushFront (r.reassembler_.insert_bytes_list
          (max r.output_.bytes_pushed_ first_index)
          ((data.drop (sub64 (max r.output_.bytes_pushed_ first_index) first_index)).take
            (min data.length (add64 (sub64 r.output_.available_capacity
              (max r.output_.bytes_pushed_ first_index)) r.output_.bytes_pushed_)))
          (if add64 (sub64 (max r.output_.bytes_pushed_ first_index) first_index)
              (min data.length (add64 (sub64 r.output_.available_capacity
                (max r.output_.bytes_pushed_ first_index)) r.output_.bytes_pushed_))
              < data.length then false else is_last)) :=
  rfl

theorem pushFront_inv (Q : Nat → Bytes → Prop) (r : Reassembler) (p1 : PendingBytes)
    (hstream : StreamInv r.output_) (hsep : Separated p1.bytes_list_)
    (hok : UnitsOk Q r.output_.bytes_pushed_ p1.bytes_list_)
    (hhead : ∀ u rest, p1.bytes_list_ = u :: rest → p1.unpushed_first_index_ = u.first_index_) :
    ReInv Q (r.pushFront p1)
      ∧ ((r.pushFront p1).output_ = r.output_
        ∨ ∃ x n, Q r.output_.bytes_pushed_ x
            ∧ ((r.pushFront p1).output_ = r.output_.push (x.take n)
              ∨ (r.pushFront p1).output_ = (r.output_.push (x.take n)).close)) := by
  unfold Reassembler.pushFront
  by_cases hun : p1.unpushed_first_index_ = r.output_.bytes_pushed
  · rw [if_pos hun]
    unfold PendingBytes.delete_bytes_list
    cases hl : p1.bytes_list_ with
    | nil =>
      dsimp only
      rw [push_nil]
      refine ⟨⟨hstream, ?_, ?_⟩, Or.inl rfl⟩
      · show Separated p1.bytes_list_
        exact hsep
      · show UnitsOk Q _ p1.bytes_list_
        rw [hl]
        intro u hu
        simp at hu
    | cons u rest =>
      dsimp only
      rw [hl] at hsep hok
      have hsep' := List.pairwise_cons.mp hsep
      have hu := hok u (List.mem_cons_self _ _)
      have hfirst : u.first_index_ = r.output_.bytes_pushed_ := by
        rw [← hhead u rest hl]; exact hun
      have hpl := push_pushed_le r.output_ (List.take
        (min r.output_.available_capacity u.data_.length) u.data_)
      simp only [List.length_take] at hpl
      have hunits : ∀ x ∈ rest, (r.output_.push (List.take
          (min r.output_.available_capacity u.data_.length) u.data_)).bytes_pushed_ + 1
            ≤ x.first_index_ ∧ x.first_index_ + x.data_.length < U64
            ∧ Q x.first_index_ x.data_ := by
        intro x hx
        have a1 := hsep'.1 x hx
        have a2 := hok x (List.mem_cons_of_mem _ hx)
        exact ⟨by omega, a2.2.1, a2.2.2⟩
      have hq : Q r.output_.bytes_pushed_ u.data_ := by
        rw [← hfirst]; exact hu.2.2
      cases u.is_last_substring_
      · exact ⟨⟨StreamInv_push _ _ hstream, hsep'.2, hunits⟩,
          Or.inr ⟨u.data_, min r.output_.available_capacity u.data_.length, hq, Or.inl rfl⟩⟩
      · exact ⟨⟨StreamInv_close _ (StreamInv_push _ _ hstream), hsep'.2, hunits⟩,
          Or.inr ⟨u.data_, min r.output_.available_capacity u.data_.length, hq, Or.inr rfl⟩⟩
  · rw [if_neg hun]
    refine ⟨⟨hstream, hsep, ?_⟩, Or.inl rfl⟩
    show UnitsOk Q (r.output_.bytes_pushed_ + 1) p1.bytes_list_
    cases hl : p1.bytes_list_ with
    | nil => intro u hu; simp at hu
    | cons u rest =>
      rw [hl] at hsep hok
      have hsep' := List.pairwise_cons.mp hsep
      have hu := hok u (List.mem_cons_self _ _)
      have hne : u.first_index_ ≠ r.output_.bytes_pushed_ := by
        rw [← hhead u rest hl]; exact hun
      intro x hx
      have a2 := hok x hx
      refine ⟨?_, a2.2.1, a2.2.2⟩
      rcases List.mem_cons.mp hx with h | h
      · rw [h]
        have := hu.1
        omega
      · have a1 := hsep'.1 x h
        have := hu.1
        omega

theorem insert_inv (Q : Nat → Bytes → Prop) (hQ : MergeClosed Q) (r : Reassembler)
    (first_index : Nat) (data : Bytes) (is_last : Bool) (hinv : ReInv Q r)
    (hin : ∀ n, Q (max r.output_.bytes_pushed_ first_index)
      ((data.drop (sub64 (max r.output_.bytes_pushed_ first_index) first_index)).take n)) :
    ReInv Q (r.insert first_index data is_last)
      ∧ ((r.insert first_index data is_last).output_ = r.output_
        ∨ ∃ x n, Q r.output_.bytes_pushed_ x
            ∧ ((r.insert first_index data is_last).output_ = r.output_.push (x.take n)
              ∨ (r.insert first_index data is_last).output_
                  = (r.output_.push (x.take n)).close)) := by
  rw [insert_eq]
  by_cases hguard : sub64 (max r.output_.bytes_pushed_ first_index) first_index > data.length
      ∨ max r.output_.bytes_pushed_ first_index
        ≥ add64 r.output_.bytes_pushed_ r.output_.available_capacity
  · rw [if_pos hguard]
    exact ⟨hinv, Or.inl rfl⟩
  · rw [if_neg hguard]
    have hg : max r.output_.bytes_pushed_ first_index
        < add64 r.output_.bytes_pushed_ r.output_.available_capacity := by omega
    have hb := trim_bound r.output_.bytes_pushed_ r.output_.available_capacity _ data.length hg
    have hloop := insertLoop_inv Q hQ (max r.output_.bytes_pushed_ first_index)
      ((data.drop (sub64 (max r.output_.bytes_pushed_ first_index) first_index)).take
        (min data.length (add64 (sub64 r.output_.available_capacity
          (max r.output_.bytes_pushed_ first_index)) r.output_.bytes_pushed_)))
      (if add64 (sub64 (max r.output_.bytes_pushed_ first_index) first_index)
          (min data.length (add64 (sub64 r.output_.available_capacity
            (max r.output_.bytes_pushed_ first_index)) r.output_.bytes_pushed_)) < data.length
        then false else is_last)
      (by simp only [List.length_take, List.length_drop]; omega) (hin _)
      r.reassembler_.bytes_list_ r.output_.bytes_pushed_ (Nat.le_max_left _ _) hinv.sep
      (fun u hu => by
        have := hinv.units u hu
        exact ⟨by omega, this.2.1, this.2.2⟩)
      (fun u hu => by
        have := (hinv.units u hu).1
        omega)
    apply pushFront_inv Q r _ hinv.stream hloop.1 hloop.2
    intro u rest hl
    unfold PendingBytes.insert_bytes_list at hl ⊢
    dsimp only at hl ⊢
    rw [hl]

/-! ## Auxiliary facts: the bytes written are a prefix of the stream -/

theorem push_written (s popped x : Bytes) (n : Nat) (bs : ByteStream)
    (hpre : popped ++ bs.content <+: s)
    (hlen : (popped ++ bs.content).length = bs.bytes_pushed_)
    (hx : Matches s bs.bytes_pushed_ x) :
    popped ++ (bs.push (x.take n)).content <+: s
      ∧ (popped ++ (bs.push (x.take n)).content).length = (bs.push (x.take n)).bytes_pushed_ := by
  cases h : bs.is_close_
  · obtain ⟨h1, _, h3, _⟩ := push_open bs (x.take n) h
    unfold ByteStream.content at hpre hlen ⊢
    rw [h1, h3, List.take_take, ← List.append_assoc]
    constructor
    · apply written_append_take s _ x _ hpre
      rw [hlen]; exact hx
    · rw [List.length_append, hlen, List.length_take, List.length_take]
      omega
  · rw [push_closed bs _ h]
    exact ⟨hpre, hlen⟩

theorem ObsInv_new (s : Bytes) (C : Nat) (hC : C < U64) : ObsInv s (Observed.new C) := by
  refine ⟨⟨StreamInv_new C hC, ?_, ?_⟩, ?_, ?_⟩
  · simp [Observed.new, Reassembler.new, Separated]
  · intro u hu
    simp [Observed.new, Reassembler.new] at hu
  · simp [Observed.new, Observed.written, Reassembler.new, ByteStream.new, ByteStream.content]
  · simp [Observed.new, Observed.written, Reassembler.new, ByteStream.new, ByteStream.content]

theorem ObsInv_step (s : Bytes) (hs : s.length ≤ I63) (o : Observed) (op : ReassemblerOp)
    (ho : ObsInv s o) (hop : op.ConsistentWith s) : ObsInv s (o.step op) := by
  cases op with
  | insert first_index data is_last =>
    have hpn : o.r.output_.bytes_pushed_ ≤ s.length := by
      rw [← ho.len]; exact ho.pre.length_le
    have hm := hop.1
    have hin : ∀ n, Matches s (max o.r.output_.bytes_pushed_ first_index)
        ((data.drop (sub64 (max o.r.output_.bytes_pushed_ first_index) first_index)).take n) := by
      intro n
      have hfi := hm.1
      have hsub : sub64 (max o.r.output_.bytes_pushed_ first_index) first_index
          = max o.r.output_.bytes_pushed_ first_index - first_index := by
        simp only [sub64, U64, I63] at *; omega
      rw [hsub]
      by_cases hk : max o.r.output_.bytes_pushed_ first_index - first_index ≤ data.length
      · have := matches_sub s first_index data _ n hk hm
        have e : first_index + (max o.r.output_.bytes_pushed_ first_index - first_index)
            = max o.r.output_.bytes_pushed_ first_index := by omega
        rw [e] at this
        exact this
      · rw [List.drop_eq_nil_of_le (by omega), List.take_nil]
        refine ⟨?_, fun j hj => ?_⟩
        · simp only [List.length_nil]; omega
        · simp at hj
    obtain ⟨hre, hout⟩ := insert_inv (Matches s) (mergeClosed_matches s hs) o.r first_index data
      is_last ho.re hin
    have hpre := ho.pre
    have hlen := ho.len
    unfold Observed.written at hpre hlen
    have key : o.popped ++ (o.r.insert first_index data is_last).output_.content <+: s
        ∧ (o.popped ++ (o.r.insert first_index data is_last).output_.content).length
          = (o.r.insert first_index data is_last).output_.bytes_pushed_ := by
      rcases hout with h | ⟨x, n, hx, h | h⟩
      · rw [h]; exact ⟨hpre, hlen⟩
      · rw [h]; exact push_written s o.popped x n o.r.output_ hpre hlen hx
      · rw [h]; exact push_written s o.popped x n o.r.output_ hpre hlen hx
    exact ⟨hre, key.1, key.2⟩
  | pop len =>
    obtain ⟨h1, _, _, _⟩ := pop_spec o.r.output_ len ho.re.stream
    obtain ⟨f1, _, _, _⟩ := pop_fields o.r.output_ len
    have hw : (o.step (.pop len)).written = o.written := by
      show (o.popped ++ o.r.output_.content.take len) ++ (o.r.output_.pop len).content = _
      rw [h1, List.append_assoc, List.take_append_drop]
      rfl
    refine ⟨⟨StreamInv_pop _ _ ho.re.stream, ho.re.sep, ?_⟩, ?_, ?_⟩
    · show UnitsOk _ ((o.r.output_.pop len).bytes_pushed_ + 1) _
      rw [f1]; exact ho.re.units
    · rw [hw]; exact ho.pre
    · rw [hw]
      show _ = (o.r.output_.pop len).bytes_pushed_
      rw [f1]; exact ho.len

theorem ObsInv_run (s : Bytes) (hs : s.length ≤ I63) (ops : List ReassemblerOp) :
    ∀ o : Observed, ObsInv s o → (∀ op ∈ ops, op.ConsistentWith s) → ObsInv s (o.run ops) := by
  induction ops with
  | nil => intro o ho _; exact ho
  | cons op ops ih =>
    intro o ho hops
    exact ih (o.step op)
      (ObsInv_step s hs o op ho (hops op (List.mem_cons_self _ _)))
      (fun p hp => hops p (List.mem_cons_of_mem _ hp))

/-! ## Auxiliary facts: every reachable reassembler state is consistent -/

theorem ReInv_step (o : Observed) (op : ReassemblerOp) (ho : ReInv (fun _ _ => True) o.r) :
    ReInv (fun _ _ => True) (o.step op).r := by
  cases op with
  | insert first_index data is_last =>
    exact (insert_inv _ mergeClosed_true o.r first_index data is_last ho (fun _ => trivial)).1
  | pop len =>
    obtain ⟨f1, _, _, _⟩ := pop_fields o.r.output_ len
    refine ⟨StreamInv_pop _ _ ho.stream, ho.sep, ?_⟩
    show UnitsOk _ ((o.r.output_.pop len).bytes_pushed_ + 1) _
    rw [f1]; exact ho.units

theorem ReInv_run (ops : List ReassemblerOp) :
    ∀ o : Observed, ReInv (fun _ _ => True) o.r → ReInv (fun _ _ => True) (o.run ops).r := by
  induction ops with
  | nil => intro o ho; exact ho
  | cons op ops ih =>
    intro o ho
    exact ih (o.step op) (ReInv_step o op ho)

theorem ReInv_reachable (C : Nat) (hC : C < U64) (ops : List ReassemblerOp) :
    ReInv (fun _ _ => True) ((Observed.new C).run ops).r := by
  apply ReInv_run
  refine ⟨StreamInv_new C hC, ?_, ?_⟩
  · simp [Observed.new, Reassembler.new, Separated]
  · intro u hu
    simp [Observed.new, Reassembler.new] at hu

/-! ## Theorems: reassembler.cc -/

/-- C4: for every byte string `s` (a `std::string`, so shorter than 2^63 bytes), every capacity
and every sequence of `insert(i, d, l)` calls and reader pops in which each `d` equals
`s[i, i+|d|)` and `l` is set only if `i + |d| = |s|`, the bytes written to the output stream so
far (those popped, then those buffered) are a prefix of `s`. -/
theorem C4_written_is_initial_segment (s : Bytes) (capacity : Nat) (ops : List ReassemblerOp)
    (hs : s.length < I63) (hC : capacity < U64) (hops : ∀ op ∈ ops, op.ConsistentWith s) :
    ((Observed.new capacity).run ops).written <+: s :=
  (ObsInv_run s (Nat.le_of_lt hs) ops _ (ObsInv_new s capacity hC) hops).pre

/-- C4 at a concrete input: capacity 8, the stream `"abcdefgh"` inserted as `"ab"`, `"ef"`,
`"cd"`, `"gh"` with pops in between. -/
theorem C4_written_is_initial_segment_witness :
    (['a', 'b', 'c', 'd', 'e', 'f', 'g', 'h'].length < I63 ∧ 8 < U64
        ∧ ∀ op ∈ [ReassemblerOp.insert 0 ['a', 'b'] false, .insert 4 ['e', 'f'] false, .pop 2,
            .insert 2 ['c', 'd'] false, .pop 4, .insert 6 ['g', 'h'] true],
          op.ConsistentWith ['a', 'b', 'c', 'd', 'e', 'f', 'g', 'h'])
      ∧ ((Observed.new 8).run [.insert 0 ['a', 'b'] false, .insert 4 ['e', 'f'] false, .pop 2,
            .insert 2 ['c', 'd'] false, .pop 4, .insert 6 ['g', 'h'] true]).written
          <+: ['a', 'b', 'c', 'd', 'e', 'f', 'g', 'h'] :=
  ⟨by decide, C4_written_is_initial_segment _ 8 _ (by decide) (by decide) (by decide)⟩

/-- C5 (evaluation at the failing input): capacity 8, stream `"abcdef"`. After `(2, "cd")` the
last substring `(4, "ef", is_last)` arrives while bytes 0 and 1 are missing, untrimmed; it is
merged into the stored unit, whose flag stays clear. After `(0, "ab")` every byte of the stream
has been written and the output is still open. -/
theorem C5_last_flag_lost_on_merge :
    (∀ op ∈ [ReassemblerOp.insert 2 ['c', 'd'] false, .insert 4 ['e', 'f'] true,
          .insert 0 ['a', 'b'] false], op.ConsistentWith ['a', 'b', 'c', 'd', 'e', 'f'])
      ∧ ((Observed.new 8).run [.insert 2 ['c', 'd'] false,
            .insert 4 ['e', 'f'] true]).r.reassembler_.bytes_list_
          = [{ first_index_ := 2, is_delete_ := false, is_last_substring_ := false,
               data_ := ['c', 'd', 'e', 'f'] }]
      ∧ ((Observed.new 8).run [.insert 2 ['c', 'd'] false, .insert 4 ['e', 'f'] true,
            .insert 0 ['a', 'b'] false]).written = ['a', 'b', 'c', 'd', 'e', 'f']
      ∧ ((Observed.new 8).run [.insert 2 ['c', 'd'] false, .insert 4 ['e', 'f'] true,
            .insert 0 ['a', 'b'] false]).r.output_.is_closed = false := by
  decide

/-- C6 (evaluation at the failing input): capacity 8, after `insert(1, "b", false)`. One call of
`insert(0, "ab", true)` writes `"ab"` and leaves the output open; a second identical call
closes it. -/
theorem C6_second_insert_closes :
    (((Observed.new 8).run [.insert 1 ['b'] false]).r.insert 0 ['a', 'b'] true).output_.content
        = ['a', 'b']
      ∧ (((Observed.new 8).run [.insert 1 ['b'] false]).r.insert 0 ['a', 'b']
          true).output_.is_closed = false
      ∧ ((((Observed.new 8).run [.insert 1 ['b'] false]).r.insert 0 ['a', 'b'] true).insert 0
          ['a', 'b'] true).output_.content = ['a', 'b']
      ∧ ((((Observed.new 8).run [.insert 1 ['b'] false]).r.insert 0 ['a', 'b'] true).insert 0
          ['a', 'b'] true).output_.is_closed = true := by
  decide

/-- C7 as stated fails. Capacity 8: after `insert(0, "ab", false)` the first unassembled index
is 2, and `insert(1, "", true)`, with `first_index ≤ U`, leaves the output open. Capacity 2:
after `insert(0, "ab", false)` nothing more fits, and `insert(2, "", true)` at `first_index = U`
leaves the output open. Capacity `2^64 − 1`: after `insert(0, "a", false)` and `pop(1)` the sum
`U + available_capacity` wraps to 0, and `insert(1, "", true)` leaves the output open. -/
theorem C7_counterexample :
    (((Observed.new 8).run [.insert 0 ['a', 'b'] false]).r.output_.bytes_pushed = 2
        ∧ (1 : Nat) ≤ 2
        ∧ (((Observed.new 8).run [.insert 0 ['a', 'b'] false]).r.insert 1 []
            true).output_.is_closed = false)
      ∧ (((Observed.new 2).run [.insert 0 ['a', 'b'] false]).r.output_.bytes_pushed = 2
        ∧ ((Observed.new 2).run [.insert 0 ['a', 'b'] false]).r.output_.available_capacity = 0
        ∧ (((Observed.new 2).run [.insert 0 ['a', 'b'] false]).r.insert 2 []
            true).output_.is_closed = false)
      ∧ (((Observed.new 18446744073709551615).run [.insert 0 ['a'] false,
            .pop 1]).r.output_.bytes_pushed = 1
        ∧ ((Observed.new 18446744073709551615).run [.insert 0 ['a'] false,
            .pop 1]).r.output_.available_capacity = 18446744073709551615
        ∧ (((Observed.new 18446744073709551615).run [.insert 0 ['a'] false, .pop 1]).r.insert 1 []
            true).output_.is_closed = false) := by
  decide

theorem insert_empty_last (r : Reassembler) (hinv : ReInv (fun _ _ => True) r)
    (hA : 0 < r.output_.available_capacity)
    (hU : r.output_.bytes_pushed_ + r.output_.available_capacity < U64) :
    (r.insert r.output_.bytes_pushed_ [] true).output_.is_close_ = true := by
  have hguard : ¬ (sub64 (max r.output_.bytes_pushed_ r.output_.bytes_pushed_)
        r.output_.bytes_pushed_ > ([] : Bytes).length
      ∨ max r.output_.bytes_pushed_ r.output_.bytes_pushed_
        ≥ add64 r.output_.bytes_pushed_ r.output_.available_capacity) := by
    rw [Nat.max_self]
    simp only [sub64, add64, U64, List.length_nil] at *
    omega
  rw [insert_eq, if_neg hguard, Nat.max_self]
  simp only [List.drop_nil, List.take_nil, List.length_nil, Nat.zero_min, Nat.not_lt_zero,
    ↓reduceIte]
  have hl : insertLoop r.output_.bytes_pushed_ [] true r.reassembler_.bytes_list_
      = PendingBytesUnit.new r.output_.bytes_pushed_ [] true :: r.reassembler_.bytes_list_ := by
    cases hlist : r.reassembler_.bytes_list_ with
    | nil => rfl
    | cons cur rest =>
      have := (hinv.units cur (by rw [hlist]; exact List.mem_cons_self _ _)).1
      rw [insertLoop, if_pos]
      simp only [add64, U64, List.length_nil] at *
      omega
  unfold Reassembler.pushFront PendingBytes.insert_bytes_list PendingBytes.delete_bytes_list
  rw [hl]
  simp [PendingBytesUnit.new, ByteStream.bytes_pushed, ByteStream.close]

theorem insert_empty_before (r : Reassembler) (first_index : Nat)
    (hU : r.output_.bytes_pushed_ < U64) (hlt : first_index < r.output_.bytes_pushed_) :
    r.insert first_index [] true = r := by
  rw [insert_eq, if_pos]
  left
  rw [Nat.max_eq_left (Nat.le_of_lt hlt)]
  simp only [sub64, U64, List.length_nil] at *
  omega

/-- C7 (amended): in every reachable reassembler state with first unassembled index `U`, available
capacity at least 1 and `U + available_capacity < 2^64`, `insert(U, "", true)` closes the output
stream immediately, and `insert(first_index, "", true)` with `first_index < U` changes nothing. -/
theorem C7_empty_last_closes_at_U (capacity : Nat) (ops : List ReassemblerOp)
    (hC : capacity < U64)
    (hA : 0 < ((Observed.new capacity).run ops).r.output_.available_capacity)
    (hU : ((Observed.new capacity).run ops).r.output_.bytes_pushed
      + ((Observed.new capacity).run ops).r.output_.available_capacity < U64) :
    (((Observed.new capacity).run ops).r.insert
        ((Observed.new capacity).run ops).r.output_.bytes_pushed [] true).output_.is_closed = true
      ∧ ∀ first_index, first_index < ((Observed.new capacity).run ops).r.output_.bytes_pushed →
          ((Observed.new capacity).run ops).r.insert first_index [] true
            = ((Observed.new capacity).run ops).r :=
  ⟨insert_empty_last _ (ReInv_reachable capacity hC ops) hA hU,
    fun first_index hlt => insert_empty_before _ first_index
      (Nat.lt_of_le_of_lt (Nat.le_add_right _ _) hU) hlt⟩

/-- C7 (amended) at a concrete input: capacity 8, after `insert(0, "ab", false)` and
`insert(4, "ef", false)`, `insert(2, "", true)` closes the output. -/
theorem C7_empty_last_closes_at_U_witness :
    ((8 : Nat) < U64
        ∧ 0 < ((Observed.new 8).run [.insert 0 ['a', 'b'] false,
            .insert 4 ['e', 'f'] false]).r.output_.available_capacity
        ∧ ((Observed.new 8).run [.insert 0 ['a', 'b'] false,
              .insert 4 ['e', 'f'] false]).r.output_.bytes_pushed
            + ((Observed.new 8).run [.insert 0 ['a', 'b'] false,
              .insert 4 ['e', 'f'] false]).r.output_.available_capacity < U64)
      ∧ (((Observed.new 8).run [.insert 0 ['a', 'b'] false, .insert 4 ['e', 'f'] false]).r.insert
          ((Observed.new 8).run [.insert 0 ['a', 'b'] false,
            .insert 4 ['e', 'f'] false]).r.output_.bytes_pushed [] true).output_.is_closed
          = true :=
  ⟨by decide, (C7_empty_last_closes_at_U 8 [.insert 0 ['a', 'b'] false,
    .insert 4 ['e', 'f'] false] (by decide) (by decide) (by decide)).1⟩

/-! ## Theorems: tcp_receiver.cc -/

theorem wrap_add64 (a b c : Nat) (z : Wrap32) :
    Wrap32.wrap (add64 (add64 a b) c) z = Wrap32.wrap (a + b + c) z := by
  simp only [Wrap32.wrap, add64, U64, U32, Wrap32.mk.injEq]
  omega

theorem receive_eq (r : TCPReceiver) (message : TCPSenderMessage) :
    r.receive message
      = if message.RST then
          { r.afterInsert message with
            ackno_ := add64 (add64 (b2n (r.afterInsert message).has_ISN_)
                (r.afterInsert message).reassembler_.output_.bytes_pushed)
              (b2n (r.afterInsert message).reassembler_.output_.is_closed)
            has_ISN_ := false
            reassembler_ :=
              { (r.afterInsert message).reassembler_ with
                output_ := (r.afterInsert message).reassembler_.output_.set_error } }
        else
          { r.afterInsert message with
            ackno_ := add64 (add64 (b2n (r.afterInsert message).has_ISN_)
                (r.afterInsert message).reassembler_.output_.bytes_pushed)
              (b2n (r.afterInsert message).reassembler_.output_.is_closed) } :=
  rfl

theorem afterInsert_has_ISN (r : TCPReceiver) (message : TCPSenderMessage) :
    (r.afterInsert message).has_ISN_ = (message.SYN || r.has_ISN_) := by
  unfold TCPReceiver.afterInsert
  cases message.SYN <;> cases h : r.has_ISN_ <;> simp [h]

theorem afterInsert_ISN (r : TCPReceiver) (message : TCPSenderMessage) :
    (r.afterInsert message).ISN_ = if message.SYN then message.seqno else r.ISN_ := by
  unfold TCPReceiver.afterInsert
  cases message.SYN <;> cases h : r.has_ISN_ <;> simp [h]

theorem AcknoInv_step (r : TCPReceiver) (op : ReceiverOp) (h : AcknoInv r) :
    AcknoInv (r.step op) := by
  cases op with
  | receive message =>
    intro hisn
    show (r.receive message).ackno_
      = add64 (add64 1 (r.receive message).reassembler_.output_.bytes_pushed)
          (b2n (r.receive message).reassembler_.output_.is_closed)
    change (r.receive message).has_ISN_ = true at hisn
    rw [receive_eq] at hisn ⊢
    cases hrst : message.RST
    · rw [hrst] at hisn
      simp only [Bool.false_eq_true, ↓reduceIte] at hisn ⊢
      rw [hisn]
      rfl
    · rw [hrst] at hisn
      simp at hisn
  | pop len =>
    intro hisn
    have h1 := h hisn
    obtain ⟨f1, _, f3, _⟩ := pop_fields r.reassembler_.output_ len
    show r.ackno_ = add64 (add64 1 (r.reassembler_.output_.pop len).bytes_pushed_)
      (b2n (r.reassembler_.output_.pop len).is_close_)
    rw [f1, f3]
    exact h1

theorem AcknoInv_run (ops : List ReceiverOp) :
    ∀ r : TCPReceiver, AcknoInv r → AcknoInv (r.run ops) := by
  induction ops with
  | nil => intro r h; exact h
  | cons op ops ih => intro r h; exact ih (r.step op) (AcknoInv_step r op h)

/-- C11: in every state reached from a fresh receiver by `receive` calls and reader pops,
`send().ackno` is absent when no ISN is set, and otherwise it is
`wrap(1 + bytes_pushed + (1 if the output is closed), ISN)` for the current output stream. -/
theorem C11_receiver_ackno (capacity : Nat) (ops : List ReceiverOp) :
    ((TCPReceiver.fresh capacity).run ops).send.ackno
      = if ((TCPReceiver.fresh capacity).run ops).has_ISN_ = true then
          some (Wrap32.wrap
            (1 + ((TCPReceiver.fresh capacity).run ops).reassembler_.output_.bytes_pushed
              + b2n ((TCPReceiver.fresh capacity).run ops).reassembler_.output_.is_closed)
            ((TCPReceiver.fresh capacity).run ops).ISN_)
        else none := by
  have h := AcknoInv_run ops (TCPReceiver.fresh capacity) (by intro h; cases h)
  generalize (TCPReceiver.fresh capacity).run ops = r at h
  unfold TCPReceiver.send
  dsimp only
  cases hisn : r.has_ISN_
  · simp
  · simp only [↓reduceIte]
    rw [h hisn, wrap_add64]

theorem insert_keeps_closed (r : Reassembler) (first_index : Nat) (data : Bytes)
    (is_last : Bool) (h : r.output_.is_close_ = true) :
    (r.insert first_index data is_last).output_.is_close_ = true := by
  rw [insert_eq]
  generalize r.reassembler_.insert_bytes_list _ _ _ = p1
  split_ifs
  · exact h
  · unfold Reassembler.pushFront
    split_ifs
    · dsimp only
      split_ifs
      · rfl
      · rw [(push_fields _ _).2.2.1]; exact h
    · exact h

/-- C12 as stated fails: a receiver that has taken a SYN with seqno 0 (output open) receives a
segment with RST set, FIN clear, seqno 1 and no payload; the segment is inserted as the last
substring and the output stream is closed afterwards. -/
theorem C12_counterexample :
    ((TCPReceiver.fresh 8).receive ⟨⟨0⟩, true, [], false, false⟩).reassembler_.output_.is_closed
        = false
      ∧ (((TCPReceiver.fresh 8).receive ⟨⟨0⟩, true, [], false, false⟩).receive
          ⟨⟨1⟩, false, [], false, true⟩).reassembler_.output_.is_closed = true := by
  decide

/-- C12 (amended): for every receiver state and every segment with RST set and FIN clear, after
`receive` the output stream has its error flag set and the ISN is cleared. If the receiver had no
ISN and the segment carries no SYN, the closed flag is unchanged; otherwise the payload has been
inserted as the last substring (`is_last = FIN || RST`), and an output that was closed stays
closed. -/
theorem C12_rst_sets_error (r : TCPReceiver) (message : TCPSenderMessage)
    (hrst : message.RST = true) (hfin : message.FIN = false) :
    (r.receive message).reassembler_.output_.has_error = true
      ∧ (r.receive message).has_ISN_ = false
      ∧ (if r.has_ISN_ = false ∧ message.SYN = false then
          (r.receive message).reassembler_.output_.is_closed = r.reassembler_.output_.is_closed
        else
          (r.receive message).reassembler_.output_
              = ((r.reassembler_.insert
                  (add64 (sub64 (message.seqno.unwrap
                    (if message.SYN then message.seqno else r.ISN_)
                    (add64 r.reassembler_.output_.bytes_pushed 1)) 1) (b2n message.SYN))
                  message.payload true).output_).set_error
            ∧ (r.reassembler_.output_.is_closed = true →
                (r.receive message).reassembler_.output_.is_closed = true)) := by
  rw [receive_eq, hrst]
  rw [if_pos rfl]
  refine ⟨rfl, rfl, ?_⟩
  dsimp only
  have hai : (r.afterInsert message).reassembler_
      = if r.has_ISN_ = false ∧ message.SYN = false then r.reassembler_
        else r.reassembler_.insert
          (add64 (sub64 (message.seqno.unwrap (if message.SYN then message.seqno else r.ISN_)
            (add64 r.reassembler_.output_.bytes_pushed 1)) 1) (b2n message.SYN))
          message.payload true := by
    unfold TCPReceiver.afterInsert
    rw [hrst, hfin]
    cases hsyn : message.SYN <;> cases hisn : r.has_ISN_ <;> simp [hisn, b2n]
  rw [hai]
  by_cases hc : r.has_ISN_ = false ∧ message.SYN = false
  · rw [if_pos hc, if_pos hc]; rfl
  · rw [if_neg hc, if_neg hc]
    exact ⟨rfl, fun h => insert_keeps_closed _ _ _ _ h⟩

/-- C12 (amended) at a concrete input: the receiver and the RST segment of the counterexample. -/
theorem C12_rst_sets_error_witness :
    ((⟨⟨1⟩, false, [], false, true⟩ : TCPSenderMessage).RST = true
        ∧ (⟨⟨1⟩, false, [], false, true⟩ : TCPSenderMessage).FIN = false)
      ∧ (((TCPReceiver.fresh 8).receive ⟨⟨0⟩, true, [], false, false⟩).receive
          ⟨⟨1⟩, false, [], false, true⟩).reassembler_.output_.has_error = true
      ∧ (((TCPReceiver.fresh 8).receive ⟨⟨0⟩, true, [], false, false⟩).receive
          ⟨⟨1⟩, false, [], false, true⟩).has_ISN_ = false :=
  ⟨by decide,
    (C12_rst_sets_error ((TCPReceiver.fresh 8).receive ⟨⟨0⟩, true, [], false, false⟩)
      ⟨⟨1⟩, false, [], false, true⟩ rfl rfl).1,
    (C12_rst_sets_error ((TCPReceiver.fresh 8).receive ⟨⟨0⟩, true, [], false, false⟩)
      ⟨⟨1⟩, false, [], false, true⟩ rfl rfl).2.1⟩

/-- C13 as stated fails: a fresh receiver takes a SYN with seqno 5 and then a SYN with seqno 9
(neither with RST); the ISN is 9 afterwards, not the seqno of the first SYN. -/
theorem C13_counterexample :
    ((TCPReceiver.fresh 8).run [.receive ⟨⟨5⟩, true, [], false, false⟩]).ISN_ = ⟨5⟩
      ∧ ((TCPReceiver.fresh 8).run [.receive ⟨⟨5⟩, true, [], false, false⟩,
          .receive ⟨⟨9⟩, true, [], false, false⟩]).ISN_ = ⟨9⟩
      ∧ ((TCPReceiver.fresh 8).run [.receive ⟨⟨5⟩, true, [], false, false⟩,
          .receive ⟨⟨9⟩, true, [], false, false⟩]).send.ackno = some ⟨10⟩ := by
  decide

theorem receive_ISN_of_no_rst (r : TCPReceiver) (message : TCPSenderMessage)
    (hrst : message.RST = false) :
    (r.receive message).has_ISN_ = (message.SYN || r.has_ISN_)
      ∧ (r.receive message).ISN_ = if message.SYN then message.seqno else r.ISN_ := by
  rw [receive_eq, hrst]
  simp only [Bool.false_eq_true, ↓reduceIte]
  exact ⟨afterInsert_has_ISN r message, afterInsert_ISN r message⟩

theorem run_ISN_of_no_rst (messages : List TCPSenderMessage) :
    ∀ r : TCPReceiver, (∀ m ∈ messages, m.RST = false) →
      (r.run (messages.map ReceiverOp.receive)).has_ISN_
          = (messages.any (fun m => m.SYN) || r.has_ISN_)
        ∧ (r.run (messages.map ReceiverOp.receive)).ISN_
          = (((messages.filter (fun m => m.SYN)).getLast?).map (fun m => m.seqno)).getD r.ISN_ := by
  induction messages with
  | nil => intro r _; simp [TCPReceiver.run]
  | cons m rest ih =>
    intro r h
    have hm := h m (List.mem_cons_self _ _)
    obtain ⟨h1, h2⟩ := receive_ISN_of_no_rst r m hm
    obtain ⟨i1, i2⟩ := ih (r.receive m) (fun x hx => h x (List.mem_cons_of_mem _ hx))
    have e : r.run ((m :: rest).map ReceiverOp.receive)
        = (r.receive m).run (rest.map ReceiverOp.receive) := rfl
    rw [e, i1, i2, h1, h2]
    constructor
    · simp only [List.any_cons]
      cases m.SYN <;> cases r.has_ISN_ <;> simp
    · cases hsyn : m.SYN
      · simp [List.filter_cons, hsyn]
      · simp only [↓reduceIte, List.filter_cons, hsyn]
        cases hf : List.filter (fun m => m.SYN) rest with
        | nil => simp
        | cons a l =>
          rw [List.getLast?_cons_cons]
          cases hl : (a :: l).getLast? with
          | none => simp at hl
          | some x => rfl

/-- C13 (amended): for every sequence of RST-free segments delivered to a fresh receiver, an ISN
is set exactly when some segment carried SYN, and the ISN (used for unwrapping and for
`send().ackno`) is the seqno of the most recent SYN-bearing segment; segments without SYN never
change it. -/
theorem C13_isn_is_latest_syn (capacity : Nat) (messages : List TCPSenderMessage)
    (hrst : ∀ m ∈ messages, m.RST = false) :
    ((TCPReceiver.fresh capacity).run (messages.map ReceiverOp.receive)).has_ISN_
        = messages.any (fun m => m.SYN)
      ∧ ∀ m, (messages.filter (fun m => m.SYN)).getLast? = some m →
          ((TCPReceiver.fresh capacity).run (messages.map ReceiverOp.receive)).ISN_ = m.seqno := by
  obtain ⟨h1, h2⟩ := run_ISN_of_no_rst messages (TCPReceiver.fresh capacity) hrst
  refine ⟨?_, fun m hm => ?_⟩
  · rw [h1]; simp [TCPReceiver.fresh, TCPReceiver.new]
  · rw [h2, hm]; rfl

/-- C13 (amended) at a concrete input: SYN with seqno 5, a data segment, SYN with seqno 9. -/
theorem C13_isn_is_latest_syn_witness :
    (∀ m ∈ [(⟨⟨5⟩, true, [], false, false⟩ : TCPSenderMessage), ⟨⟨6⟩, false, ['a'], false, false⟩,
          ⟨⟨9⟩, true, [], false, false⟩], m.RST = false)
      ∧ ((TCPReceiver.fresh 8).run ([(⟨⟨5⟩, true, [], false, false⟩ : TCPSenderMessage),
          ⟨⟨6⟩, false, ['a'], false, false⟩,
          ⟨⟨9⟩, true, [], false, false⟩].map ReceiverOp.receive)).ISN_ = ⟨9⟩ :=
  ⟨by decide,
    (C13_isn_is_latest_syn 8 [⟨⟨5⟩, true, [], false, false⟩, ⟨⟨6⟩, false, ['a'], false, false⟩,
      ⟨⟨9⟩, true, [], false, false⟩] (by decide)).2 ⟨⟨9⟩, true, [], false, false⟩ (by decide)⟩

/-! ## Theorems: tcp_sender.cc, evaluations -/

/-- C14 (evaluation at the failing input): a fresh sender (peer window 1, nothing in flight)
whose input is closed while empty. The first `push` emits one segment carrying SYN and FIN, of
sequence length 2, larger than the window 1; afterwards 2 sequence numbers are in flight and
`has_fin_` is still clear. -/
theorem C14_first_push_exceeds_window :
    ((Transmitted.new 100 ⟨0⟩ 1000).run ⟨1000⟩ [.close]).map
        (fun t => (t.sender.peer_win_size_, t.sender.sequence_numbers_in_flight))
        = some (1, 0)
      ∧ ((Transmitted.new 100 ⟨0⟩ 1000).run ⟨1000⟩ [.close, .push]).map
          (fun t => (t.segments, t.segments.map TCPSenderMessage.sequence_length,
            t.sender.peer_win_size_, t.sender.sequence_numbers_in_flight, t.sender.has_fin_))
        = some ([⟨⟨0⟩, true, [], true, false⟩], [2], 1, 2, false) := by
  decide

/-- C15 (evaluation at the failing input): initial RTO 1000. After the SYN is sent, a receiver
message with window 0 and then one with window 4 arrive (no ackno). `tick(1000)` retransmits
the SYN, but `consecutive_retransmissions` stays 0 and the RTO stays 1000: `win_nonzero_` was
cleared by the zero window and is never set again. -/
theorem C15_no_backoff_after_zero_window :
    ((Transmitted.new 100 ⟨0⟩ 1000).run ⟨1000⟩
        [.push, .receive ⟨none, 0, false⟩, .receive ⟨none, 4, false⟩]).map
        (fun t => (t.segments.length, t.sender.peer_win_size_,
          t.sender.retransmissionTimer_.win_nonzero_,
          t.sender.retransmissionTimer_.expected_ackno_list_.length))
        = some (1, 4, false, 1)
      ∧ ((Transmitted.new 100 ⟨0⟩ 1000).run ⟨1000⟩
          [.push, .receive ⟨none, 0, false⟩, .receive ⟨none, 4, false⟩, .tick 1000]).map
          (fun t => (t.segments, t.sender.consecutive_retransmissions,
            t.sender.retransmissionTimer_.cur_RTO_ms_))
        = some ([⟨⟨0⟩, true, [], false, false⟩, ⟨⟨0⟩, true, [], false, false⟩], 0, 1000) := by
  decide

/-- C17 (evaluation at the failing input): the segment `"hi"` at `[1, 3)` has been retransmitted
once (RTO 2000, one consecutive retransmission, sent at 1000) and the clock is at 1500. The ack 2
acknowledges it only in part: no entry is removed, yet the RTO is back to 1000, the counter to 0
and the entry's timer to 1500. -/
theorem C17_partial_ack_resets_timer :
    ((Transmitted.new 100 ⟨0⟩ 1000).run ⟨1000⟩
        [.push, .receive ⟨some ⟨1⟩, 4, false⟩, .write ['h', 'i'], .push, .tick 1000,
          .tick 500]).map
        (fun t => (t.sender.retransmissionTimer_.expected_ackno_list_,
          t.sender.retransmissionTimer_.cur_RTO_ms_, t.sender.consecutive_retransmissions))
        = some ([⟨⟨⟨1⟩, false, ['h', 'i'], false, false⟩, 1000⟩], 2000, 1)
      ∧ ((Transmitted.new 100 ⟨0⟩ 1000).run ⟨1000⟩
          [.push, .receive ⟨some ⟨1⟩, 4, false⟩, .write ['h', 'i'], .push, .tick 1000,
            .tick 500, .receive ⟨some ⟨2⟩, 4, false⟩]).map
          (fun t => (t.sender.retransmissionTimer_.expected_ackno_list_,
            t.sender.retransmissionTimer_.cur_RTO_ms_, t.sender.consecutive_retransmissions))
        = some ([⟨⟨⟨1⟩, false, ['h', 'i'], false, false⟩, 1500⟩], 1000, 0) := by
  decide

/-- C18 (evaluation at the failing input): the SYN has been sent and acknowledged, so the highest
sequence number sent is 1. A message with ackno 5 and window 10 sets `largest_ackno` to 5; when
the input is closed afterwards `push` emits nothing, and FIN is never sent. After a message with
the same window and no ackno, the same `close` and `push` emit the FIN segment. -/
theorem C18_invalid_ack_blocks_fin :
    ((Transmitted.new 100 ⟨0⟩ 1000).run ⟨1000⟩
        [.push, .receive ⟨some ⟨1⟩, 10, false⟩, .receive ⟨some ⟨5⟩, 10, false⟩, .close,
          .push]).map
        (fun t => (t.segments, t.sender.largest_ackno, t.sender.has_fin_))
        = some ([⟨⟨0⟩, true, [], false, false⟩], 5, false)
      ∧ ((Transmitted.new 100 ⟨0⟩ 1000).run ⟨1000⟩
          [.push, .receive ⟨some ⟨1⟩, 10, false⟩, .receive ⟨none, 10, false⟩, .close,
            .push]).map
          (fun t => (t.segments, t.sender.largest_ackno, t.sender.has_fin_))
        = some ([⟨⟨0⟩, true, [], false, false⟩, ⟨⟨1⟩, false, [], true, false⟩], 1, true) := by
  decide

/-- C19 (evaluation at the failing input): a fresh sender whose input is closed while empty.
`push` emits one segment of sequence length 2 (SYN and FIN), so the next sequence number is 2;
`make_empty_message()` carries seqno 1, because `has_fin_` was not set. -/
theorem C19_empty_message_seqno_behind :
    ((Transmitted.new 100 ⟨0⟩ 1000).run ⟨1000⟩ [.close, .push]).map
        (fun t => ((t.segments.map TCPSenderMessage.sequence_length).sum,
          t.sender.make_empty_message))
        = some (2, ⟨⟨1⟩, false, [], false, false⟩)
      ∧ Wrap32.wrap 2 ⟨0⟩ = ⟨2⟩ := by
  decide

/-! ## Auxiliary facts: tcp_sender.cc -/

theorem unwrap_small (x isn : Wrap32) (checkpoint : Nat) (h : checkpoint < I31) :
    x.unwrap isn checkpoint = (x.raw_value_ + U32 - isn.raw_value_ % U32) % U32 := by
  simp only [Wrap32.unwrap, add64, sub64, toInt64, U32, U64, I31] at *
  have hp : (checkpoint + 2147483648) % 18446744073709551616 / 4294967296 * 4294967296
      % 18446744073709551616 = 0 := by omega
  rw [hp]
  simp only [or_true, ↓reduceIte, Nat.zero_add]
  omega

theorem pop_zero (s : ByteStream) : s.pop 0 = s := by
  unfold ByteStream.pop
  cases hq : s.view_queue with
  | nil => simp [ByteStream.popLoop, ← hq]
  | cons v rest => simp [ByteStream.popLoop, ← hq]

theorem seqDist_wrap (isn : Wrap32) (n : Nat) (m : TCPSenderMessage)
    (hm : m.seqno = Wrap32.wrap n isn) (hn : n < U32) (hisn : isn.raw_value_ < U32) :
    seqDist isn m = n := by
  unfold seqDist
  rw [hm]
  simp only [Wrap32.wrap, add64, U64, U32] at *
  omega

theorem b2n_true : b2n true = 1 := rfl

theorem b2n_false : b2n false = 0 := rfl

theorem b2n_le_one (b : Bool) : b2n b ≤ 1 := by
  cases b <;> simp [b2n]

theorem b2n_or_le (a b : Bool) : b2n (!(a || b)) ≤ b2n (!a) := by
  cases a <;> cases b <;> simp [b2n]

theorem pushBody_fields (cfg : TCPConfig) (s : TCPSender) :
    (s.pushBody cfg).1.isn_ = s.isn_
      ∧ (s.pushBody cfg).1.peer_win_size_ = s.peer_win_size_
      ∧ (s.pushBody cfg).1.largest_ackno = s.largest_ackno
      ∧ (s.pushBody cfg).1.cur_ms_ = s.cur_ms_
      ∧ (s.pushBody cfg).1.initial_RTO_ms_ = s.initial_RTO_ms_
      ∧ (s.pushBody cfg).1.saveTransFunc_ = s.saveTransFunc_
      ∧ (s.pushBody cfg).1.has_isn_ = true
      ∧ (s.pushBody cfg).1.retransmissionTimer_
          = s.retransmissionTimer_.insertAcknoList (s.pushBody cfg).2 s.cur_ms_
      ∧ (s.pushBody cfg).1.input_
          = (if s.has_isn_ then s.input_.pop (s.transLen cfg) else s.input_) := by
  unfold TCPSender.pushBody TCPSender.transLen read
  dsimp only
  cases s.has_isn_ <;> simp <;> split_ifs <;> simp

theorem pushBody_msg (cfg : TCPConfig) (s : TCPSender) :
    (s.pushBody cfg).2.seqno = Wrap32.wrap (add64 s.input_.bytes_popped (b2n s.has_isn_)) s.isn_
      ∧ (s.pushBody cfg).2.SYN = !s.has_isn_
      ∧ (s.pushBody cfg).2.payload
          = (if s.has_isn_ then s.input_.content.take (s.transLen cfg) else [])
      ∧ (s.pushBody cfg).2.FIN
          = ({ s with input_ := (s.pushBody cfg).1.input_ } : TCPSender).getCanSentFin
      ∧ (s.pushBody cfg).2.RST = (s.pushBody cfg).1.input_.has_error := by
  unfold TCPSender.pushBody TCPSender.transLen read
  dsimp only
  cases s.has_isn_ <;> simp <;> split_ifs <;> simp

theorem pushBody_has_fin (cfg : TCPConfig) (s : TCPSender) :
    (s.pushBody cfg).1.has_fin_
      = (s.has_fin_ || ({ s with input_ := (s.pushBody cfg).1.input_, has_isn_ := true }
          : TCPSender).getCanSentFin) := by
  unfold TCPSender.pushBody read
  dsimp only
  cases h1 : s.has_isn_ <;> cases h2 : s.has_fin_ <;> simp [TCPSender.getCanSentFin, h1, h2]
    <;> split_ifs <;> simp_all [TCPSender.getCanSentFin]

theorem transLen_le (cfg : TCPConfig) (s : TCPSender) : s.transLen cfg ≤ s.input_.buffered_ :=
  Nat.min_le_right _ _

theorem pushBody_input (cfg : TCPConfig) (s : TCPSender) (hs : StreamInv s.input_) :
    StreamInv (s.pushBody cfg).1.input_
      ∧ (s.pushBody cfg).1.input_.is_close_ = s.input_.is_close_
      ∧ (s.pushBody cfg).1.input_.bytes_popped_
          = s.input_.bytes_popped_ + (s.pushBody cfg).2.payload.length
      ∧ (s.pushBody cfg).1.input_.buffered_ + (s.pushBody cfg).2.payload.length
          = s.input_.buffered_
      ∧ s.input_.content = (s.pushBody cfg).2.payload ++ (s.pushBody cfg).1.input_.content
      ∧ (s.pushBody cfg).2.payload.length = (if s.has_isn_ then s.transLen cfg else 0)
      ∧ ((s.pushBody cfg).2.payload = [] → (s.pushBody cfg).1.input_ = s.input_) := by
  have hin := (pushBody_fields cfg s).2.2.2.2.2.2.2.2
  have hpl := (pushBody_msg cfg s).2.2.1
  rw [hin, hpl]
  have htl := transLen_le cfg s
  have hb := hs.buffered_eq
  cases h : s.has_isn_
  · simp
    exact hs
  · simp only [↓reduceIte]
    obtain ⟨h1, h2, h3, _⟩ := pop_spec s.input_ (s.transLen cfg) hs
    obtain ⟨_, _, f3, _⟩ := pop_fields s.input_ (s.transLen cfg)
    refine ⟨StreamInv_pop _ _ hs, f3, ?_, ?_, ?_, ?_, ?_⟩
    · rw [h3, List.length_take]; omega
    · rw [h2, List.length_take]; omega
    · rw [h1, List.take_append_drop]
    · rw [List.length_take]; omega
    · intro hnil
      have : s.transLen cfg = 0 ∨ s.input_.content = [] := by
        rcases Nat.eq_zero_or_pos (s.transLen cfg) with h0 | h0
        · exact Or.inl h0
        · right
          have := congrArg List.length hnil
          rw [List.length_take] at this
          simp only [List.length_nil] at this
          have : s.input_.content.length = 0 := by omega
          exact List.length_eq_zero.mp this
      have h0 : s.transLen cfg = 0 := by
        rcases this with h0 | h0
        · exact h0
        · rw [h0] at hb
          simp only [List.length_nil] at hb
          omega
      rw [h0, pop_zero]

theorem is_finished_iff (s : ByteStream) :
    s.is_finished = true ↔ s.is_close_ = true ∧ s.buffered_ = 0 := by
  simp [ByteStream.is_finished]

theorem getCanSentFin_finished (s : TCPSender) (h : s.getCanSentFin = true) :
    s.has_fin_ = false ∧ s.input_.is_finished = true := by
  unfold TCPSender.getCanSentFin at h
  simp only [Bool.and_eq_true, Bool.not_eq_true', decide_eq_true_eq] at h
  exact ⟨h.1.1, h.1.2⟩

theorem pushBody_progress (cfg : TCPConfig) (s : TCPSender) (hs : StreamInv s.input_)
    (hmax : 1 ≤ cfg.MAX_PAYLOAD_SIZE) (hc : s.pushCond = true) :
    1 ≤ (s.pushBody cfg).2.sequence_length
      ∧ (s.input_.is_finished = true → s.has_isn_ = true → (s.pushBody cfg).2.FIN = true)
      ∧ (s.pushBody cfg).1.pushMeasure < s.pushMeasure := by
  obtain ⟨_, _, _, _, _, _, f7, _, _⟩ := pushBody_fields cfg s
  obtain ⟨_, m2, _, m4, _⟩ := pushBody_msg cfg s
  have hfin := pushBody_has_fin cfg s
  obtain ⟨_, _, _, i4, _, i6, i7⟩ := pushBody_input cfg s hs
  unfold TCPSender.pushMeasure TCPSenderMessage.sequence_length
  rw [f7, m2]
  cases hisn : s.has_isn_
  · rw [hisn] at i6
    simp only [Bool.false_eq_true, ↓reduceIte] at i6
    simp only [Bool.not_false, Bool.not_true, b2n_true, b2n_false]
    refine ⟨by omega, by simp, ?_⟩
    rw [hfin]
    have := b2n_or_le s.has_fin_ ({ s with input_ := (s.pushBody cfg).1.input_, has_isn_ := true }
          : TCPSender).getCanSentFin
    omega
  · rw [hisn] at i6
    simp only [↓reduceIte] at i6
    simp only [Bool.not_false, Bool.not_true, b2n_true, b2n_false]
    rcases Nat.eq_zero_or_pos (s.pushBody cfg).2.payload.length with h0 | h0
    · -- nothing is read: the loop was entered for the FIN
      have hnil : (s.pushBody cfg).2.payload = [] := List.length_eq_zero.mp h0
      have hsame := i7 hnil
      have htl : s.transLen cfg = 0 := by omega
      have hcan : s.getCanSentFin = true := by
        unfold TCPSender.pushCond at hc
        rw [hisn] at hc
        simp only [Bool.not_true, Bool.or_false, Bool.or_eq_true, Bool.and_eq_true,
          decide_eq_true_eq] at hc
        rcases hc with ⟨c1, c2⟩ | c3
        · exfalso
          unfold TCPSender.transLen at htl
          simp only [ByteStream.bytes_buffered] at c2 htl
          omega
        · exact c3
      have e1 : ({ s with input_ := (s.pushBody cfg).1.input_ } : TCPSender) = s := by
        rw [hsame]
      have e2 : ({ s with input_ := (s.pushBody cfg).1.input_, has_isn_ := true } : TCPSender)
          = s := by
        rw [hsame, ← hisn]
      rw [e1] at m4
      rw [e2] at hfin
      rw [m4, hfin, hcan]
      have := (getCanSentFin_finished s hcan).1
      rw [this]
      simp only [Bool.or_true, Bool.not_false, Bool.not_true, b2n_true, b2n_false]
      exact ⟨by omega, fun _ _ => trivial, by omega⟩
    · refine ⟨by omega, ?_, ?_⟩
      · intro hf
        have := ((is_finished_iff _).mp hf).2
        omega
      · rw [hfin]
        have := b2n_or_le s.has_fin_
          ({ s with input_ := (s.pushBody cfg).1.input_, has_isn_ := true }
            : TCPSender).getCanSentFin
        omega

theorem pushBody_finished (cfg : TCPConfig) (s : TCPSender) (hs : StreamInv s.input_)
    (h : s.input_.is_finished = true) : (s.pushBody cfg).1.input_.is_finished = true := by
  obtain ⟨_, i2, _, i4, _, _, _⟩ := pushBody_input cfg s hs
  rw [is_finished_iff] at h ⊢
  rw [i2]
  exact ⟨h.1, by omega⟩

theorem pushBody_inv (cfg : TCPConfig) (s : TCPSender) (hinv : SenderInv s)
    (hmax : 1 ≤ cfg.MAX_PAYLOAD_SIZE) (hc : s.pushCond = true) :
    SenderInv (s.pushBody cfg).1 := by
  obtain ⟨f1, _, _, _, _, _, f7, f8, _⟩ := pushBody_fields cfg s
  obtain ⟨m1, m2, _, m4, _⟩ := pushBody_msg cfg s
  obtain ⟨i1, i2, i3, i4, _, i6, i7⟩ := pushBody_input cfg s hinv.stream
  obtain ⟨g1, g2, _⟩ := pushBody_progress cfg s hinv.stream hmax hc
  refine ⟨i1, (by rw [f1]; exact hinv.isn_lt), (fun h => by rw [f7] at h; cases h), fun hb => ?_⟩
  have hold := hinv.outstanding (by omega)
  have hisn := hinv.isn_lt
  -- the new entry
  have hfinfin : (s.pushBody cfg).2.FIN = true → (s.pushBody cfg).1.input_.is_finished = true := by
    intro h
    rw [m4] at h
    exact (getCanSentFin_finished _ h).2
  have hd : seqDist s.isn_ (s.pushBody cfg).2 = s.input_.bytes_popped_ + b2n s.has_isn_ := by
    have hb1 := b2n_le_one s.has_isn_
    have e : add64 s.input_.bytes_popped (b2n s.has_isn_)
        = s.input_.bytes_popped_ + b2n s.has_isn_ := by
      simp only [add64, U64, I31, ByteStream.bytes_popped] at *
      omega
    rw [e] at m1
    exact seqDist_wrap s.isn_ _ _ m1 (by simp only [U32, I31] at *; omega) hisn
  have hend : seqEnd s.isn_ (s.pushBody cfg).2
      = (s.pushBody cfg).1.input_.bytes_popped_ + 1 + b2n (s.pushBody cfg).2.FIN := by
    unfold seqEnd TCPSenderMessage.sequence_length
    rw [hd, m2, i3]
    cases s.has_isn_ <;> simp only [Bool.not_false, Bool.not_true, b2n_true, b2n_false] <;> omega
  have hfb : b2n (s.pushBody cfg).2.FIN ≤ b2n (s.pushBody cfg).1.input_.is_finished := by
    cases hF : (s.pushBody cfg).2.FIN
    · simp [b2n]
    · rw [hfinfin hF]
  have hout : (s.pushBody cfg).1.outstanding = s.outstanding ++ [(s.pushBody cfg).2] := by
    unfold TCPSender.outstanding
    rw [f8]
    simp [RetransmissionTimer.insertAcknoList]
  have holdle : ∀ e ∈ s.outstanding,
      seqDist s.isn_ e ≤ seqDist s.isn_ (s.pushBody cfg).2
        ∧ seqEnd s.isn_ e ≤ seqEnd s.isn_ (s.pushBody cfg).2 := by
    intro e he
    obtain ⟨u1, u2⟩ := hold.units e he
    have hsyn : s.has_isn_ = true := by
      cases h : s.has_isn_
      · rw [hinv.no_syn h] at he
        simp at he
      · rfl
    rw [hd, hend, hsyn]
    rw [hsyn] at u2
    have hb1 := b2n_le_one s.input_.is_finished
    simp only [b2n_true] at u2 ⊢
    have hde : seqEnd s.isn_ e = seqDist s.isn_ e + e.sequence_length := rfl
    cases hf : s.input_.is_finished
    · rw [hf] at u2
      simp only [b2n_false] at u2
      omega
    · rw [hf] at u2
      rw [g2 hf hsyn]
      simp only [b2n_true] at u2 ⊢
      omega
  constructor
  · intro e he
    rw [hout] at he
    simp only [List.mem_append, List.mem_singleton] at he
    rw [f1, f7]
    simp only [b2n_true]
    rcases he with he | he
    · have := (holdle e he).2
      rw [hend] at this
      exact ⟨(hold.units e he).1, by omega⟩
    · rw [he]
      exact ⟨g1, by rw [hend]; omega⟩
  · rw [hout, f1]
    rw [List.pairwise_append]
    refine ⟨hold.ordered, by simp, ?_⟩
    intro a ha b hb'
    simp only [List.mem_singleton] at hb'
    rw [hb']
    exact holdle a ha

theorem pushLoop_spec (cfg : TCPConfig) (hmax : 1 ≤ cfg.MAX_PAYLOAD_SIZE) (transmit : Bool) :
    ∀ (fuel : Nat) (s : TCPSender) (out : List TCPSenderMessage), SenderInv s →
      s.pushMeasure ≤ fuel →
      ∃ r new, TCPSender.pushLoop cfg transmit fuel s out = some r
        ∧ SenderInv r.sender
        ∧ r.sender.retransmissionTimer_.expected_ackno_list_
            = s.retransmissionTimer_.expected_ackno_list_
              ++ new.map (fun m => (⟨m, s.cur_ms_⟩ : AckWrapper))
        ∧ (r.threw = false → r.segments = out ++ new)
        ∧ (transmit = true → r.threw = false)
        ∧ r.sender.isn_ = s.isn_
        ∧ s.input_.bytes_popped_ ≤ r.sender.input_.bytes_popped_
        ∧ (s.has_isn_ = true → r.sender.has_isn_ = true) := by
  intro fuel
  induction fuel with
  | zero =>
    intro s out hinv hm
    cases hc : s.pushCond
    · refine ⟨⟨s, out, false⟩, [], ?_, hinv, (by simp), (fun _ => by simp), (fun _ => rfl), rfl,
        le_refl _, fun h => h⟩
      simp [TCPSender.pushLoop, hc]
    · exfalso
      have := (pushBody_progress cfg s hinv.stream hmax hc).2.2
      omega
  | succ fuel ih =>
    intro s out hinv hm
    cases hc : s.pushCond
    · refine ⟨⟨s, out, false⟩, [], ?_, hinv, (by simp), (fun _ => by simp), (fun _ => rfl), rfl,
        le_refl _, fun h => h⟩
      simp [TCPSender.pushLoop, hc]
    · have hprog := (pushBody_progress cfg s hinv.stream hmax hc).2.2
      have hinv' := pushBody_inv cfg s hinv hmax hc
      obtain ⟨f1, _, _, f4, _, _, f7, f8, _⟩ := pushBody_fields cfg s
      obtain ⟨_, _, i3, _, _, _, _⟩ := pushBody_input cfg s hinv.stream
      cases transmit
      · have hle : s.input_.bytes_popped_ ≤ (s.pushBody cfg).1.input_.bytes_popped_ := by omega
        refine ⟨⟨(s.pushBody cfg).1, out, true⟩, [(s.pushBody cfg).2], ?_, hinv', ?_,
          (fun h => by cases h), (fun h => by cases h), f1, hle, fun _ => f7⟩
        · simp [TCPSender.pushLoop, hc]
        · rw [f8]; rfl
      · obtain ⟨r, new, h1, h2, h3, h4, h5, h6, h7, h8⟩ :=
          ih (s.pushBody cfg).1 (out ++ [(s.pushBody cfg).2]) hinv' (by omega)
        refine ⟨r, (s.pushBody cfg).2 :: new, ?_, h2, ?_, ?_, h5, (by rw [h6, f1]), (by omega),
          fun _ => h8 f7⟩
        · simp only [TCPSender.pushLoop, hc, ↓reduceIte]
          exact h1
        · rw [h3, f8, f4]
          simp [RetransmissionTimer.insertAcknoList]
        · intro ht
          rw [h4 ht]
          simp

theorem SenderInv_of_sublist (s t : TCPSender) (hinv : SenderInv s) (hi : t.input_ = s.input_)
    (hisn : t.isn_ = s.isn_) (hh : t.has_isn_ = s.has_isn_)
    (hsub : t.outstanding.Sublist s.outstanding) : SenderInv t := by
  refine ⟨by rw [hi]; exact hinv.stream, by rw [hisn]; exact hinv.isn_lt, ?_, ?_⟩
  · intro h
    rw [hh] at h
    have := hinv.no_syn h
    rw [this] at hsub
    exact List.sublist_nil.mp hsub
  · intro hb
    rw [hi] at hb
    have ho := hinv.outstanding hb
    constructor
    · intro m hm
      rw [hi, hisn, hh]
      exact ho.units m (hsub.subset hm)
    · rw [hisn]
      exact ho.ordered.sublist hsub

theorem push_spec (cfg : TCPConfig) (hmax : 1 ≤ cfg.MAX_PAYLOAD_SIZE) (transmit : Bool)
    (s : TCPSender) (hinv : SenderInv s) :
    ∃ r new, s.push cfg transmit = some r
      ∧ SenderInv r.sender
      ∧ r.sender.retransmissionTimer_.expected_ackno_list_
          = s.retransmissionTimer_.expected_ackno_list_
            ++ new.map (fun m => (⟨m, s.cur_ms_⟩ : AckWrapper))
      ∧ (r.threw = false → r.segments = new)
      ∧ (transmit = true → r.threw = false)
      ∧ r.sender.isn_ = s.isn_
      ∧ s.input_.bytes_popped_ ≤ r.sender.input_.bytes_popped_
      ∧ (s.has_isn_ = true → r.sender.has_isn_ = true) := by
  unfold TCPSender.push
  dsimp only
  have hb1 := b2n_le_one (!s.has_isn_)
  have hb2 := b2n_le_one (!s.has_fin_)
  split_ifs
  · have hinv0 : SenderInv ({ s with saveTransFunc_ := transmit } : TCPSender) :=
      SenderInv_of_sublist s _ hinv rfl rfl rfl (List.Sublist.refl _)
    obtain ⟨r, new, h1, h2, h3, h4, h5, h6, h7, h8⟩ :=
      pushLoop_spec cfg hmax transmit (s.input_.bytes_buffered + 2)
        ({ s with saveTransFunc_ := transmit } : TCPSender) [] hinv0
        (by simp only [TCPSender.pushMeasure, ByteStream.bytes_buffered]; omega)
    exact ⟨r, new, h1, h2, h3, fun h => by rw [h4 h]; rfl, h5, h6, h7, h8⟩
  · obtain ⟨r, new, h1, h2, h3, h4, h5, h6, h7, h8⟩ :=
      pushLoop_spec cfg hmax transmit (s.input_.bytes_buffered + 2) s [] hinv
        (by simp only [TCPSender.pushMeasure, ByteStream.bytes_buffered]; omega)
    exact ⟨r, new, h1, h2, h3, fun h => by rw [h4 h]; rfl, h5, h6, h7, h8⟩

theorem ackLoop_suffix (ackno : Nat) (isn : Wrap32) (checkpoint : Nat) (l : List AckWrapper) :
    ∀ is_first : Bool, (ackLoop ackno isn checkpoint is_first l).2 <:+ l := by
  induction l with
  | nil => intro _; simp [ackLoop]
  | cons it rest ih =>
    intro is_first
    simp only [ackLoop]
    by_cases h1 : ackno ≤ it.mes_.seqno.unwrap isn checkpoint
    · rw [if_pos h1]
    · rw [if_neg h1]
      by_cases h2 : add64 (it.mes_.seqno.unwrap isn checkpoint) it.mes_.sequence_length ≤ ackno
      · rw [if_pos h2]
        exact (ih false).trans (List.suffix_cons _ _)
      · rw [if_neg h2]

theorem ackLoop_filter (ackno : Nat) (isn : Wrap32) (checkpoint : Nat) (hcp : checkpoint < I31)
    (l : List AckWrapper)
    (hunits : ∀ e ∈ l, 1 ≤ e.mes_.sequence_length ∧ seqEnd isn e.mes_ < U64)
    (hord : (l.map fun e => e.mes_).Pairwise fun a b =>
      seqDist isn a ≤ seqDist isn b ∧ seqEnd isn a ≤ seqEnd isn b) :
    ∀ is_first : Bool,
      (ackLoop ackno isn checkpoint is_first l).2
        = l.filter fun e => decide (ackno < seqEnd isn e.mes_) := by
  induction l with
  | nil => intro _; simp [ackLoop]
  | cons it rest ih =>
    intro is_first
    have hit := hunits it (List.mem_cons_self _ _)
    simp only [List.map_cons, List.pairwise_cons, List.mem_map, forall_exists_index, and_imp,
      forall_apply_eq_imp_iff₂] at hord
    have hde : seqEnd isn it.mes_ = seqDist isn it.mes_ + it.mes_.sequence_length := rfl
    have hrest : ∀ e ∈ rest, ackno < seqEnd isn it.mes_ → ackno < seqEnd isn e.mes_ := by
      intro e he h
      have := (hord.1 e he).2
      omega
    have hkeep : ackno < seqEnd isn it.mes_ →
        (it :: rest).filter (fun e => decide (ackno < seqEnd isn e.mes_)) = it :: rest := by
      intro h
      rw [List.filter_eq_self]
      intro e he
      rcases List.mem_cons.mp he with h1 | h1
      · rw [h1]; exact decide_eq_true h
      · exact decide_eq_true (hrest e h1 h)
    simp only [ackLoop]
    rw [unwrap_small _ _ _ hcp]
    have hdd : (it.mes_.seqno.raw_value_ + U32 - isn.raw_value_ % U32) % U32
        = seqDist isn it.mes_ := rfl
    rw [hdd, add64_of_lt (by omega), ← hde]
    by_cases h1 : ackno ≤ seqDist isn it.mes_
    · rw [if_pos h1]
      exact (hkeep (by omega)).symm
    · rw [if_neg h1]
      by_cases h2 : seqEnd isn it.mes_ ≤ ackno
      · rw [if_pos h2, ih (fun e he => hunits e (List.mem_cons_of_mem _ he)) hord.2 false,
          List.filter_cons_of_neg]
        simp only [decide_eq_true_eq]
        omega
      · rw [if_neg h2]
        exact (hkeep (by omega)).symm

/-! ## Auxiliary facts: acknowledgements and the sender invariant -/

theorem updateAcknoList_fields (t : RetransmissionTimer) (ackno : Nat) (isn : Wrap32)
    (checkpoint : Nat) :
    (t.updateAcknoList ackno isn checkpoint).2.expected_ackno_list_ <:+ t.expected_ackno_list_
      ∧ (t.updateAcknoList ackno isn checkpoint).2.cur_RTO_ms_ = t.cur_RTO_ms_
      ∧ (t.updateAcknoList ackno isn checkpoint).2.consecutive_retransmissions_
          = t.consecutive_retransmissions_
      ∧ (t.updateAcknoList ackno isn checkpoint).2.win_nonzero_ = t.win_nonzero_ := by
  unfold RetransmissionTimer.updateAcknoList
  cases t.expected_ackno_list_.getLast? with
  | none => exact ⟨ackLoop_suffix _ _ _ _ _, rfl, rfl, rfl⟩
  | some last_msg =>
    dsimp only
    split_ifs
    · exact ⟨List.suffix_refl _, rfl, rfl, rfl⟩
    · exact ⟨ackLoop_suffix _ _ _ _ _, rfl, rfl, rfl⟩

theorem updateAcknoList_filter (t : RetransmissionTimer) (ackno : Nat) (isn : Wrap32)
    (checkpoint : Nat) (hcp : checkpoint < I31)
    (hunits : ∀ e ∈ t.expected_ackno_list_,
      1 ≤ e.mes_.sequence_length ∧ seqEnd isn e.mes_ < U64)
    (hord : (t.expected_ackno_list_.map fun e => e.mes_).Pairwise fun a b =>
      seqDist isn a ≤ seqDist isn b ∧ seqEnd isn a ≤ seqEnd isn b)
    (hlast : ∀ e, t.expected_ackno_list_.getLast? = some e → ackno ≤ seqEnd isn e.mes_) :
    (t.updateAcknoList ackno isn checkpoint).2.expected_ackno_list_
      = t.expected_ackno_list_.filter fun e => decide (ackno < seqEnd isn e.mes_) := by
  unfold RetransmissionTimer.updateAcknoList
  cases hl : t.expected_ackno_list_.getLast? with
  | none => exact ackLoop_filter _ _ _ hcp _ hunits hord true
  | some last_msg =>
    dsimp only
    have h1 := hlast last_msg hl
    have hmem : last_msg ∈ t.expected_ackno_list_ := List.mem_of_getLast?_eq_some hl
    have h2 := (hunits last_msg hmem).2
    rw [unwrap_small _ _ _ hcp]
    have hdd : (last_msg.mes_.seqno.raw_value_ + U32 - isn.raw_value_ % U32) % U32
        = seqDist isn last_msg.mes_ := rfl
    have hde : seqEnd isn last_msg.mes_
        = seqDist isn last_msg.mes_ + last_msg.mes_.sequence_length := rfl
    rw [hdd, add64_of_lt (by omega), ← hde, if_neg (by omega)]
    exact ackLoop_filter _ _ _ hcp _ hunits hord true

theorem resetTimer_map (t : RetransmissionTimer) (cur_ms : Nat) :
    (t.resetTimer cur_ms).expected_ackno_list_.map (fun e => e.mes_)
      = t.expected_ackno_list_.map (fun e => e.mes_) := by
  simp [RetransmissionTimer.resetTimer, List.map_map, Function.comp_def]

theorem receiveAck_fields (s : TCPSender) (msg : TCPReceiverMessage) (hrst : msg.RST = false) :
    (s.receiveAck msg).input_ = s.input_
      ∧ (s.receiveAck msg).isn_ = s.isn_
      ∧ (s.receiveAck msg).has_isn_ = s.has_isn_
      ∧ (s.receiveAck msg).has_fin_ = s.has_fin_
      ∧ (s.receiveAck msg).cur_ms_ = s.cur_ms_
      ∧ (s.receiveAck msg).saveTransFunc_ = s.saveTransFunc_
      ∧ (s.receiveAck msg).initial_RTO_ms_ = s.initial_RTO_ms_
      ∧ (s.receiveAck msg).peer_win_size_ = (if msg.window_size ≠ 0 then msg.window_size else 1) := by
  unfold TCPSender.receiveAck
  rw [hrst]
  simp only [Bool.false_eq_true, ↓reduceIte]
  refine ⟨?_, ?_, ?_, ?_, ?_, ?_, ?_, ?_⟩ <;>
    cases msg.ackno <;> cases s.has_isn_ <;> by_cases hw : msg.window_size = 0 <;> simp [hw]

theorem receiveAck_sublist (s : TCPSender) (msg : TCPReceiverMessage) (hrst : msg.RST = false) :
    (s.receiveAck msg).outstanding.Sublist s.outstanding := by
  unfold TCPSender.receiveAck
  rw [hrst]
  simp only [Bool.false_eq_true, ↓reduceIte]
  cases msg.ackno with
  | none =>
    dsimp only
    split_ifs <;> exact List.Sublist.refl _
  | some ackno =>
    dsimp only
    by_cases hw : msg.window_size ≠ 0
    · rw [if_pos hw]
      dsimp only
      cases s.has_isn_
      · simp only [Bool.false_eq_true, ↓reduceIte]
        exact List.Sublist.refl _
      · simp only [↓reduceIte]
        unfold TCPSender.outstanding
        dsimp only
        have hsuf := (updateAcknoList_fields s.retransmissionTimer_
          (ackno.unwrap s.isn_ (add64 s.input_.bytes_popped (b2n true))) s.isn_
          (add64 s.input_.bytes_popped (b2n true))).1
        split_ifs
        · simp only [RetransmissionTimer.resetConsecutiveRetransmissions]
          rw [resetTimer_map]
          exact (hsuf.sublist).map _
        · exact (hsuf.sublist).map _
    · rw [if_neg hw]
      dsimp only
      cases s.has_isn_
      · simp only [Bool.false_eq_true, ↓reduceIte]
        exact List.Sublist.refl _
      · simp only [↓reduceIte]
        unfold TCPSender.outstanding
        dsimp only
        have hsuf := (updateAcknoList_fields (s.retransmissionTimer_.updateWinNonZero 0)
          (ackno.unwrap s.isn_ (add64 s.input_.bytes_popped (b2n true))) s.isn_
          (add64 s.input_.bytes_popped (b2n true))).1
        split_ifs
        · simp only [RetransmissionTimer.resetConsecutiveRetransmissions]
          rw [resetTimer_map]
          exact (hsuf.sublist).map _
        · exact (hsuf.sublist).map _

theorem receiveAck_filter (s : TCPSender) (msg : TCPReceiverMessage) (ackno : Wrap32)
    (hrst : msg.RST = false) (hack : msg.ackno = some ackno) (hisn : s.has_isn_ = true)
    (hb : s.input_.bytes_popped_ + 2 ≤ I31) (ho : Outstanding s)
    (hlast : ∀ m, s.outstanding.getLast? = some m →
      ackno.unwrap s.isn_ (add64 s.input_.bytes_popped 1) ≤ seqEnd s.isn_ m) :
    (s.receiveAck msg).outstanding
      = s.outstanding.filter fun m =>
          decide (ackno.unwrap s.isn_ (add64 s.input_.bytes_popped 1) < seqEnd s.isn_ m) := by
  have hcp : add64 s.input_.bytes_popped 1 < I31 := by
    simp only [add64, U64, I31, ByteStream.bytes_popped] at *
    omega
  have hunits : ∀ e ∈ s.retransmissionTimer_.expected_ackno_list_,
      1 ≤ e.mes_.sequence_length ∧ seqEnd s.isn_ e.mes_ < U64 := by
    intro e he
    have h := ho.units e.mes_ (List.mem_map_of_mem _ he)
    have h1 := b2n_le_one s.has_isn_
    have h2 := b2n_le_one s.input_.is_finished
    refine ⟨h.1, ?_⟩
    simp only [U64, I31] at *
    omega
  have hl : ∀ e, s.retransmissionTimer_.expected_ackno_list_.getLast? = some e →
      ackno.unwrap s.isn_ (add64 s.input_.bytes_popped 1) ≤ seqEnd s.isn_ e.mes_ := by
    intro e he
    apply hlast
    unfold TCPSender.outstanding
    rw [List.getLast?_map, he]
    rfl
  have hf := updateAcknoList_filter s.retransmissionTimer_
    (ackno.unwrap s.isn_ (add64 s.input_.bytes_popped 1)) s.isn_
    (add64 s.input_.bytes_popped 1) hcp hunits ho.ordered hl
  have hf0 := updateAcknoList_filter (s.retransmissionTimer_.updateWinNonZero 0)
    (ackno.unwrap s.isn_ (add64 s.input_.bytes_popped 1)) s.isn_
    (add64 s.input_.bytes_popped 1) hcp hunits ho.ordered hl
  have hmap : ∀ l : List AckWrapper,
      (l.filter fun e => decide
          (ackno.unwrap s.isn_ (add64 s.input_.bytes_popped 1) < seqEnd s.isn_ e.mes_)).map
        (fun e => e.mes_)
      = (l.map fun e => e.mes_).filter fun m => decide
          (ackno.unwrap s.isn_ (add64 s.input_.bytes_popped 1) < seqEnd s.isn_ m) := by
    intro l
    rw [List.filter_map]
    rfl
  unfold TCPSender.receiveAck
  rw [hrst, hack]
  simp only [Bool.false_eq_true, ↓reduceIte]
  by_cases hw : msg.window_size ≠ 0
  · rw [if_pos hw]
    dsimp only
    rw [hisn]
    simp only [↓reduceIte, b2n_true]
    unfold TCPSender.outstanding
    dsimp only
    split_ifs
    · simp only [RetransmissionTimer.resetConsecutiveRetransmissions]
      rw [resetTimer_map]
      show List.map (fun e => e.mes_) (s.retransmissionTimer_.updateAcknoList _ _ _).2.expected_ackno_list_ = _
      rw [hf, hmap]
    · rw [hf, hmap]
  · rw [if_neg hw]
    dsimp only
    rw [hisn]
    simp only [↓reduceIte, b2n_true]
    unfold TCPSender.outstanding
    dsimp only
    split_ifs
    · simp only [RetransmissionTimer.resetConsecutiveRetransmissions]
      rw [resetTimer_map]
      show List.map (fun e => e.mes_)
        ((s.retransmissionTimer_.updateWinNonZero 0).updateAcknoList _ _ _).2.expected_ackno_list_ = _
      rw [hf0, hmap]
      rfl
    · rw [hf0, hmap]
      rfl

theorem SenderInv_transfer (s t : TCPSender) (hinv : SenderInv s) (hs : StreamInv t.input_)
    (hp : t.input_.bytes_popped_ = s.input_.bytes_popped_)
    (hf : s.input_.is_finished = true → t.input_.is_finished = true)
    (hisn : t.isn_ = s.isn_) (hh : t.has_isn_ = s.has_isn_)
    (hsub : t.outstanding.Sublist s.outstanding) : SenderInv t := by
  refine ⟨hs, by rw [hisn]; exact hinv.isn_lt, ?_, ?_⟩
  · intro h
    rw [hh] at h
    have := hinv.no_syn h
    rw [this] at hsub
    exact List.sublist_nil.mp hsub
  · intro hb
    rw [hp] at hb
    have ho := hinv.outstanding hb
    constructor
    · intro m hm
      have h := ho.units m (hsub.subset hm)
      rw [hisn, hp, hh]
      refine ⟨h.1, ?_⟩
      have hle : b2n s.input_.is_finished ≤ b2n t.input_.is_finished := by
        cases hsf : s.input_.is_finished
        · simp [b2n_false]
        · rw [hf hsf]
      omega
    · rw [hisn]
      exact ho.ordered.sublist hsub

theorem updateRetransmissionTimer_map (t : RetransmissionTimer) (cur_ms : Nat) :
    (t.updateRetransmissionTimer cur_ms).1.expected_ackno_list_.map (fun e => e.mes_)
      = t.expected_ackno_list_.map (fun e => e.mes_) := by
  unfold RetransmissionTimer.updateRetransmissionTimer
  cases h : t.expected_ackno_list_ with
  | nil => simp [h]
  | cons it rest =>
    dsimp only
    split_ifs <;> simp [h]

theorem push_is_finished (s : ByteStream) (data : Bytes) :
    (s.push data).bytes_popped_ = s.bytes_popped_
      ∧ (s.is_finished = true → (s.push data).is_finished = true) := by
  unfold ByteStream.push
  cases hc : s.is_closed
  · simp only [Bool.false_eq_true, ↓reduceIte]
    have hcl : s.is_close_ = false := hc
    split_ifs
    · exact ⟨rfl, fun h => by simp [ByteStream.is_finished, hcl] at h⟩
    · exact ⟨rfl, fun h => h⟩
  · simp only [↓reduceIte]
    exact ⟨trivial, fun h => h⟩

theorem SenderInv_new (capacity : Nat) (isn : Wrap32) (initial_RTO_ms : Nat)
    (hcap : capacity < U64) (hisn : isn.raw_value_ < U32) :
    SenderInv (TCPSender.new (ByteStream.new capacity) isn initial_RTO_ms) :=
  ⟨StreamInv_new capacity hcap, hisn, fun _ => rfl,
    fun _ => ⟨fun m hm => by simp [TCPSender.outstanding, TCPSender.new, RetransmissionTimer.new] at hm,
      by simp [TCPSender.outstanding, TCPSender.new, RetransmissionTimer.new]⟩⟩

theorem receive_spec (cfg : TCPConfig) (hmax : 1 ≤ cfg.MAX_PAYLOAD_SIZE) (s : TCPSender)
    (msg : TCPReceiverMessage) (hinv : SenderInv s) (hrst : msg.RST = false) :
    ∃ r new, s.receive cfg msg = some r
      ∧ SenderInv r.sender
      ∧ r.sender.outstanding = (s.receiveAck msg).outstanding ++ new
      ∧ (r.threw = false → r.segments = new)
      ∧ r.sender.isn_ = s.isn_
      ∧ s.input_.bytes_popped_ ≤ r.sender.input_.bytes_popped_
      ∧ (s.has_isn_ = true → r.sender.has_isn_ = true) := by
  obtain ⟨f1, f2, f3, f4, f5, f6, f7, f8⟩ := receiveAck_fields s msg hrst
  have hinv1 : SenderInv (s.receiveAck msg) :=
    SenderInv_of_sublist s _ hinv f1 f2 f3 (receiveAck_sublist s msg hrst)
  unfold TCPSender.receive
  dsimp only
  split_ifs
  · obtain ⟨r, new, h1, h2, h3, h4, _, h6, h7, h8⟩ :=
      push_spec cfg hmax (s.receiveAck msg).saveTransFunc_ (s.receiveAck msg) hinv1
    refine ⟨r, new, h1, h2, ?_, h4, by rw [h6, f2], by rw [← f1]; exact h7,
      fun h => h8 (by rw [f3]; exact h)⟩
    unfold TCPSender.outstanding
    rw [h3, List.map_append, List.map_map]
    congr 1
    simp [Function.comp_def]
  · exact ⟨_, [], rfl, hinv1, by simp, fun _ => rfl, f2, by rw [f1],
      fun h => by rw [f3]; exact h⟩

theorem SenderInv_step (cfg : TCPConfig) (hmax : 1 ≤ cfg.MAX_PAYLOAD_SIZE) (t : Transmitted)
    (op : SenderOp) (hinv : SenderInv t.sender) (hop : ∀ m, op = SenderOp.receive m → m.RST = false) :
    ∃ t1, t.step cfg op = some t1 ∧ SenderInv t1.sender := by
  cases op with
  | write data =>
    refine ⟨_, rfl, ?_⟩
    exact SenderInv_transfer t.sender _ hinv (StreamInv_push _ data hinv.stream)
      (push_is_finished _ data).1 (push_is_finished _ data).2 rfl rfl (List.Sublist.refl _)
  | close =>
    refine ⟨_, rfl, ?_⟩
    refine SenderInv_transfer t.sender _ hinv (StreamInv_close _ hinv.stream) rfl ?_ rfl rfl
      (List.Sublist.refl _)
    intro h
    simp only [ByteStream.is_finished, ByteStream.close, Bool.and_eq_true, Bool.true_and] at *
    exact h.2
  | push =>
    obtain ⟨r, new, h1, h2, _⟩ := push_spec cfg hmax true t.sender hinv
    exact ⟨⟨r.sender, t.segments ++ r.segments, t.threw || r.threw⟩,
      by simp only [Transmitted.step, h1, Option.map_some'], h2⟩
  | receive msg =>
    obtain ⟨r, new, h1, h2, _⟩ := receive_spec cfg hmax t.sender msg hinv (hop msg rfl)
    exact ⟨⟨r.sender, t.segments ++ r.segments, t.threw || r.threw⟩,
      by simp only [Transmitted.step, h1, Option.map_some'], h2⟩
  | tick ms =>
    refine ⟨_, rfl, ?_⟩
    refine SenderInv_transfer t.sender _ hinv hinv.stream rfl (fun h => h) rfl rfl ?_
    show List.Sublist (List.map _ _) _
    simp only [TCPSender.tick]
    rw [updateRetransmissionTimer_map]
    exact List.Sublist.refl _

theorem SenderInv_run (cfg : TCPConfig) (hmax : 1 ≤ cfg.MAX_PAYLOAD_SIZE) (ops : List SenderOp) :
    ∀ t : Transmitted, SenderInv t.sender → (∀ m, SenderOp.receive m ∈ ops → m.RST = false) →
      ∃ t1, t.run cfg ops = some t1 ∧ SenderInv t1.sender := by
  induction ops with
  | nil => exact fun t h _ => ⟨t, rfl, h⟩
  | cons op ops ih =>
    intro t hinv hops
    obtain ⟨t1, h1, h2⟩ := SenderInv_step cfg hmax t op hinv
      (fun m hm => hops m (by rw [hm]; exact List.mem_cons_self _ _))
    obtain ⟨t2, h3, h4⟩ := ih t1 h2 (fun m hm => hops m (List.mem_cons_of_mem _ hm))
    exact ⟨t2, by simp only [Transmitted.run, h1, Option.some_bind, h3], h4⟩

theorem pushBody_fin (cfg : TCPConfig) (s : TCPSender) (hisn : s.has_isn_ = true)
    (hc : s.getCanSentFin = true) :
    s.pushBody cfg
      = ({ s with
            has_fin_ := true
            retransmissionTimer_ := s.retransmissionTimer_.insertAcknoList s.finSegment s.cur_ms_ },
          s.finSegment) := by
  have hf := getCanSentFin_finished s hc
  have hb : s.input_.bytes_buffered = 0 := ((is_finished_iff _).mp hf.2).2
  have hfin := hf.1
  obtain ⟨input, isn, rto, cur, win, la, hi, hfn, t, sv⟩ := s
  dsimp only at hisn hb hfin
  subst hisn hfin
  unfold TCPSender.pushBody TCPSender.finSegment
  simp only [hb, Nat.min_zero, read, pop_zero, List.take_zero, ↓reduceIte, hc,
    b2n_true, Bool.not_true, Bool.false_eq_true, Bool.not_false, Bool.and_self]

theorem pushCond_after_fin (s : TCPSender) (hisn : s.has_isn_ = true)
    (hb : s.input_.bytes_buffered = 0) (hfin : s.has_fin_ = true) : s.pushCond = false := by
  simp [TCPSender.pushCond, TCPSender.getCanSentFin, hisn, hb, hfin]

theorem pushLoop_fin (cfg : TCPConfig) (s : TCPSender) (transmit : Bool) (fuel : Nat)
    (hisn : s.has_isn_ = true) (hc : s.getCanSentFin = true) :
    TCPSender.pushLoop cfg transmit (fuel + 2) s []
      = some ⟨{ s with
                has_fin_ := true
                retransmissionTimer_ :=
                  s.retransmissionTimer_.insertAcknoList s.finSegment s.cur_ms_ },
              if transmit then [s.finSegment] else [], !transmit⟩ := by
  have hf := getCanSentFin_finished s hc
  have hb : s.input_.bytes_buffered = 0 := ((is_finished_iff _).mp hf.2).2
  have hp0 : s.pushCond = true := by simp [TCPSender.pushCond, hc]
  rw [TCPSender.pushLoop, if_pos hp0]
  dsimp only
  rw [pushBody_fin cfg s hisn hc]
  cases transmit
  · rfl
  · simp only [↓reduceIte]
    have hp1 := pushCond_after_fin ({ s with
        has_fin_ := true
        retransmissionTimer_ := s.retransmissionTimer_.insertAcknoList s.finSegment s.cur_ms_ }
      : TCPSender) hisn hb rfl
    rw [TCPSender.pushLoop, if_neg (by rw [hp1]; simp)]
    rfl

theorem push_fin (cfg : TCPConfig) (s : TCPSender) (transmit : Bool) (hisn : s.has_isn_ = true)
    (hc : s.getCanSentFin = true) :
    ∃ r, s.push cfg transmit = some r
      ∧ r.sender.outstanding = s.outstanding ++ [s.finSegment]
      ∧ r.segments = (if transmit then [s.finSegment] else [])
      ∧ r.threw = !transmit := by
  have hf := getCanSentFin_finished s hc
  have hcl : s.input_.is_closed = true := ((is_finished_iff _).mp hf.2).1
  unfold TCPSender.push
  simp only [hcl, Bool.true_or, ↓reduceIte]
  have hl := pushLoop_fin cfg ({ s with saveTransFunc_ := transmit } : TCPSender) transmit
    s.input_.bytes_buffered hisn hc
  rw [hl]
  refine ⟨_, rfl, ?_, rfl, rfl⟩
  simp [TCPSender.outstanding, RetransmissionTimer.insertAcknoList]
  rfl

/-! ## Auxiliary facts: a sender and a receiver on a lossless link -/

theorem insert_in_order (r : Reassembler) (data : Bytes) (is_last : Bool)
    (hl : r.reassembler_.bytes_list_ = [])
    (hlen : data.length < r.output_.available_capacity)
    (hlt : r.output_.bytes_pushed_ + r.output_.available_capacity < U64) :
    r.insert r.output_.bytes_pushed_ data is_last
      = { output_ := if is_last then (r.output_.push data).close else r.output_.push data
          pending_bytes_ := 0
          reassembler_ :=
            { unpushed_first_index_ := r.output_.bytes_pushed_, bytes_list_ := [] } } := by
  rw [insert_eq]
  have h1 : max r.output_.bytes_pushed_ r.output_.bytes_pushed_ = r.output_.bytes_pushed_ :=
    Nat.max_self _
  have h2 : sub64 r.output_.bytes_pushed_ r.output_.bytes_pushed_ = 0 := by
    simp only [sub64, U64] at *
    omega
  have h3 : add64 (sub64 r.output_.available_capacity r.output_.bytes_pushed_)
      r.output_.bytes_pushed_ = r.output_.available_capacity := by
    simp only [add64, sub64, U64] at *
    omega
  have h4 : add64 r.output_.bytes_pushed_ r.output_.available_capacity
      = r.output_.bytes_pushed_ + r.output_.available_capacity := add64_of_lt hlt
  have h5 : min data.length r.output_.available_capacity = data.length :=
    Nat.min_eq_left (Nat.le_of_lt hlen)
  have h6 : add64 0 data.length = data.length := by
    simp only [add64, U64] at *
    omega
  rw [h1, h2, h3, h4, h5, h6, if_neg (by omega), if_neg (Nat.lt_irrefl _)]
  simp only [List.drop_zero, List.take_length]
  unfold Reassembler.pushFront PendingBytes.insert_bytes_list
  rw [hl]
  simp only [insertLoop, PendingBytesUnit.new, ByteStream.bytes_pushed, ↓reduceIte,
    PendingBytes.delete_bytes_list, PendingBytes.getPendingLen, List.foldl_nil]
  rw [Nat.min_eq_right (Nat.le_of_lt hlen), List.take_length]

theorem push_all (o : ByteStream) (data : Bytes) (hs : StreamInv o) (ho : o.is_close_ = false)
    (hlen : data.length ≤ o.available_capacity) :
    StreamInv (o.push data) ∧ (o.push data).content = o.content ++ data
      ∧ (o.push data).bytes_popped_ = o.bytes_popped_
      ∧ (o.push data).capacity_ = o.capacity_
      ∧ (o.push data).is_close_ = false
      ∧ (o.push data).error_ = o.error_ := by
  obtain ⟨h1, _, _, _⟩ := push_open o data ho
  obtain ⟨f1, f2, f3, f4⟩ := push_fields o data
  refine ⟨StreamInv_push o data hs, ?_, f1, f2, by rw [f3, ho], f4⟩
  unfold ByteStream.content
  rw [h1, Nat.min_eq_right hlen, List.take_length]

theorem StreamInv_pushed (o : ByteStream) (hs : StreamInv o) (hp : o.bytes_popped_ = 0) :
    o.bytes_pushed_ = o.content.length ∧ o.buffered_ = o.content.length := by
  have h1 := hs.buffered_eq
  have h2 := hs.counters
  omega

theorem recv_segment (s : Bytes) (isn : Wrap32) (cap_out p : Nat) (r : TCPReceiver)
    (m : TCPSenderMessage) (hr : RecvAt s isn cap_out p false r)
    (hp : p + m.payload.length ≤ s.length) (hcap : s.length + 2 ≤ cap_out) (hc64 : cap_out < U64)
    (hn : s.length < I63) (hisn : isn.raw_value_ < U32)
    (hseq : m.seqno = Wrap32.wrap (p + 1) isn) (hsyn : m.SYN = false) (hrst : m.RST = false)
    (hpay : m.payload = (s.drop p).take m.payload.length) :
    RecvAt s isn cap_out (p + m.payload.length) m.FIN (r.receive m) := by
  have hpl : p ≤ s.length := by omega
  have hpush := StreamInv_pushed _ hr.stream hr.popped
  rw [hr.content, List.length_take, Nat.min_eq_left hpl] at hpush
  have hav : r.reassembler_.output_.available_capacity = cap_out - p := by
    rw [available_capacity_eq _ hr.stream.capacity_lt, hr.capacity, hpush.2]
  have hcp : add64 r.reassembler_.output_.bytes_pushed 1 = p + 1 := by
    unfold ByteStream.bytes_pushed
    rw [hpush.1, add64_of_lt (by simp only [U64, I63] at *; omega)]
  have hu : (Wrap32.wrap (p + 1) isn).unwrap isn (p + 1) = p + 1 :=
    unwrap_wrap_of_lt (p + 1) isn.raw_value_ hisn (by simp only [U64, I63] at *; omega)
  have hidx : add64 (sub64 (p + 1) 1) 0 = r.reassembler_.output_.bytes_pushed_ := by
    rw [hpush.1]
    simp only [add64, sub64, U64, I63] at *
    omega
  have hai : r.afterInsert m
      = { r with reassembler_ :=
            { output_ := if m.FIN then (r.reassembler_.output_.push m.payload).close
                else r.reassembler_.output_.push m.payload
              pending_bytes_ := 0
              reassembler_ :=
                { unpushed_first_index_ := r.reassembler_.output_.bytes_pushed_,
                  bytes_list_ := [] } } } := by
    unfold TCPReceiver.afterInsert
    simp only [hsyn, hrst, Bool.false_eq_true, ↓reduceIte, hr.has_ISN, hr.ISN, hcp, hseq, hu,
      hidx, Bool.or_false]
    rw [insert_in_order r.reassembler_ m.payload m.FIN hr.list (by rw [hav]; omega)
      (by rw [hav, hpush.1]; omega)]
  obtain ⟨g1, g2, g3, g4, g5, g6⟩ := push_all r.reassembler_.output_ m.payload hr.stream
    hr.closed (by rw [hav]; omega)
  have hcont : r.reassembler_.output_.content ++ m.payload = s.take (p + m.payload.length) := by
    rw [hr.content, hpay, List.length_take, List.length_drop,
      Nat.min_eq_left (by omega), List.take_add]
  have hpushed : (r.reassembler_.output_.push m.payload).bytes_pushed_ = p + m.payload.length := by
    have := StreamInv_pushed _ g1 (by rw [g3, hr.popped])
    rw [this.1, g2, hcont, List.length_take]
    omega
  rw [receive_eq, hrst, if_neg (by simp), hai]
  cases hfin : m.FIN
  · simp only [Bool.false_eq_true, ↓reduceIte]
    refine ⟨hr.has_ISN, hr.ISN, rfl, g1, by rw [g4, hr.capacity], by rw [g2, hcont],
      by rw [g3, hr.popped], g5, by rw [g6, hr.no_error], ?_⟩
    show add64 (add64 (b2n r.has_ISN_) (r.reassembler_.output_.push m.payload).bytes_pushed_)
      (b2n (r.reassembler_.output_.push m.payload).is_close_) = _
    rw [hr.has_ISN, hpushed, g5, b2n_true, b2n_false]
    simp only [add64, U64, I63] at *
    omega
  · simp only [↓reduceIte]
    refine ⟨hr.has_ISN, hr.ISN, rfl, StreamInv_close _ g1, by
      show (r.reassembler_.output_.push m.payload).capacity_ = _
      rw [g4, hr.capacity], by
      show (r.reassembler_.output_.push m.payload).content = _
      rw [g2, hcont], by
      show (r.reassembler_.output_.push m.payload).bytes_popped_ = _
      rw [g3, hr.popped], rfl, by
      show (r.reassembler_.output_.push m.payload).error_ = _
      rw [g6, hr.no_error], ?_⟩
    show add64 (add64 (b2n r.has_ISN_) (r.reassembler_.output_.push m.payload).bytes_pushed_)
      (b2n true) = _
    rw [hr.has_ISN, hpushed, b2n_true]
    simp only [add64, U64, I63] at *
    omega

theorem recv_chain (s : Bytes) (isn : Wrap32) (cap_out : Nat) (hcap : s.length + 2 ≤ cap_out)
    (hc64 : cap_out < U64) (hn : s.length < I63) (hisn : isn.raw_value_ < U32)
    (segs : List TCPSenderMessage) :
    ∀ (p q : Nat) (fin : Bool) (r : TCPReceiver), RecvAt s isn cap_out p false r →
      Chain s isn p segs q fin → RecvAt s isn cap_out q fin (segs.foldl TCPReceiver.receive r) := by
  induction segs with
  | nil =>
    intro p q fin r hr hch
    obtain ⟨h1, h2⟩ := hch
    subst h1 h2
    exact hr
  | cons m rest ih =>
    intro p q fin r hr hch
    obtain ⟨h1, h2, h3, h4, h5, h6⟩ := hch
    have hstep := recv_segment s isn cap_out p r m hr h5 hcap hc64 hn hisn h1 h2 h3 h4
    rw [List.foldl_cons]
    cases hfin : m.FIN
    · rw [hfin] at h6 hstep
      simp only [Bool.false_eq_true, ↓reduceIte] at h6
      exact ih _ _ _ _ hstep h6
    · rw [hfin] at h6 hstep
      simp only [↓reduceIte] at h6
      obtain ⟨g1, g2, g3⟩ := h6
      subst g1 g2 g3
      exact hstep

theorem flight_insert (t : RetransmissionTimer) (m : TCPSenderMessage) (ms : Nat) :
    (t.insertAcknoList m ms).getSequenceNumbersInFlight
      = add64 t.getSequenceNumbersInFlight m.sequence_length := by
  simp [RetransmissionTimer.insertAcknoList, RetransmissionTimer.getSequenceNumbersInFlight,
    List.foldl_append]

theorem outstanding_insert (snd : TCPSender) (t : TCPSender) (m : TCPSenderMessage) (ms : Nat)
    (h : t.retransmissionTimer_ = snd.retransmissionTimer_.insertAcknoList m ms) :
    t.outstanding = snd.outstanding ++ [m] := by
  simp [TCPSender.outstanding, h, RetransmissionTimer.insertAcknoList]

theorem SendAt_buffered (s : Bytes) (isn : Wrap32) (W p j : Nat) (snd : TCPSender)
    (h : SendAt s isn W p j snd) : snd.input_.buffered_ = s.length - (p + j) := by
  rw [h.inv.stream.buffered_eq, h.content, List.length_drop]

theorem SendAt_pushCond (s : Bytes) (isn : Wrap32) (W p j : Nat) (snd : TCPSender)
    (h : SendAt s isn W p j snd) (hW : W < U64) (hj : j ≤ W) (hn : s.length < I63)
    (hpj : p + j ≤ s.length) (hx : p + j = s.length → W ≤ j) :
    snd.pushCond = decide (j < W ∧ p + j < s.length) := by
  have hb := SendAt_buffered s isn W p j snd h
  unfold TCPSender.pushCond TCPSender.getCanSentFin ByteStream.is_finished
    ByteStream.bytes_buffered ByteStream.bytes_popped
  rw [h.window, h.in_flight, h.has_isn, h.has_fin, h.closed, h.acked, h.popped, hb, b2n_true]
  have h1 : sub64 W j = W - j := sub64_of_le hj hW
  have h2 : sub64 (add64 (add64 (p + j) 1) (s.length - (p + j))) (p + 1) = s.length - p := by
    simp only [add64, sub64, U64, I63] at *
    omega
  rw [h1, h2]
  rw [Bool.eq_iff_iff]
  simp only [Bool.or_eq_true, Bool.and_eq_true, decide_eq_true_eq, Bool.not_true,
    Bool.not_false, beq_iff_eq, Bool.false_eq_true, or_false, true_and]
  omega

theorem getCanSentFin_eq (snd : TCPSender) (hisn : snd.has_isn_ = true)
    (hfin : snd.has_fin_ = false) (hcl : snd.input_.is_close_ = true) :
    snd.getCanSentFin
      = decide (snd.input_.buffered_ = 0
          ∧ snd.peer_win_size_
              > sub64 (add64 (add64 snd.input_.bytes_popped_ 1) snd.input_.buffered_)
                  snd.largest_ackno) := by
  unfold TCPSender.getCanSentFin ByteStream.is_finished ByteStream.bytes_buffered
    ByteStream.bytes_popped
  rw [hisn, hfin, hcl, b2n_true, Bool.eq_iff_iff]
  simp only [Bool.not_false, Bool.true_and, gt_iff_lt, Bool.and_eq_true, beq_iff_eq,
    decide_eq_true_eq]

theorem SendAt_body (cfg : TCPConfig) (hmax : 1 ≤ cfg.MAX_PAYLOAD_SIZE) (s : Bytes) (isn : Wrap32)
    (W p j : Nat) (snd : TCPSender) (h : SendAt s isn W p j snd) (hW : W < U64)
    (hn : s.length < I63) (hj : j < W) (hpj : p + j < s.length) :
    ∃ t, 1 ≤ t ∧ j + t ≤ W ∧ p + j + t ≤ s.length
      ∧ (snd.pushBody cfg).2.seqno = Wrap32.wrap (p + j + 1) isn
      ∧ (snd.pushBody cfg).2.SYN = false
      ∧ (snd.pushBody cfg).2.RST = false
      ∧ (snd.pushBody cfg).2.payload = (s.drop (p + j)).take t
      ∧ (snd.pushBody cfg).2.payload.length = t
      ∧ (snd.pushBody cfg).2.FIN = decide (p + j + t = s.length ∧ j + t < W)
      ∧ SenderInv (snd.pushBody cfg).1
      ∧ ((snd.pushBody cfg).2.FIN = false → SendAt s isn W p (j + t) (snd.pushBody cfg).1)
      ∧ ((snd.pushBody cfg).2.FIN = true →
          (snd.pushBody cfg).1.has_isn_ = true ∧ (snd.pushBody cfg).1.has_fin_ = true
            ∧ (snd.pushBody cfg).1.input_.bytes_buffered = 0) := by
  have hb := SendAt_buffered s isn W p j snd h
  have hc : snd.pushCond = true := by
    rw [SendAt_pushCond s isn W p j snd h hW (Nat.le_of_lt hj) hn (Nat.le_of_lt hpj)
      (fun h0 => by omega)]
    exact decide_eq_true ⟨hj, hpj⟩
  obtain ⟨f1, f2, f3, _, _, f6, f7, f8, f9⟩ := pushBody_fields cfg snd
  obtain ⟨m1, m2, m3, m4, m5⟩ := pushBody_msg cfg snd
  obtain ⟨i1, i2, i3, i4, i5, i6, _⟩ := pushBody_input cfg snd h.inv.stream
  have hfin := pushBody_has_fin cfg snd
  have hinv := pushBody_inv cfg snd h.inv hmax hc
  have ht : snd.transLen cfg = min (min cfg.MAX_PAYLOAD_SIZE (W - j)) (s.length - (p + j)) := by
    unfold TCPSender.transLen ByteStream.bytes_buffered
    rw [h.window, h.in_flight, hb, sub64_of_le (Nat.le_of_lt hj) hW]
  rw [h.has_isn, if_pos rfl] at i6 m3 f9
  have ht1 : 1 ≤ snd.transLen cfg := by
    rw [ht]
    omega
  have ht2 : snd.transLen cfg ≤ W - j := by
    rw [ht]
    omega
  have ht3 : snd.transLen cfg ≤ s.length - (p + j) := by
    rw [ht]
    omega
  have herr : (snd.pushBody cfg).1.input_.error_ = false := by
    rw [f9, (pop_fields _ _).2.2.2, h.no_error]
  have hcont : (snd.pushBody cfg).1.input_.content = s.drop (p + j + snd.transLen cfg) := by
    rw [f9, (pop_spec _ _ h.inv.stream).1, h.content, List.drop_drop]
  have hpop : (snd.pushBody cfg).1.input_.bytes_popped_ = p + j + snd.transLen cfg := by
    rw [i3, i6, h.popped]
  have hbuf : (snd.pushBody cfg).1.input_.buffered_ = s.length - (p + j + snd.transLen cfg) := by
    rw [i1.buffered_eq, hcont, List.length_drop]
  have hcl : (snd.pushBody cfg).1.input_.is_close_ = true := by rw [i2, h.closed]
  have hF : (snd.pushBody cfg).2.FIN
      = decide (p + j + snd.transLen cfg = s.length ∧ j + snd.transLen cfg < W) := by
    rw [m4, getCanSentFin_eq ({ snd with input_ := (snd.pushBody cfg).1.input_ } : TCPSender)
      h.has_isn h.has_fin hcl]
    show decide ((snd.pushBody cfg).1.input_.buffered_ = 0
      ∧ snd.peer_win_size_ > sub64 (add64 (add64 (snd.pushBody cfg).1.input_.bytes_popped_ 1)
          (snd.pushBody cfg).1.input_.buffered_) snd.largest_ackno) = _
    rw [hbuf, hpop, h.window, h.acked]
    apply decide_eq_decide.mpr
    simp only [add64, sub64, U64, I63] at *
    omega
  have hF2 : (snd.pushBody cfg).1.has_fin_ = (snd.pushBody cfg).2.FIN := by
    rw [hfin, m4, h.has_fin, Bool.false_or]
    unfold TCPSender.getCanSentFin
    dsimp only
    rw [h.has_isn]
  have hlen : (snd.pushBody cfg).2.sequence_length
      = snd.transLen cfg + b2n (snd.pushBody cfg).2.FIN := by
    unfold TCPSenderMessage.sequence_length
    rw [m2, h.has_isn, i6]
    simp [b2n_false]
  have hseq : (snd.pushBody cfg).2.seqno = Wrap32.wrap (p + j + 1) isn := by
    rw [m1, h.isn_eq, h.has_isn, b2n_true]
    unfold ByteStream.bytes_popped
    rw [h.popped, add64_of_lt (by simp only [U64, I63] at *; omega)]
  refine ⟨snd.transLen cfg, ht1, by omega, by omega, hseq, by rw [m2, h.has_isn]; rfl,
    by rw [m5]; exact herr, by rw [m3, h.content], i6, hF, hinv, ?_, ?_⟩
  · intro hnf
    have hout := outstanding_insert snd _ _ _ f8
    refine ⟨hinv, hcl, herr, by rw [hpop]; omega, by rw [hcont]; congr 1; omega,
      by rw [f1, h.isn_eq], f7, by rw [hF2, hnf], by rw [f3, h.acked], by rw [f2, h.window],
      ?_, ?_, ?_, by rw [f6, h.saved]⟩
    · unfold TCPSender.sequence_numbers_in_flight
      rw [f8, flight_insert, hlen, hnf, b2n_false]
      have := h.in_flight
      unfold TCPSender.sequence_numbers_in_flight at this
      rw [this, add64_of_lt (by simp only [U64, I63] at *; omega)]
      omega
    · intro m hm
      rw [hout, List.mem_append, List.mem_singleton] at hm
      rcases hm with hm | hm
      · obtain ⟨x, hx1, hx2, hx3, hx4⟩ := h.entries m hm
        exact ⟨x, hx1, hx2, hx3, by omega⟩
      · subst hm
        refine ⟨p + j + 1, hseq, by omega, by rw [hlen]; omega, ?_⟩
        rw [hlen, hnf, b2n_false]
        omega
    · intro m hm
      rw [hout, List.getLast?_concat] at hm
      cases hm
      refine ⟨p + j + 1, hseq, by omega, ?_⟩
      rw [hlen, hnf, b2n_false]
      omega
  · intro hf
    exact ⟨f7, by rw [hF2, hf], by
      unfold ByteStream.bytes_buffered
      rw [hbuf]
      rw [hF] at hf
      have := of_decide_eq_true hf
      omega⟩

theorem pushLoop_stop (cfg : TCPConfig) (transmit : Bool) (fuel : Nat) (snd : TCPSender)
    (out : List TCPSenderMessage) (h : snd.pushCond = false) :
    TCPSender.pushLoop cfg transmit fuel snd out = some ⟨snd, out, false⟩ := by
  cases fuel with
  | zero => rw [TCPSender.pushLoop, if_neg (by rw [h]; simp)]
  | succ f => rw [TCPSender.pushLoop, if_neg (by rw [h]; simp)]

theorem SendAt_loop (cfg : TCPConfig) (hmax : 1 ≤ cfg.MAX_PAYLOAD_SIZE) (s : Bytes) (isn : Wrap32)
    (W p : Nat) (hW : W < U64) (hn : s.length < I63) :
    ∀ (fuel j : Nat) (snd : TCPSender) (out : List TCPSenderMessage),
      SendAt s isn W p j snd → j ≤ W → p + j ≤ s.length → (p + j = s.length → W ≤ j) →
      s.length + 1 ≤ fuel + (p + j) →
      ∃ r new q fin, TCPSender.pushLoop cfg true fuel snd out = some r
        ∧ r.segments = out ++ new ∧ r.threw = false
        ∧ Chain s isn (p + j) new q fin
        ∧ SenderInv r.sender
        ∧ ((fin = false ∧ q = p + W ∧ q ≤ s.length ∧ SendAt s isn W p W r.sender)
          ∨ (fin = true ∧ q = s.length)) := by
  intro fuel
  induction fuel with
  | zero =>
    intro j snd out h hj hpj hx hf
    omega
  | succ f ih =>
    intro j snd out h hj hpj hx hf
    have hc := SendAt_pushCond s isn W p j snd h hW hj hn hpj hx
    by_cases hgo : j < W ∧ p + j < s.length
    · rw [decide_eq_true hgo] at hc
      obtain ⟨t, t1, t2, t3, b1, b2, b3, b4, b5, b6, b7, b8, b9⟩ :=
        SendAt_body cfg hmax s isn W p j snd h hW hn hgo.1 hgo.2
      rw [TCPSender.pushLoop, if_pos hc]
      dsimp only
      rw [if_pos rfl]
      cases hfin : (snd.pushBody cfg).2.FIN
      · have hs := b8 hfin
        rw [hfin] at b6
        have hnot := of_decide_eq_false b6.symm
        obtain ⟨r, new, q, fin, r1, r2, r3, r4, r5, r6⟩ :=
          ih (j + t) (snd.pushBody cfg).1 (out ++ [(snd.pushBody cfg).2]) hs t2
            (by omega) (fun h0 => by omega) (by omega)
        refine ⟨r, (snd.pushBody cfg).2 :: new, q, fin, r1, by rw [r2]; simp, r3, ?_, r5, r6⟩
        refine ⟨b1, b2, b3, by rw [b5]; exact b4, by rw [b5]; omega, ?_⟩
        rw [hfin, if_neg (by simp), b5, Nat.add_assoc]
        exact r4
      · obtain ⟨g1, g2, g3⟩ := b9 hfin
        rw [hfin] at b6
        have hyes := of_decide_eq_true b6.symm
        rw [pushLoop_stop cfg true f _ _ (pushCond_after_fin _ g1 g3 g2)]
        refine ⟨_, [(snd.pushBody cfg).2], s.length, true, rfl, rfl, rfl, ?_, b7,
          Or.inr ⟨rfl, rfl⟩⟩
        refine ⟨b1, b2, b3, by rw [b5]; exact b4, by rw [b5]; omega, ?_⟩
        rw [hfin, if_pos rfl, b5]
        exact ⟨rfl, by omega, rfl⟩
    · rw [decide_eq_false hgo] at hc
      rw [pushLoop_stop cfg true (f + 1) _ _ hc]
      have hjW : j = W := by
        by_contra hne
        have h1 : j < W := by omega
        have h2 : ¬ p + j < s.length := fun h3 => hgo ⟨h1, h3⟩
        have h3 : p + j = s.length := by omega
        have := hx h3
        omega
      subst hjW
      exact ⟨_, [], p + j, false, rfl, by simp, rfl, ⟨rfl, rfl⟩, h.inv,
        Or.inl ⟨rfl, rfl, hpj, h⟩⟩

theorem unwrap_wrap_near (x checkpoint : Nat) (isn : Wrap32) (hz : isn.raw_value_ < U32)
    (hc : checkpoint < U64 - 2147483648) (h1 : x ≤ checkpoint)
    (h2 : checkpoint < x + 2147483648) :
    (Wrap32.wrap x isn).unwrap isn checkpoint = x := by
  obtain ⟨zero_point⟩ := isn
  simp only [Wrap32.unwrap, Wrap32.wrap, add64, sub64, toInt64, U32, U64] at *
  split_ifs <;> omega

theorem ackLoop_all (ackno : Nat) (isn : Wrap32) (checkpoint : Nat) :
    ∀ (l : List AckWrapper) (is_first : Bool),
      (∀ e ∈ l, e.mes_.seqno.unwrap isn checkpoint < ackno
        ∧ add64 (e.mes_.seqno.unwrap isn checkpoint) e.mes_.sequence_length ≤ ackno) →
      ackLoop ackno isn checkpoint is_first l = (true, []) := by
  intro l
  induction l with
  | nil => intro _ _; rfl
  | cons e rest ih =>
    intro is_first h
    have he := h e (List.mem_cons_self _ _)
    rw [ackLoop, if_neg (by omega), if_pos he.2]
    exact ih false (fun e1 h1 => h e1 (List.mem_cons_of_mem _ h1))

theorem updateAcknoList_all (t : RetransmissionTimer) (ackno : Nat) (isn : Wrap32)
    (checkpoint : Nat)
    (h : ∀ e ∈ t.expected_ackno_list_, e.mes_.seqno.unwrap isn checkpoint < ackno
        ∧ add64 (e.mes_.seqno.unwrap isn checkpoint) e.mes_.sequence_length ≤ ackno)
    (hlast : ∀ e, t.expected_ackno_list_.getLast? = some e →
      ackno ≤ add64 (e.mes_.seqno.unwrap isn checkpoint) e.mes_.sequence_length) :
    t.updateAcknoList ackno isn checkpoint = (true, { t with expected_ackno_list_ := [] }) := by
  unfold RetransmissionTimer.updateAcknoList
  cases hl : t.expected_ackno_list_.getLast? with
  | none =>
    dsimp only
    rw [ackLoop_all ackno isn checkpoint _ true h]
  | some last_msg =>
    dsimp only
    rw [if_neg (Nat.not_lt.mpr (hlast last_msg hl)), ackLoop_all ackno isn checkpoint _ true h]

theorem receiveAck_all (snd : TCPSender) (msg : TCPReceiverMessage) (ackno : Wrap32)
    (hrst : msg.RST = false) (hack : msg.ackno = some ackno) (hisn : snd.has_isn_ = true)
    (hw : msg.window_size ≠ 0)
    (h : ∀ e ∈ snd.retransmissionTimer_.expected_ackno_list_,
      e.mes_.seqno.unwrap snd.isn_ (add64 snd.input_.bytes_popped 1)
          < ackno.unwrap snd.isn_ (add64 snd.input_.bytes_popped 1)
        ∧ add64 (e.mes_.seqno.unwrap snd.isn_ (add64 snd.input_.bytes_popped 1))
            e.mes_.sequence_length ≤ ackno.unwrap snd.isn_ (add64 snd.input_.bytes_popped 1))
    (hlast : ∀ e, snd.retransmissionTimer_.expected_ackno_list_.getLast? = some e →
      ackno.unwrap snd.isn_ (add64 snd.input_.bytes_popped 1)
        ≤ add64 (e.mes_.seqno.unwrap snd.isn_ (add64 snd.input_.bytes_popped 1))
            e.mes_.sequence_length) :
    (snd.receiveAck msg).retransmissionTimer_.expected_ackno_list_ = []
      ∧ (snd.receiveAck msg).largest_ackno
          = max snd.largest_ackno (ackno.unwrap snd.isn_ (add64 snd.input_.bytes_popped 1)) := by
  have hu := updateAcknoList_all snd.retransmissionTimer_ _ snd.isn_ _ h hlast
  unfold TCPSender.receiveAck
  rw [hrst, hack]
  simp only [Bool.false_eq_true, ↓reduceIte]
  rw [if_pos hw]
  dsimp only
  rw [hisn]
  simp only [↓reduceIte, b2n_true]
  rw [hu]
  constructor <;> first | rfl | trivial

theorem SendAt_flight (s : Bytes) (isn : Wrap32) (W p j : Nat) (snd : TCPSender)
    (h : SendAt s isn W p j snd) : Flight s isn (p + 1) (p + j) snd :=
  ⟨h.inv, h.closed, h.no_error, h.popped, h.content, h.isn_eq, h.has_isn, h.has_fin,
    by rw [h.acked]; omega, h.entries, h.last, h.saved⟩

theorem Flight_ack (s : Bytes) (isn : Wrap32) (a P : Nat) (snd : TCPSender)
    (h : Flight s isn a P snd) (hq : P ≤ s.length) (hW : P + 1 < a + I31)
    (hn : s.length < I63) (hisn : isn.raw_value_ < U32) (W1 : Nat) (hW1 : W1 ≠ 0) :
    SendAt s isn W1 P 0 (snd.receiveAck ⟨some (Wrap32.wrap (P + 1) isn), W1, false⟩) := by
  obtain ⟨f1, f2, f3, f4, _, f6, _, f8⟩ :=
    receiveAck_fields snd ⟨some (Wrap32.wrap (P + 1) isn), W1, false⟩ rfl
  have hsub := receiveAck_sublist snd ⟨some (Wrap32.wrap (P + 1) isn), W1, false⟩ rfl
  have hcp : add64 snd.input_.bytes_popped 1 = P + 1 := by
    unfold ByteStream.bytes_popped
    rw [h.popped, add64_of_lt (by simp only [U64, I63] at *; omega)]
  have hA : (Wrap32.wrap (P + 1) isn).unwrap isn (P + 1) = P + 1 :=
    unwrap_wrap_near _ _ isn hisn (by simp only [U64, I63] at *; omega) (Nat.le_refl _)
      (by omega)
  have hent : ∀ e ∈ snd.retransmissionTimer_.expected_ackno_list_,
      ∃ x, e.mes_.seqno.unwrap isn (P + 1) = x ∧ a ≤ x ∧ 1 ≤ e.mes_.sequence_length
        ∧ x + e.mes_.sequence_length ≤ P + 1 := by
    intro e he
    obtain ⟨x, hx1, hx2, hx3, hx4⟩ := h.entries e.mes_ (List.mem_map_of_mem _ he)
    refine ⟨x, ?_, hx2, hx3, hx4⟩
    rw [hx1]
    exact unwrap_wrap_near _ _ isn hisn (by simp only [U64, I63] at *; omega) (by omega)
      (by simp only [I31] at *; omega)
  obtain ⟨g1, g2⟩ := receiveAck_all snd ⟨some (Wrap32.wrap (P + 1) isn), W1, false⟩
    (Wrap32.wrap (P + 1) isn) rfl rfl h.has_isn hW1
    (by
      intro e he
      obtain ⟨x, hx1, hx2, hx3, hx4⟩ := hent e he
      rw [hcp, h.isn_eq, hA, hx1, add64_of_lt (by simp only [U64, I63] at *; omega)]
      omega)
    (by
      intro e he
      have hl : snd.outstanding.getLast? = some e.mes_ := by
        unfold TCPSender.outstanding
        rw [List.getLast?_map, he]
        rfl
      obtain ⟨x, hx1, hx2, hx3⟩ := h.last e.mes_ hl
      have hu : e.mes_.seqno.unwrap isn (P + 1) = x := by
        rw [hx1]
        exact unwrap_wrap_near _ _ isn hisn (by simp only [U64, I63] at *; omega) (by omega)
          (by simp only [I31] at *; omega)
      rw [hcp, h.isn_eq, hA, hu, add64_of_lt (by simp only [U64, I63] at *; omega)]
      omega)
  have hout : (snd.receiveAck ⟨some (Wrap32.wrap (P + 1) isn), W1, false⟩).outstanding
      = [] := by
    unfold TCPSender.outstanding
    rw [g1]
    rfl
  have ha := h.acked
  refine ⟨SenderInv_of_sublist snd _ h.inv f1 f2 f3 hsub, by rw [f1]; exact h.closed,
    by rw [f1]; exact h.no_error, by rw [f1]; exact h.popped, by rw [f1]; exact h.content,
    by rw [f2]; exact h.isn_eq, by rw [f3]; exact h.has_isn, by rw [f4]; exact h.has_fin,
    ?_, by rw [f8]; exact if_pos hW1, ?_, ?_, ?_, by rw [f6]; exact h.saved⟩
  · rw [g2, hcp, h.isn_eq, hA]
    omega
  · unfold TCPSender.sequence_numbers_in_flight RetransmissionTimer.getSequenceNumbersInFlight
    rw [g1]
    rfl
  · intro m hm
    rw [hout] at hm
    cases hm
  · intro m hm
    rw [hout] at hm
    cases hm

theorem recv_send (s : Bytes) (isn : Wrap32) (cap_out q : Nat) (c : Bool) (r : TCPReceiver)
    (hr : RecvAt s isn cap_out q c r) (hq : q ≤ s.length) :
    r.send = ⟨some (Wrap32.wrap (q + 1 + b2n c) isn), min (cap_out - q) 65535, false⟩ := by
  have hpush := StreamInv_pushed _ hr.stream hr.popped
  rw [hr.content, List.length_take, Nat.min_eq_left hq] at hpush
  have hav : r.reassembler_.output_.available_capacity = cap_out - q := by
    rw [available_capacity_eq _ hr.stream.capacity_lt, hr.capacity, hpush.2]
  unfold TCPReceiver.send ByteStream.has_error
  rw [hr.has_ISN, hr.ISN, hr.ackno, hav, hr.no_error, if_pos rfl]
  have : min (cap_out - q) 65535 % 65536 = min (cap_out - q) 65535 := by omega
  rw [this]
  rfl

theorem start_input (s : Bytes) (cap_in : Nat) (hin : s.length ≤ cap_in) (hc : cap_in < U64) :
    StreamInv (((ByteStream.new cap_in).push s).close)
      ∧ (((ByteStream.new cap_in).push s).close).is_close_ = true
      ∧ (((ByteStream.new cap_in).push s).close).error_ = false
      ∧ (((ByteStream.new cap_in).push s).close).bytes_popped_ = 0
      ∧ (((ByteStream.new cap_in).push s).close).content = s := by
  have h0 := StreamInv_new cap_in hc
  have hav : (ByteStream.new cap_in).available_capacity = cap_in := by
    rw [available_capacity_eq _ hc]
    rfl
  obtain ⟨g1, g2, g3, g4, g5, g6⟩ := push_all (ByteStream.new cap_in) s h0 rfl
    (by rw [hav]; exact hin)
  refine ⟨StreamInv_close _ g1, rfl, ?_, ?_, ?_⟩
  · show ((ByteStream.new cap_in).push s).error_ = false
    rw [g6]
    rfl
  · show ((ByteStream.new cap_in).push s).bytes_popped_ = 0
    rw [g3]
    rfl
  · show ((ByteStream.new cap_in).push s).content = s
    rw [g2]
    rfl

theorem first_loop (cfg : TCPConfig) (hmax : 1 ≤ cfg.MAX_PAYLOAD_SIZE) (s : Bytes) (isn : Wrap32)
    (snd : TCPSender) (h : SendStart s isn snd) (hsaved : snd.saveTransFunc_ = true)
    (hn : s.length < I63) (fuel : Nat) :
    ∃ r, TCPSender.pushLoop cfg true (fuel + 1) snd [] = some r ∧ r.threw = false
      ∧ r.segments = [⟨Wrap32.wrap 0 isn, true, [], decide (s.length = 0), false⟩]
      ∧ SenderInv r.sender
      ∧ (1 ≤ s.length → Flight s isn 0 0 r.sender) := by
  have hb : snd.input_.buffered_ = s.length := by rw [h.inv.stream.buffered_eq, h.content]
  have hlist : snd.retransmissionTimer_.expected_ackno_list_ = [] :=
    List.map_eq_nil_iff.mp (h.inv.no_syn h.has_isn)
  have hc : snd.pushCond = true := by
    unfold TCPSender.pushCond
    rw [h.has_isn]
    simp
  obtain ⟨f1, f2, f3, _, _, f6, f7, f8, f9⟩ := pushBody_fields cfg snd
  obtain ⟨m1, m2, m3, m4, m5⟩ := pushBody_msg cfg snd
  have hfin := pushBody_has_fin cfg snd
  have hinv := pushBody_inv cfg snd h.inv hmax hc
  rw [h.has_isn] at f9 m1 m2 m3
  simp only [Bool.false_eq_true, ↓reduceIte] at f9 m3
  have hF : (snd.pushBody cfg).2.FIN = decide (s.length = 0) := by
    rw [m4, f9]
    unfold TCPSender.getCanSentFin ByteStream.is_finished ByteStream.bytes_buffered
      ByteStream.bytes_popped
    dsimp only
    rw [h.has_isn, h.has_fin, h.closed, h.acked, h.popped, hb, h.window, b2n_false,
      Bool.eq_iff_iff]
    simp only [Bool.not_false, Bool.true_and, gt_iff_lt, Bool.and_eq_true, beq_iff_eq,
      decide_eq_true_eq]
    simp only [add64, sub64, U64, I63] at *
    omega
  have hG : ∀ t : TCPSender, t.has_isn_ = true → t.input_ = snd.input_ →
      t.peer_win_size_ = 1 → t.largest_ackno = 0 → t.getCanSentFin = false := by
    intro t t1 t2 t3 t4
    unfold TCPSender.getCanSentFin ByteStream.is_finished ByteStream.bytes_buffered
      ByteStream.bytes_popped
    rw [t1, t2, t3, t4, h.closed, h.popped, hb, b2n_true, Bool.eq_false_iff]
    simp only [Bool.true_and, gt_iff_lt, Bool.and_eq_true, Bool.not_eq_true', beq_iff_eq,
      decide_eq_true_eq, ne_eq, not_and, and_imp]
    intro _ h0
    simp only [add64, sub64, U64, I63] at *
    omega
  have hF2 : (snd.pushBody cfg).1.has_fin_ = false := by
    rw [hfin, h.has_fin, Bool.false_or]
    exact hG _ rfl f9 h.window h.acked
  have hmsg : (snd.pushBody cfg).2
      = ⟨Wrap32.wrap 0 isn, true, [], decide (s.length = 0), false⟩ := by
    have e1 : (snd.pushBody cfg).2.seqno = Wrap32.wrap 0 isn := by
      rw [m1, h.isn_eq, b2n_false]
      unfold ByteStream.bytes_popped
      rw [h.popped]
      rfl
    have e5 : (snd.pushBody cfg).2.RST = false := by
      rw [m5, f9]
      exact h.no_error
    cases hm : (snd.pushBody cfg).2 with
    | mk a b c d e =>
      rw [hm] at e1 m2 m3 hF e5
      simp only at e1 m2 m3 hF e5
      rw [e1, m2, m3, hF, e5]
      rfl
  have hlen : (snd.pushBody cfg).2.sequence_length = 1 + b2n (decide (s.length = 0)) := by
    rw [hmsg]
    simp [TCPSenderMessage.sequence_length, b2n_true]
  have hstop : (snd.pushBody cfg).1.pushCond = false := by
    unfold TCPSender.pushCond
    rw [hG _ f7 f9 (by rw [f2]; exact h.window) (by rw [f3]; exact h.acked), f7, f2, h.window,
      f9]
    unfold TCPSender.sequence_numbers_in_flight ByteStream.bytes_buffered
    rw [f8, flight_insert, hlen, hb]
    unfold RetransmissionTimer.getSequenceNumbersInFlight
    rw [hlist, List.foldl_nil, Bool.eq_false_iff]
    simp only [Bool.not_true, Bool.or_false, gt_iff_lt, Bool.and_eq_true, decide_eq_true_eq,
      ne_eq, not_and, not_lt, Nat.le_zero_eq]
    intro _
    by_cases h0 : s.length = 0
    · exact h0
    · exfalso
      rw [decide_eq_false h0, b2n_false] at *
      simp only [add64, sub64, U64, I63] at *
      omega
  rw [TCPSender.pushLoop, if_pos hc]
  dsimp only
  rw [if_pos rfl, pushLoop_stop cfg true fuel _ _ hstop]
  refine ⟨_, rfl, rfl, by simp [hmsg], hinv, ?_⟩
  intro h1
  have hout := outstanding_insert snd _ _ _ f8
  have ho : snd.outstanding = [] := h.inv.no_syn h.has_isn
  rw [ho, List.nil_append] at hout
  have hl1 : (snd.pushBody cfg).2.sequence_length = 1 := by
    rw [hlen, decide_eq_false (by omega), b2n_false]
  have hseq : (snd.pushBody cfg).2.seqno = Wrap32.wrap 0 isn := by rw [hmsg]
  refine ⟨hinv, by rw [f9]; exact h.closed, by rw [f9]; exact h.no_error,
    by rw [f9]; exact h.popped, by rw [f9]; exact h.content, by rw [f1]; exact h.isn_eq,
    f7, hF2, by rw [f3, h.acked]; omega, ?_, ?_, by rw [f6]; exact hsaved⟩
  · intro m hm
    rw [hout, List.mem_singleton] at hm
    subst hm
    exact ⟨0, hseq, Nat.le_refl _, by rw [hl1], by rw [hl1]⟩
  · intro m hm
    rw [hout, List.getLast?_singleton] at hm
    simp only [Option.some.injEq] at hm
    subst hm
    exact ⟨0, hseq, Nat.le_refl _, by rw [hl1]⟩

theorem wrap_zero (isn : Wrap32) (hisn : isn.raw_value_ < U32) : Wrap32.wrap 0 isn = isn := by
  obtain ⟨z⟩ := isn
  simp only [Wrap32.wrap, add64, U32, U64, Wrap32.mk.injEq] at *
  omega

theorem recv_syn (s : Bytes) (isn : Wrap32) (cap_out : Nat) (fin : Bool)
    (hcap : 2 ≤ cap_out) (hc64 : cap_out < U64) (hisn : isn.raw_value_ < U32) :
    RecvAt s isn cap_out 0 fin
      ((TCPReceiver.fresh cap_out).receive ⟨Wrap32.wrap 0 isn, true, [], fin, false⟩) := by
  have hu : isn.unwrap isn (add64 0 1) = 0 := by
    have := unwrap_wrap_near 0 1 isn hisn (by decide) (by decide) (by decide)
    rw [wrap_zero isn hisn] at this
    exact this
  have hidx : add64 (sub64 0 1) 1 = 0 := by decide
  have hav : (ByteStream.new cap_out).available_capacity = cap_out := by
    rw [available_capacity_eq _ hc64]
    rfl
  have hins := insert_in_order (Reassembler.new (ByteStream.new cap_out)) [] fin rfl
    (by
      show 0 < (ByteStream.new cap_out).available_capacity
      rw [hav]
      omega)
    (by
      show 0 + (ByteStream.new cap_out).available_capacity < U64
      rw [hav]
      omega)
  rw [push_nil] at hins
  have hai : (TCPReceiver.fresh cap_out).afterInsert ⟨Wrap32.wrap 0 isn, true, [], fin, false⟩
      = { reassembler_ :=
            { output_ := if fin then (ByteStream.new cap_out).close else ByteStream.new cap_out
              pending_bytes_ := 0
              reassembler_ := { unpushed_first_index_ := 0, bytes_list_ := [] } }
          ISN_ := isn
          has_ISN_ := true
          ackno_ := 0 } := by
    unfold TCPReceiver.afterInsert TCPReceiver.fresh TCPReceiver.new
    simp only [↓reduceIte, wrap_zero isn hisn, Bool.or_false]
    have hp : (Reassembler.new (ByteStream.new cap_out)).output_.bytes_pushed = 0 := rfl
    rw [hp, hu, hidx]
    have hins2 : (Reassembler.new (ByteStream.new cap_out)).insert 0 [] fin = _ := hins
    rw [hins2]
    rfl
  rw [receive_eq]
  simp only [Bool.false_eq_true, ↓reduceIte]
  rw [hai]
  cases fin
  · exact ⟨rfl, rfl, rfl, StreamInv_new cap_out hc64, rfl, rfl, rfl, rfl, rfl, rfl⟩
  · exact ⟨rfl, rfl, rfl, StreamInv_close _ (StreamInv_new cap_out hc64), rfl, rfl, rfl, rfl,
      rfl, rfl⟩

theorem round_eq (cfg : TCPConfig) (sys : System) (r1 r2 : Transmitted)
    (h1 : sys.sender.push cfg true = some r1)
    (h2 : r1.sender.receive cfg
      ((sys.wire ++ r1.segments).foldl TCPReceiver.receive sys.receiver).send = some r2) :
    sys.round cfg
      = some ⟨r2.sender, (sys.wire ++ r1.segments).foldl TCPReceiver.receive sys.receiver,
          r2.segments⟩ := by
  unfold System.round
  rw [h1]
  dsimp only
  rw [h2]

theorem Done_of_RecvAt (s : Bytes) (isn : Wrap32) (cap_out : Nat) (sys : System)
    (h : RecvAt s isn cap_out s.length true sys.receiver) : Done s sys := by
  have hc : sys.receiver.reassembler_.output_.content = s := by
    rw [h.content, List.take_length]
  have hp := StreamInv_pushed _ h.stream h.popped
  refine ⟨hc, h.popped, by unfold ByteStream.bytes_pushed; rw [hp.1, hc], h.closed, ?_⟩
  rw [is_finished_iff, (pop_fields _ _).2.2.1, (pop_spec _ _ h.stream).2.1, hp.2, hc]
  exact ⟨h.closed, by omega⟩

theorem push_at (cfg : TCPConfig) (hmax : 1 ≤ cfg.MAX_PAYLOAD_SIZE) (s : Bytes) (isn : Wrap32)
    (W p : Nat) (snd : TCPSender) (h : SendAt s isn W p 0 snd) (hW : W < U64)
    (hn : s.length < I63) (hp : p < s.length) :
    ∃ r new q fin, snd.push cfg true = some r ∧ r.segments = new ∧ r.threw = false
      ∧ Chain s isn p new q fin ∧ SenderInv r.sender
      ∧ ((fin = false ∧ q = p + W ∧ q ≤ s.length ∧ SendAt s isn W p W r.sender)
        ∨ (fin = true ∧ q = s.length)) := by
  have hb := SendAt_buffered s isn W p 0 snd h
  have h0 : SendAt s isn W p 0 ({ snd with saveTransFunc_ := true } : TCPSender) :=
    ⟨SenderInv_of_sublist snd _ h.inv rfl rfl rfl (List.Sublist.refl _), h.closed, h.no_error,
      h.popped, h.content, h.isn_eq, h.has_isn, h.has_fin, h.acked, h.window, h.in_flight,
      h.entries, h.last, rfl⟩
  have hcl : snd.input_.is_closed = true := h.closed
  unfold TCPSender.push
  simp only [hcl, Bool.true_or, ↓reduceIte]
  obtain ⟨r, new, q, fin, r1, r2, r3, r4, r5, r6⟩ :=
    SendAt_loop cfg hmax s isn W p hW hn (snd.input_.bytes_buffered + 2) 0 _ [] h0
      (Nat.zero_le _) (by omega) (fun h1 => by omega)
      (by unfold ByteStream.bytes_buffered; rw [hb]; omega)
  exact ⟨r, new, q, fin, r1, by rw [r2]; rfl, r3, r4, r5, r6⟩

theorem push_start (cfg : TCPConfig) (hmax : 1 ≤ cfg.MAX_PAYLOAD_SIZE) (s : Bytes)
    (isn : Wrap32) (snd : TCPSender) (h : SendStart s isn snd) (hn : s.length < I63) :
    ∃ r, snd.push cfg true = some r ∧ r.threw = false
      ∧ r.segments = [⟨Wrap32.wrap 0 isn, true, [], decide (s.length = 0), false⟩]
      ∧ SenderInv r.sender
      ∧ (1 ≤ s.length → Flight s isn 0 0 r.sender) := by
  have h0 : SendStart s isn ({ snd with saveTransFunc_ := true } : TCPSender) :=
    ⟨SenderInv_of_sublist snd _ h.inv rfl rfl rfl (List.Sublist.refl _), h.closed, h.no_error,
      h.popped, h.content, h.isn_eq, h.has_isn, h.has_fin, h.acked, h.window⟩
  have hcl : snd.input_.is_closed = true := h.closed
  unfold TCPSender.push
  simp only [hcl, Bool.true_or, ↓reduceIte]
  exact first_loop cfg hmax s isn _ h0 rfl hn (snd.input_.bytes_buffered + 1)

theorem push_fin_state (cfg : TCPConfig) (snd : TCPSender) (hisn : snd.has_isn_ = true)
    (hc : snd.getCanSentFin = true) :
    ∃ r, snd.push cfg true = some r
      ∧ r.segments = [snd.finSegment]
      ∧ r.sender.has_isn_ = true ∧ r.sender.has_fin_ = true
      ∧ r.sender.input_ = snd.input_ := by
  have hf := getCanSentFin_finished snd hc
  have hcl : snd.input_.is_closed = true := ((is_finished_iff _).mp hf.2).1
  unfold TCPSender.push
  simp only [hcl, Bool.true_or, ↓reduceIte]
  have hl := pushLoop_fin cfg ({ snd with saveTransFunc_ := true } : TCPSender) true
    snd.input_.bytes_buffered hisn hc
  rw [hl]
  exact ⟨_, rfl, rfl, hisn, rfl, rfl⟩

theorem send_no_rst (s : Bytes) (isn : Wrap32) (cap_out q : Nat) (c : Bool) (r : TCPReceiver)
    (hr : RecvAt s isn cap_out q c r) : r.send.RST = false := by
  unfold TCPReceiver.send ByteStream.has_error
  rw [hr.no_error]
  rfl

theorem round_fin (cfg : TCPConfig) (hmax : 1 ≤ cfg.MAX_PAYLOAD_SIZE) (s : Bytes) (isn : Wrap32)
    (cap_out : Nat) (hcap : s.length + 2 ≤ cap_out) (hc64 : cap_out < U64)
    (hn : s.length < I63) (hisn : isn.raw_value_ < U32) (sys : System)
    (h : SysFin s isn cap_out sys) :
    ∃ sys1, sys.round cfg = some sys1 ∧ Done s sys1 := by
  have hstop : ∀ t : TCPSender, t.has_isn_ = true → t.input_.bytes_buffered = 0 →
      t.has_fin_ = true → TCPSender.pushLoop cfg true (t.input_.bytes_buffered + 2) t []
        = some ⟨t, [], false⟩ :=
    fun t t1 t2 t3 => pushLoop_stop cfg true _ t [] (pushCond_after_fin t t1 t2 t3)
  have hpush : ∃ r1, sys.sender.push cfg true = some r1 ∧ r1.segments = []
      ∧ SenderInv r1.sender := by
    unfold TCPSender.push
    dsimp only
    split_ifs
    · exact ⟨_, hstop _ h.has_isn h.buffered h.has_fin, rfl,
        SenderInv_of_sublist sys.sender _ h.inv rfl rfl rfl (List.Sublist.refl _)⟩
    · exact ⟨_, hstop _ h.has_isn h.buffered h.has_fin, rfl, h.inv⟩
  obtain ⟨r1, p1, p2, p3⟩ := hpush
  have hrecv := recv_chain s isn cap_out hcap hc64 hn hisn (sys.wire ++ r1.segments) s.length
    s.length true sys.receiver h.receiver (by rw [p2, List.append_nil]; exact h.wire)
  obtain ⟨r2, _, q1, _⟩ := receive_spec cfg hmax r1.sender
    ((sys.wire ++ r1.segments).foldl TCPReceiver.receive sys.receiver).send p3
    (send_no_rst s isn cap_out _ _ _ hrecv)
  exact ⟨_, round_eq cfg sys r1 r2 p1 q1, Done_of_RecvAt s isn cap_out _ hrecv⟩

theorem round_at (cfg : TCPConfig) (hmax : 1 ≤ cfg.MAX_PAYLOAD_SIZE) (s : Bytes) (isn : Wrap32)
    (cap_out : Nat) (hcap : s.length + 2 ≤ cap_out) (hc64 : cap_out < U64)
    (hn : s.length < I63) (hisn : isn.raw_value_ < U32) (p : Nat) (sys : System)
    (h : SysAt s isn cap_out p sys) :
    ∃ sys1, sys.round cfg = some sys1
      ∧ (Done s sys1 ∨ SysFin s isn cap_out sys1
        ∨ ∃ p1, p < p1 ∧ SysAt s isn cap_out p1 sys1) := by
  have hlt := h.lt
  have hWle : min (cap_out - p) 65535 ≤ 65535 := Nat.min_le_right _ _
  have hW1 : 1 ≤ min (cap_out - p) 65535 := by omega
  obtain ⟨r1, new, q, fin, p1, p2, p3, p4, p5, p6⟩ :=
    push_at cfg hmax s isn _ p sys.sender h.sender (by simp only [U64]; omega) hn hlt
  have hq : q ≤ s.length := by
    rcases p6 with ⟨_, _, h3, _⟩ | ⟨_, h2⟩
    · exact h3
    · omega
  have hrecv := recv_chain s isn cap_out hcap hc64 hn hisn (sys.wire ++ r1.segments) p q fin
    sys.receiver h.receiver (by rw [p2, h.wire, List.nil_append]; exact p4)
  have hsend := recv_send s isn cap_out q fin _ hrecv hq
  rcases p6 with ⟨e1, e2, e3, e4⟩ | ⟨e1, e2⟩
  · subst e1
    rw [b2n_false, Nat.add_zero] at hsend
    have hW2 : min (cap_out - q) 65535 ≠ 0 := by omega
    have hs1 := Flight_ack s isn (p + 1) q r1.sender
      (by rw [e2]; exact SendAt_flight s isn _ p _ r1.sender e4) e3
      (by simp only [I31]; omega) hn hisn (min (cap_out - q) 65535) hW2
    rw [← hsend] at hs1
    have hbuf := SendAt_buffered _ _ _ _ _ _ hs1
    have hcan : (r1.sender.receiveAck
          ((sys.wire ++ r1.segments).foldl TCPReceiver.receive sys.receiver).send).getCanSentFin
        = decide (q = s.length) := by
      rw [getCanSentFin_eq _ hs1.has_isn hs1.has_fin hs1.closed, hbuf, hs1.popped, hs1.window,
        hs1.acked]
      apply decide_eq_decide.mpr
      simp only [add64, sub64, U64, I63] at *
      omega
    by_cases hqn : q = s.length
    · rw [decide_eq_true hqn] at hcan
      obtain ⟨r2, g1, g2, g3, g4, g5⟩ := push_fin_state cfg _ hs1.has_isn hcan
      obtain ⟨r3, _, g6, g7, _⟩ := push_spec cfg hmax true _ hs1.inv
      rw [g1] at g6
      cases g6
      have hrcv : r1.sender.receive cfg
          ((sys.wire ++ r1.segments).foldl TCPReceiver.receive sys.receiver).send = some r2 := by
        unfold TCPSender.receive
        dsimp only
        rw [if_pos hcan, hs1.saved]
        exact g1
      refine ⟨_, round_eq cfg sys r1 r2 p1 hrcv, Or.inr (Or.inl ?_)⟩
      refine ⟨g7, g3, g4, ?_, by rw [← hqn]; exact hrecv, ?_⟩
      · unfold ByteStream.bytes_buffered
        rw [g5, hbuf]
        omega
      · show Chain s isn s.length r2.segments s.length true
        rw [g2]
        refine ⟨?_, rfl, hs1.no_error, rfl, Nat.le_refl _, ?_⟩
        · unfold TCPSender.finSegment ByteStream.bytes_popped
          rw [hs1.popped, hs1.isn_eq, Nat.add_zero, hqn,
            add64_of_lt (by simp only [U64, I63] at *; omega)]
        · exact ⟨rfl, rfl, rfl⟩
    · rw [decide_eq_false hqn] at hcan
      have hrcv : r1.sender.receive cfg
          ((sys.wire ++ r1.segments).foldl TCPReceiver.receive sys.receiver).send
            = some ⟨r1.sender.receiveAck
                ((sys.wire ++ r1.segments).foldl TCPReceiver.receive sys.receiver).send,
              [], false⟩ := by
        unfold TCPSender.receive
        dsimp only
        rw [if_neg (by rw [hcan]; simp)]
      refine ⟨_, round_eq cfg sys r1 _ p1 hrcv, Or.inr (Or.inr ⟨q, by omega, ?_⟩)⟩
      exact ⟨hs1, hrecv, rfl, by omega⟩
  · subst e1 e2
    obtain ⟨r2, _, q1, _⟩ := receive_spec cfg hmax r1.sender
      ((sys.wire ++ r1.segments).foldl TCPReceiver.receive sys.receiver).send p5
      (send_no_rst s isn cap_out _ _ _ hrecv)
    exact ⟨_, round_eq cfg sys r1 r2 p1 q1, Or.inl (Done_of_RecvAt s isn cap_out _ hrecv)⟩

theorem SendStart_start (s : Bytes) (cap_in cap_out : Nat) (isn : Wrap32) (initial_RTO_ms : Nat)
    (hin : s.length ≤ cap_in) (hcin : cap_in < U64) (hisn : isn.raw_value_ < U32) :
    SendStart s isn (System.start s cap_in cap_out isn initial_RTO_ms).sender := by
  obtain ⟨h1, h2, h3, h4, h5⟩ := start_input s cap_in hin hcin
  exact ⟨⟨h1, hisn, fun _ => rfl, fun _ =>
      ⟨fun m hm => by
          simp [TCPSender.outstanding, System.start, TCPSender.new, RetransmissionTimer.new] at hm,
        by simp [TCPSender.outstanding, System.start, TCPSender.new, RetransmissionTimer.new]⟩⟩,
    h2, h3, h4, h5, rfl, rfl, rfl, rfl, rfl⟩

theorem round_start (cfg : TCPConfig) (hmax : 1 ≤ cfg.MAX_PAYLOAD_SIZE) (s : Bytes)
    (cap_in cap_out : Nat) (isn : Wrap32) (initial_RTO_ms : Nat) (hin : s.length ≤ cap_in)
    (hcin : cap_in < U64) (hcap : s.length + 2 ≤ cap_out) (hc64 : cap_out < U64)
    (hn : s.length < I63) (hisn : isn.raw_value_ < U32) :
    ∃ sys1, (System.start s cap_in cap_out isn initial_RTO_ms).round cfg = some sys1
      ∧ (Done s sys1 ∨ SysAt s isn cap_out 0 sys1) := by
  have hst := SendStart_start s cap_in cap_out isn initial_RTO_ms hin hcin hisn
  obtain ⟨r1, p1, p2, p3, p4, p5⟩ :=
    push_start cfg hmax s isn _ hst hn
  have hw : (System.start s cap_in cap_out isn initial_RTO_ms).wire = [] := rfl
  have hfold : ((System.start s cap_in cap_out isn initial_RTO_ms).wire ++ r1.segments).foldl
      TCPReceiver.receive (System.start s cap_in cap_out isn initial_RTO_ms).receiver
      = (TCPReceiver.fresh cap_out).receive
          ⟨Wrap32.wrap 0 isn, true, [], decide (s.length = 0), false⟩ := by
    rw [hw, p3]
    rfl
  have hrecv := recv_syn s isn cap_out (decide (s.length = 0)) (by omega) hc64 hisn
  rw [← hfold] at hrecv
  by_cases h0 : s.length = 0
  · rw [decide_eq_true h0] at hrecv
    obtain ⟨r2, _, q1, _⟩ := receive_spec cfg hmax r1.sender _ p4
      (send_no_rst s isn cap_out _ _ _ hrecv)
    refine ⟨_, round_eq cfg _ r1 r2 p1 q1, Or.inl ?_⟩
    apply Done_of_RecvAt s isn cap_out
    rw [h0]
    exact hrecv
  · rw [decide_eq_false h0] at hrecv
    have hsend := recv_send s isn cap_out 0 false _ hrecv (Nat.zero_le _)
    rw [b2n_false, Nat.add_zero] at hsend
    have hW2 : min (cap_out - 0) 65535 ≠ 0 := by omega
    have hs1 := Flight_ack s isn 0 0 r1.sender (p5 (by omega)) (Nat.zero_le _)
      (by decide) hn hisn (min (cap_out - 0) 65535) hW2
    rw [← hsend] at hs1
    have hbuf := SendAt_buffered _ _ _ _ _ _ hs1
    have hcan : (r1.sender.receiveAck
          (((System.start s cap_in cap_out isn initial_RTO_ms).wire ++ r1.segments).foldl
            TCPReceiver.receive
            (System.start s cap_in cap_out isn initial_RTO_ms).receiver).send).getCanSentFin
        = false := by
      rw [getCanSentFin_eq _ hs1.has_isn hs1.has_fin hs1.closed, hbuf]
      apply decide_eq_false
      omega
    have hrcv : r1.sender.receive cfg
        (((System.start s cap_in cap_out isn initial_RTO_ms).wire ++ r1.segments).foldl
          TCPReceiver.receive (System.start s cap_in cap_out isn initial_RTO_ms).receiver).send
          = some ⟨r1.sender.receiveAck
              (((System.start s cap_in cap_out isn initial_RTO_ms).wire ++ r1.segments).foldl
                TCPReceiver.receive
                (System.start s cap_in cap_out isn initial_RTO_ms).receiver).send,
            [], false⟩ := by
      unfold TCPSender.receive
      dsimp only
      rw [if_neg (by rw [hcan]; simp)]
    exact ⟨_, round_eq cfg _ r1 _ p1 hrcv, Or.inr ⟨hs1, hrecv, rfl, by omega⟩⟩

theorem rounds_at (cfg : TCPConfig) (hmax : 1 ≤ cfg.MAX_PAYLOAD_SIZE) (s : Bytes) (isn : Wrap32)
    (cap_out : Nat) (hcap : s.length + 2 ≤ cap_out) (hc64 : cap_out < U64)
    (hn : s.length < I63) (hisn : isn.raw_value_ < U32) :
    ∀ (m p : Nat) (sys : System), s.length ≤ m + p → SysAt s isn cap_out p sys →
      ∃ k sys1, System.rounds cfg k sys = some sys1 ∧ Done s sys1 := by
  intro m
  induction m with
  | zero =>
    intro p sys hm h
    have := h.lt
    omega
  | succ m ih =>
    intro p sys hm h
    obtain ⟨sys1, h1, h2⟩ := round_at cfg hmax s isn cap_out hcap hc64 hn hisn p sys h
    rcases h2 with h2 | h2 | ⟨p1, h2, h3⟩
    · exact ⟨1, sys1, by simp [System.rounds, h1], h2⟩
    · obtain ⟨sys2, h3, h4⟩ := round_fin cfg hmax s isn cap_out hcap hc64 hn hisn sys1 h2
      exact ⟨2, sys2, by simp [System.rounds, h1, h3], h4⟩
    · obtain ⟨k, sys2, h4, h5⟩ := ih p1 sys1 (by omega) h3
      exact ⟨k + 1, sys2, by simp [System.rounds, h1, h4], h5⟩

/-! ## Theorems: end-to-end transfer -/

/-- C20: lossless end-to-end transfer. A byte string `s` is written to the input of a fresh
sender (whose input capacity holds it) and the input is closed; the receiver is fresh with an
output capacity of at least `|s| + 2`. Then repeating the round (`sender.push`; every
transmitted segment delivered in order to `receiver.receive`; `receiver.send()` passed to
`sender.receive`) reaches after finitely many rounds a state where the bytes written to the
receiver's output are exactly `s`, the output is closed, and it is finished once read. The
payload limit is at least 1, the capacities are 64-bit values, the ISN a 32-bit value and `s`
shorter than 2^63. -/
theorem C20_lossless_transfer (cfg : TCPConfig) (s : Bytes) (cap_in cap_out : Nat)
    (isn : Wrap32) (initial_RTO_ms : Nat) (hmax : 1 ≤ cfg.MAX_PAYLOAD_SIZE)
    (hin : s.length ≤ cap_in) (hcin : cap_in < U64) (hcap : s.length + 2 ≤ cap_out)
    (hc64 : cap_out < U64) (hn : s.length < I63) (hisn : isn.raw_value_ < U32) :
    ∃ n sys, System.rounds cfg n (System.start s cap_in cap_out isn initial_RTO_ms) = some sys
      ∧ sys.receiver.reassembler_.output_.content = s
      ∧ sys.receiver.reassembler_.output_.bytes_popped = 0
      ∧ sys.receiver.reassembler_.output_.bytes_pushed = s.length
      ∧ sys.receiver.reassembler_.output_.is_closed = true
      ∧ (sys.receiver.reassembler_.output_.pop s.length).is_finished = true := by
  obtain ⟨sys1, h1, h2⟩ := round_start cfg hmax s cap_in cap_out isn initial_RTO_ms hin hcin
    hcap hc64 hn hisn
  rcases h2 with h2 | h2
  · exact ⟨1, sys1, by simp [System.rounds, h1], h2⟩
  · obtain ⟨k, sys2, h3, h4⟩ :=
      rounds_at cfg hmax s isn cap_out hcap hc64 hn hisn s.length 0 sys1 (by omega) h2
    exact ⟨k + 1, sys2, by simp [System.rounds, h1, h3], h4⟩

/-- C20 at a concrete input: `"abc"` with payload limit 2, capacities 3 and 5, ISN `2^32 - 1`. -/
theorem C20_lossless_transfer_witness :
    ∃ n sys, System.rounds ⟨2⟩ n (System.start ['a', 'b', 'c'] 3 5 ⟨4294967295⟩ 1000) = some sys
      ∧ sys.receiver.reassembler_.output_.content = ['a', 'b', 'c']
      ∧ sys.receiver.reassembler_.output_.bytes_popped = 0
      ∧ sys.receiver.reassembler_.output_.bytes_pushed = 3
      ∧ sys.receiver.reassembler_.output_.is_closed = true
      ∧ (sys.receiver.reassembler_.output_.pop 3).is_finished = true :=
  C20_lossless_transfer ⟨2⟩ ['a', 'b', 'c'] 3 5 ⟨4294967295⟩ 1000 (by decide) (by decide)
    (by decide) (by decide) (by decide) (by decide) (by decide)

/-! ## Theorems: the transmit function saved by `push` -/

/-- C21 (evaluation at the failing input): on a fresh sender whose input is closed before any
`push`, `receive` of a message with window 1 and no ackno finds FIN emissible and calls
`push( saveTransFunc_ )` while `saveTransFunc_` is still the empty `std::function`: the SYN+FIN
segment is recorded as outstanding and the call of the empty function throws. -/
theorem C21_receive_calls_unset_transmit :
    ((Transmitted.new 100 ⟨0⟩ 1000).run ⟨1000⟩ [.close]).map
        (fun t => (t.sender.saveTransFunc_, t.threw)) = some (false, false)
      ∧ ((Transmitted.new 100 ⟨0⟩ 1000).run ⟨1000⟩ [.close, .receive ⟨none, 1, false⟩]).map
        (fun t => (t.sender.saveTransFunc_, t.threw, t.segments, t.sender.outstanding))
        = some (false, true, [], [⟨⟨0⟩, true, [], true, false⟩]) := by
  decide

/-! ## Auxiliary facts: the loop of `push` ends -/

theorem pushLoop_segments (cfg : TCPConfig) (hmax : 1 ≤ cfg.MAX_PAYLOAD_SIZE) (transmit : Bool) :
    ∀ (fuel : Nat) (s : TCPSender) (out : List TCPSenderMessage), StreamInv s.input_ →
      s.pushMeasure ≤ fuel →
      ∃ r new, TCPSender.pushLoop cfg transmit fuel s out = some r
        ∧ r.sender.outstanding = s.outstanding ++ new
        ∧ (r.threw = false → r.segments = out ++ new)
        ∧ (transmit = true → r.threw = false)
        ∧ (∀ m ∈ new, 1 ≤ m.sequence_length ∧ m.payload.length ≤ cfg.MAX_PAYLOAD_SIZE) := by
  intro fuel
  induction fuel with
  | zero =>
    intro s out hinv hm
    cases hc : s.pushCond
    · exact ⟨⟨s, out, false⟩, [], pushLoop_stop cfg transmit 0 s out hc, (by simp),
        (fun _ => by simp), (fun _ => rfl), (fun m hm => by cases hm)⟩
    · exfalso
      have := (pushBody_progress cfg s hinv hmax hc).2.2
      omega
  | succ fuel ih =>
    intro s out hinv hm
    cases hc : s.pushCond
    · exact ⟨⟨s, out, false⟩, [], pushLoop_stop cfg transmit _ s out hc, (by simp),
        (fun _ => by simp), (fun _ => rfl), (fun m hm => by cases hm)⟩
    · obtain ⟨hlen, _, hprog⟩ := pushBody_progress cfg s hinv hmax hc
      obtain ⟨_, _, _, _, _, _, _, f8, _⟩ := pushBody_fields cfg s
      obtain ⟨i1, _, _, _, _, i6, _⟩ := pushBody_input cfg s hinv
      have hout := outstanding_insert s _ _ _ f8
      have hpay : (s.pushBody cfg).2.payload.length ≤ cfg.MAX_PAYLOAD_SIZE := by
        rw [i6]
        split_ifs
        · exact le_trans (Nat.min_le_left _ _) (Nat.min_le_left _ _)
        · exact Nat.zero_le _
      cases transmit
      · refine ⟨⟨(s.pushBody cfg).1, out, true⟩, [(s.pushBody cfg).2], ?_, hout,
          (fun h => by cases h), (fun h => by cases h), ?_⟩
        · simp [TCPSender.pushLoop, hc]
        · intro m hm
          rw [List.mem_singleton] at hm
          subst hm
          exact ⟨hlen, hpay⟩
      · obtain ⟨r, new, h1, h2, h3, h4, h5⟩ :=
          ih (s.pushBody cfg).1 (out ++ [(s.pushBody cfg).2]) i1 (by omega)
        refine ⟨r, (s.pushBody cfg).2 :: new, ?_, ?_, ?_, h4, ?_⟩
        · simp only [TCPSender.pushLoop, hc, ↓reduceIte]
          exact h1
        · rw [h2, hout]
          simp
        · intro ht
          rw [h3 ht]
          simp
        · intro m hm
          rcases List.mem_cons.mp hm with hm | hm
          · subst hm
            exact ⟨hlen, hpay⟩
          · exact h5 m hm

/-! ## Theorems: `push` ends and sends no empty segment -/

/-- C28: for every sender state whose input stream is consistent, and a payload limit of at
least 1, `push` returns; the segments it records as outstanding (and, with a callable
transmit function, transmits, without throwing) each have sequence length at least 1 and a
payload of at most `MAX_PAYLOAD_SIZE` bytes; and nothing is sent or recorded when the SYN was
already sent, the loop condition finds no payload to send (`peer_win_size_ -
sequence_numbers_in_flight() > 0 && bytes_buffered() > 0` is false) and FIN is not
emissible. -/
theorem C28_push_ends (cfg : TCPConfig) (s : TCPSender) (transmit : Bool)
    (hmax : 1 ≤ cfg.MAX_PAYLOAD_SIZE) (hs : StreamInv s.input_) :
    ∃ r new, s.push cfg transmit = some r
      ∧ r.sender.outstanding = s.outstanding ++ new
      ∧ (transmit = true → r.threw = false ∧ r.segments = new)
      ∧ (∀ m ∈ new, 1 ≤ m.sequence_length ∧ m.payload.length ≤ cfg.MAX_PAYLOAD_SIZE)
      ∧ (s.has_isn_ = true
          → ¬ (sub64 s.peer_win_size_ s.sequence_numbers_in_flight > 0
                ∧ s.input_.bytes_buffered > 0)
          → s.getCanSentFin = false → new = [] ∧ r.segments = [] ∧ r.threw = false) := by
  have key : ∀ s0 : TCPSender, s0.input_ = s.input_ → s0.outstanding = s.outstanding →
      s0.pushCond = s.pushCond →
      ∃ r new, TCPSender.pushLoop cfg transmit (s0.input_.bytes_buffered + 2) s0 [] = some r
        ∧ r.sender.outstanding = s.outstanding ++ new
        ∧ (transmit = true → r.threw = false ∧ r.segments = new)
        ∧ (∀ m ∈ new, 1 ≤ m.sequence_length ∧ m.payload.length ≤ cfg.MAX_PAYLOAD_SIZE)
        ∧ (s.has_isn_ = true
            → ¬ (sub64 s.peer_win_size_ s.sequence_numbers_in_flight > 0
                  ∧ s.input_.bytes_buffered > 0)
            → s.getCanSentFin = false → new = [] ∧ r.segments = [] ∧ r.threw = false) := by
    intro s0 e1 e2 e3
    cases hc : s.pushCond
    · rw [pushLoop_stop cfg transmit _ s0 [] (by rw [e3]; exact hc)]
      exact ⟨_, [], rfl, (by rw [e2]; simp), (fun _ => ⟨rfl, rfl⟩), (fun m hm => by cases hm),
        fun _ _ _ => ⟨rfl, rfl, rfl⟩⟩
    · have hb1 := b2n_le_one (!s0.has_isn_)
      have hb2 := b2n_le_one (!s0.has_fin_)
      obtain ⟨r, new, h1, h2, h3, h4, h5⟩ :=
        pushLoop_segments cfg hmax transmit (s0.input_.bytes_buffered + 2) s0 []
          (by rw [e1]; exact hs)
          (by simp only [TCPSender.pushMeasure, ByteStream.bytes_buffered]; omega)
      refine ⟨r, new, h1, (by rw [h2, e2]), (fun ht => ⟨h4 ht, by rw [h3 (h4 ht)]; rfl⟩), h5, ?_⟩
      intro g1 g2 g3
      exfalso
      unfold TCPSender.pushCond at hc
      rw [g1, g3] at hc
      simp only [Bool.not_true, Bool.or_false, Bool.and_eq_true, decide_eq_true_eq] at hc
      exact g2 hc
  unfold TCPSender.push
  dsimp only
  split_ifs
  · exact key _ rfl rfl rfl
  · exact key _ rfl rfl rfl

/-- C28 at a fresh sender with a callable transmit function: `push` returns and sends one
segment (the SYN). -/
theorem C28_push_ends_witness :
    ∃ r new, (TCPSender.new (ByteStream.new 100) ⟨0⟩ 1000).push ⟨1000⟩ true = some r
      ∧ r.sender.outstanding
          = (TCPSender.new (ByteStream.new 100) ⟨0⟩ 1000).outstanding ++ new
      ∧ (true = true → r.threw = false ∧ r.segments = new)
      ∧ (∀ m ∈ new, 1 ≤ m.sequence_length ∧ m.payload.length ≤ 1000) := by
  obtain ⟨r, new, h1, h2, h3, h4, _⟩ :=
    C28_push_ends ⟨1000⟩ (TCPSender.new (ByteStream.new 100) ⟨0⟩ 1000) true (by decide)
      (StreamInv_new 100 (by decide))
  exact ⟨r, new, h1, h2, h3, h4⟩

/-! ## Auxiliary facts: the storage invariant of the reassembler -/

theorem mergeClosed_endsBy (B : Nat) : MergeClosed (EndsBy B) := by
  intro c f cur d hc0 hc hf h1 h2 hcur hd
  unfold EndsBy at *
  rw [getMergedData_length c f cur d hc0 hc hf h1 h2]
  omega

theorem insert_inv_at (Q : Nat → Bytes → Prop) (hQ : MergeClosed Q) (r : Reassembler)
    (first_index : Nat) (data : Bytes) (is_last : Bool) (hinv : ReInv Q r)
    (hin : max r.output_.bytes_pushed_ first_index
        < add64 r.output_.bytes_pushed_ r.output_.available_capacity →
      Q (max r.output_.bytes_pushed_ first_index)
        ((data.drop (sub64 (max r.output_.bytes_pushed_ first_index) first_index)).take
          (min data.length (add64 (sub64 r.output_.available_capacity
            (max r.output_.bytes_pushed_ first_index)) r.output_.bytes_pushed_)))) :
    ReInv Q (r.insert first_index data is_last)
      ∧ ((r.insert first_index data is_last).output_ = r.output_
        ∨ ∃ x n, Q r.output_.bytes_pushed_ x
            ∧ ((r.insert first_index data is_last).output_ = r.output_.push (x.take n)
              ∨ (r.insert first_index data is_last).output_
                  = (r.output_.push (x.take n)).close)) := by
  rw [insert_eq]
  by_cases hguard : sub64 (max r.output_.bytes_pushed_ first_index) first_index > data.length
      ∨ max r.output_.bytes_pushed_ first_index
        ≥ add64 r.output_.bytes_pushed_ r.output_.available_capacity
  · rw [if_pos hguard]
    exact ⟨hinv, Or.inl rfl⟩
  · rw [if_neg hguard]
    have hg : max r.output_.bytes_pushed_ first_index
        < add64 r.output_.bytes_pushed_ r.output_.available_capacity := by omega
    have hb := trim_bound r.output_.bytes_pushed_ r.output_.available_capacity _ data.length hg
    have hloop := insertLoop_inv Q hQ (max r.output_.bytes_pushed_ first_index)
      ((data.drop (sub64 (max r.output_.bytes_pushed_ first_index) first_index)).take
        (min data.length (add64 (sub64 r.output_.available_capacity
          (max r.output_.bytes_pushed_ first_index)) r.output_.bytes_pushed_)))
      (if add64 (sub64 (max r.output_.bytes_pushed_ first_index) first_index)
          (min data.length (add64 (sub64 r.output_.available_capacity
            (max r.output_.bytes_pushed_ first_index)) r.output_.bytes_pushed_)) < data.length
        then false else is_last)
      (by simp only [List.length_take, List.length_drop]; omega) (hin hg)
      r.reassembler_.bytes_list_ r.output_.bytes_pushed_ (Nat.le_max_left _ _) hinv.sep
      (fun u hu => by
        have := hinv.units u hu
        exact ⟨by omega, this.2.1, this.2.2⟩)
      (fun u hu => by
        have := (hinv.units u hu).1
        omega)
    apply pushFront_inv Q r _ hinv.stream hloop.1 hloop.2
    intro u rest hl
    unfold PendingBytes.insert_bytes_list at hl ⊢
    dsimp only at hl ⊢
    rw [hl]

theorem pushFront_pending (r : Reassembler) (p1 : PendingBytes) :
    (r.pushFront p1).pending_bytes_ = (r.pushFront p1).reassembler_.getPendingLen := by
  unfold Reassembler.pushFront
  split_ifs <;> rfl

theorem insert_pending (r : Reassembler) (first_index : Nat) (data : Bytes) (is_last : Bool)
    (h : r.pending_bytes_ = r.reassembler_.getPendingLen) :
    (r.insert first_index data is_last).pending_bytes_
      = (r.insert first_index data is_last).reassembler_.getPendingLen := by
  rw [insert_eq]
  by_cases hguard : sub64 (max r.output_.bytes_pushed_ first_index) first_index > data.length
      ∨ max r.output_.bytes_pushed_ first_index
        ≥ add64 r.output_.bytes_pushed_ r.output_.available_capacity
  · rw [if_pos hguard]
    exact h
  · rw [if_neg hguard]
    exact pushFront_pending _ _

theorem ReInv_mono (Q Q1 : Nat → Bytes → Prop) (h : ∀ i d, Q i d → Q1 i d) (r : Reassembler)
    (hr : ReInv Q r) : ReInv Q1 r :=
  ⟨hr.stream, hr.sep, fun u hu =>
    ⟨(hr.units u hu).1, (hr.units u hu).2.1, h _ _ (hr.units u hu).2.2⟩⟩

theorem StoreInv_step (o : Observed) (op : ReassemblerOp) (ho : StoreInv o.r) :
    StoreInv (o.step op).r := by
  cases op with
  | insert first_index data is_last =>
    have hs := ho.re.stream
    have hav := available_capacity_eq o.r.output_ hs.capacity_lt
    have hstep := insert_inv_at _ (mergeClosed_endsBy _) o.r first_index data is_last ho.re
      (by
        intro hg
        unfold EndsBy
        have h1 := hs.counters
        have h2 := hs.le_capacity
        have h3 := hs.capacity_lt
        rw [hav] at hg ⊢
        simp only [List.length_take, List.length_drop]
        simp only [add64, sub64, U64] at *
        omega)
    have hout : (o.r.insert first_index data is_last).output_.capacity_
          + (o.r.insert first_index data is_last).output_.bytes_popped_
        = o.r.output_.capacity_ + o.r.output_.bytes_popped_ := by
      rcases hstep.2 with h | ⟨x, n, _, h | h⟩
      · rw [h]
      · rw [h, (push_fields _ _).1, (push_fields _ _).2.1]
      · rw [h]
        show (o.r.output_.push (x.take n)).capacity_ + (o.r.output_.push (x.take n)).bytes_popped_
          = _
        rw [(push_fields _ _).1, (push_fields _ _).2.1]
    refine ⟨?_, insert_pending o.r first_index data is_last ho.pending⟩
    show ReInv (EndsBy ((o.r.insert first_index data is_last).output_.capacity_
      + (o.r.insert first_index data is_last).output_.bytes_popped_)) _
    rw [hout]
    exact hstep.1
  | pop len =>
    obtain ⟨f1, f2, _, _⟩ := pop_fields o.r.output_ len
    have hp := (pop_spec o.r.output_ len ho.re.stream).2.2.1
    refine ⟨⟨StreamInv_pop _ _ ho.re.stream, ho.re.sep, ?_⟩, ho.pending⟩
    show UnitsOk (EndsBy ((o.r.output_.pop len).capacity_ + (o.r.output_.pop len).bytes_popped_))
      ((o.r.output_.pop len).bytes_pushed_ + 1) _
    rw [f1, f2, hp]
    intro u hu
    have := ho.re.units u hu
    refine ⟨this.1, this.2.1, ?_⟩
    have h3 := this.2.2
    unfold EndsBy at h3 ⊢
    omega

theorem StoreInv_run (ops : List ReassemblerOp) :
    ∀ o : Observed, StoreInv o.r → StoreInv (o.run ops).r := by
  induction ops with
  | nil => intro o ho; exact ho
  | cons op ops ih =>
    intro o ho
    exact ih (o.step op) (StoreInv_step o op ho)

theorem StoreInv_reachable (C : Nat) (hC : C < U64) (ops : List ReassemblerOp) :
    StoreInv ((Observed.new C).run ops).r := by
  apply StoreInv_run
  refine ⟨⟨StreamInv_new C hC, ?_, ?_⟩, rfl⟩
  · simp [Observed.new, Reassembler.new, Separated]
  · intro u hu
    simp [Observed.new, Reassembler.new] at hu

theorem separated_sum (l : List PendingBytesUnit) :
    ∀ lo hi : Nat, Separated l →
      (∀ u ∈ l, lo ≤ u.first_index_ ∧ u.first_index_ + u.data_.length ≤ hi) → lo ≤ hi →
      (l.map fun u => u.data_.length).sum ≤ hi - lo := by
  induction l with
  | nil => intro lo hi _ _ _; simp
  | cons u rest ih =>
    intro lo hi hsep hb hle
    have hsep' := List.pairwise_cons.mp hsep
    have hu := hb u (List.mem_cons_self _ _)
    have hrest := ih (u.first_index_ + u.data_.length) hi hsep'.2
      (fun x hx => ⟨by have := hsep'.1 x hx; omega, (hb x (List.mem_cons_of_mem _ hx)).2⟩) hu.2
    simp only [List.map_cons, List.sum_cons]
    omega

theorem foldl_add64_sum (l : List PendingBytesUnit) :
    ∀ a : Nat, a + (l.map fun u => u.data_.length).sum < U64 →
      l.foldl (fun len i => add64 len i.data_.length) a
        = a + (l.map fun u => u.data_.length).sum := by
  induction l with
  | nil => intro a _; simp
  | cons u rest ih =>
    intro a h
    simp only [List.map_cons, List.sum_cons] at h
    rw [List.foldl_cons, add64_of_lt (by omega), ih _ (by omega)]
    simp only [List.map_cons, List.sum_cons]
    omega

/-! ## Theorems: the storage of the reassembler -/

/-- C26: in every state reached from a fresh reassembler (over a stream whose capacity is a
64-bit value) by `insert` calls and reader pops, the pending list is sorted by first index, any
two stored units are separated by at least one missing index, every stored byte has its index
in `[bytes_pushed, bytes_pushed + available_capacity)`, `bytes_pending` equals the sum of the
stored payload lengths, and `bytes_buffered + bytes_pending ≤ capacity`. -/
theorem C26_storage_invariant (C : Nat) (hC : C < U64) (ops : List ReassemblerOp) :
    ((Observed.new C).run ops).r.StorageOk := by
  have h := StoreInv_reachable C hC ops
  generalize ((Observed.new C).run ops).r = r at h
  have hs := h.re.stream
  have hav := available_capacity_eq r.output_ hs.capacity_lt
  have h1 := hs.counters
  have h2 := hs.le_capacity
  have h3 := hs.capacity_lt
  have hwin : ∀ u ∈ r.reassembler_.bytes_list_,
      r.output_.bytes_pushed ≤ u.first_index_
        ∧ u.first_index_ + u.data_.length
            ≤ r.output_.bytes_pushed + r.output_.available_capacity := by
    intro u hu
    have hu1 := h.re.units u hu
    have hu2 : u.first_index_ + u.data_.length
        ≤ r.output_.capacity_ + r.output_.bytes_popped_ := hu1.2.2
    unfold ByteStream.bytes_pushed
    rw [hav]
    omega
  have hsum := separated_sum r.reassembler_.bytes_list_ r.output_.bytes_pushed
    (r.output_.bytes_pushed + r.output_.available_capacity) h.re.sep hwin (Nat.le_add_right _ _)
  rw [hav] at hsum
  have hpend : r.bytes_pending
      = (r.reassembler_.bytes_list_.map fun u => u.data_.length).sum := by
    unfold Reassembler.bytes_pending
    rw [h.pending]
    unfold PendingBytes.getPendingLen
    rw [foldl_add64_sum _ 0 (by omega)]
    omega
  refine ⟨?_, h.re.sep, hwin, hpend, ?_⟩
  · exact h.re.sep.imp (fun hab => by omega)
  · rw [hpend]
    unfold ByteStream.bytes_buffered
    omega

/-- C26 at a concrete run: capacity 8, `insert(4, "ef")`, `insert(7, "hij")` (trimmed to
`"h"`), `insert(0, "a")`, `pop(1)`. -/
theorem C26_storage_invariant_witness :
    8 < U64
      ∧ ((Observed.new 8).run [.insert 4 ['e', 'f'] false, .insert 7 ['h', 'i', 'j'] false,
          .insert 0 ['a'] false, .pop 1]).r.StorageOk :=
  ⟨by decide, C26_storage_invariant 8 (by decide) _⟩
/-! ## Theorems: `getMergedData` at the ends of the index range -/

/-- C27 (evaluation at two failing inputs). First, through `insert`: a reassembler of capacity
`2^64 - 1` stores `(2^64 - 3, "ab")`, and the incoming extent `(2^64 - 5, "xy")` is exactly
adjacent to it, so the merge should be `"xyab"` at `2^64 - 5`. At `i = 3` the sum
`cur_first_index + i` wraps to 0, the first branch of the loop fires and reads `cur_data[3]` from
a string of size 2; the unit stored afterwards is not `"xyab"`. Second, called directly: the
extents `(0, "abc")` and `(0, "")` touch and the merge should be `"abc"`, but
`right_intersect = min(0 + 3, 0 + 0) - 1` wraps to `2^64 - 1`, so at every `i` the third branch
fires and reads `data[i]` from the empty string. -/
theorem C27_merge_reads_out_of_range :
    ((18446744073709551611 ≤ 18446744073709551613 + ['a', 'b'].length
        ∧ 18446744073709551613 ≤ 18446744073709551611 + ['x', 'y'].length)
      ∧ ((Observed.new 18446744073709551615).run
          [.insert 18446744073709551613 ['a', 'b'] false]).r.reassembler_.bytes_list_.map
            (fun u => (u.first_index_, u.data_))
          = [(18446744073709551613, ['a', 'b'])]
      ∧ add64 18446744073709551613 3 = 0
      ∧ mergedRead 18446744073709551613 18446744073709551611 2 2 18446744073709551611
          18446744073709551613 18446744073709551612 3 = some (.cur_data, 3)
      ∧ PendingBytes.getMergedData 18446744073709551613 18446744073709551611 ['a', 'b'] ['x', 'y']
          = (18446744073709551611, ['x', 'y', 'a', Char.ofNat 0])
      ∧ ((Observed.new 18446744073709551615).run
          [.insert 18446744073709551613 ['a', 'b'] false,
            .insert 18446744073709551611 ['x', 'y'] false]).r.reassembler_.bytes_list_.map
            (fun u => (u.first_index_, u.data_))
          = [(18446744073709551611, ['x', 'y', 'a', Char.ofNat 0])]
      ∧ (List.range 4).map (fun p => mergedAt 18446744073709551613 18446744073709551611
          ['a', 'b'] ['x', 'y'] (18446744073709551611 + p)) = ['x', 'y', 'a', 'b'])
    ∧ ((0 ≤ 0 + ['a', 'b', 'c'].length ∧ 0 ≤ 0 + ([] : Bytes).length)
      ∧ sub64 (min (add64 0 3) (add64 0 0)) 1 = 18446744073709551615
      ∧ mergedRead 0 0 3 0 0 0 18446744073709551615 1 = some (.data, 1)
      ∧ PendingBytes.getMergedData 0 0 ['a', 'b', 'c'] []
          = (0, [Char.ofNat 0, Char.ofNat 0, Char.ofNat 0])
      ∧ (List.range 3).map (fun p => mergedAt 0 0 ['a', 'b', 'c'] [] p) = ['a', 'b', 'c']) := by
  decide

/-! ## Theorems: network_interface.cc -/

/-- C22 (evaluation at the failing input): an interface with no ARP entry for `10.0.0.2` is
asked to send a datagram there at times 0, 5001 and 5002. `map_send_time_` is written only when
no entry is found, so it keeps the time 0 of the first request: both later calls find
`cur_time_ - 0 > ARP_INTERVAL_` and transmit an ARP request, at 5001 and at 5002, 1 ms apart. -/
theorem C22_arp_requests_one_ms_apart :
    (((Transmitting.mk (NetworkInterface.new [170, 170, 170, 170, 170, 170] 167772161) []).run
        [.send_datagram ⟨⟨4, 5, 0, 20, 0, false, false, 0, 64, 6, 0, 167772161, 167772162⟩, []⟩
            167772162,
          .tick 5001,
          .send_datagram ⟨⟨4, 5, 0, 20, 0, false, false, 0, 64, 6, 0, 167772161, 167772162⟩, []⟩
            167772162,
          .tick 1,
          .send_datagram ⟨⟨4, 5, 0, 20, 0, false, false, 0, 64, 6, 0, 167772161, 167772162⟩, []⟩
            167772162]).frames.filter
        (fun p => p.2.isArpRequestFor 167772162)).map (fun p => p.1) = [0, 5001, 5002] := by
  decide

/-! ## Auxiliary facts: network_interface.cc -/

theorem transmit_loop_eq (n : NetworkInterface) (senderMac : EthernetAddress) :
    ∀ (q : List InternetDatagram) (out : List EthernetFrame),
      NetworkInterface.transmitDgramInQueue.loop n senderMac q out
        = out ++ q.map
            (fun dgram => datagramToEthernetFrame dgram senderMac n.ethernet_address_ TYPE_IPv4) := by
  intro q
  induction q with
  | nil => intro out; simp [NetworkInterface.transmitDgramInQueue.loop]
  | cons d rest ih =>
    intro out
    rw [NetworkInterface.transmitDgramInQueue.loop, ih]
    simp

theorem send_datagram_queue (n : NetworkInterface) (dgram : InternetDatagram) (next_hop : Nat) :
    (n.send_datagram dgram next_hop).1.map_queue_ = n.map_queue_
      ∨ (n.send_datagram dgram next_hop).1.map_queue_
          = Function.update n.map_queue_ next_hop (n.map_queue_ next_hop ++ [dgram]) := by
  unfold NetworkInterface.send_datagram
  dsimp only
  cases n.map_ip_ next_hop with
  | none =>
    dsimp only
    cases n.map_send_time_ next_hop with
    | none => exact Or.inr rfl
    | some t =>
      dsimp only
      split_ifs <;> exact Or.inr rfl
  | some u =>
    dsimp only
    split_ifs
    · cases n.map_send_time_ next_hop with
      | none => exact Or.inr rfl
      | some t =>
        dsimp only
        split_ifs <;> exact Or.inr rfl
    · exact Or.inl rfl

theorem send_datagram_received (n : NetworkInterface) (dgram : InternetDatagram)
    (next_hop : Nat) :
    (n.send_datagram dgram next_hop).1.datagrams_received_ = n.datagrams_received_ := by
  unfold NetworkInterface.send_datagram
  dsimp only
  cases n.map_ip_ next_hop with
  | none =>
    dsimp only
    cases n.map_send_time_ next_hop with
    | none => rfl
    | some t =>
      dsimp only
      split_ifs <;> rfl
  | some u =>
    dsimp only
    split_ifs
    · cases n.map_send_time_ next_hop with
      | none => rfl
      | some t =>
        dsimp only
        split_ifs <;> rfl
    · rfl

/-- C23: for every interface state and every frame addressed to the interface or to broadcast,
of type ARP, whose payload parses to a well-formed ARP message (request or reply) with the
sender `(ip, mac)`: `recv_frame` records `ip → (mac, cur_time_)` in `map_ip_`; the frames it
transmits are the ARP reply, if the message is a request for the interface's own address,
followed by every datagram queued for `ip`, front of the queue first, each as an IPv4 frame with
`dst = mac` and `src` the interface's own address; the queue for `ip` is empty afterwards and
the queues for other addresses are unchanged. And `send_datagram` queues at the back: it leaves
all queues unchanged or appends its datagram to the queue of its next hop, so the queue holds
the datagrams in the order `send_datagram` queued them. -/
theorem C23_arp_flushes_queue_in_order (n : NetworkInterface) (frame : EthernetFrame)
    (msg : ARPMessage)
    (hdst : frame.header.dst = n.ethernet_address_ ∨ frame.header.dst = ETHERNET_BROADCAST)
    (htype : frame.header.type = TYPE_ARP) (hparse : frame.payload.parseARP = some msg) :
    (n.recv_frame frame).1.map_ip_ msg.sender_ip_address
        = some ⟨msg.sender_ethernet_address, n.cur_time_⟩
      ∧ (n.recv_frame frame).2
          = (if msg.opcode = OPCODE_REQUEST ∧ msg.target_ip_address = n.ip_address_ then
              [arpToEthernetFrame
                (genArpEthernetFrame OPCODE_REPLY n.ethernet_address_ msg.sender_ethernet_address
                  n.ip_address_ msg.sender_ip_address)
                msg.sender_ethernet_address n.ethernet_address_ TYPE_ARP]
            else [])
            ++ (n.map_queue_ msg.sender_ip_address).map (fun dgram =>
                (⟨⟨msg.sender_ethernet_address, n.ethernet_address_, TYPE_IPv4⟩,
                  .datagram dgram⟩ : EthernetFrame))
      ∧ (n.recv_frame frame).1.map_queue_ msg.sender_ip_address = []
      ∧ (∀ ip, ip ≠ msg.sender_ip_address →
          (n.recv_frame frame).1.map_queue_ ip = n.map_queue_ ip)
      ∧ (∀ dgram next_hop,
          (n.send_datagram dgram next_hop).1.map_queue_ = n.map_queue_
            ∨ (n.send_datagram dgram next_hop).1.map_queue_
                = Function.update n.map_queue_ next_hop (n.map_queue_ next_hop ++ [dgram])) := by
  have hrecv : n.recv_frame frame
      = (((({ n with
              map_ip_ :=
                (Function.update n.map_ip_ msg.sender_ip_address
                  (some ⟨msg.sender_ethernet_address, n.cur_time_⟩)) } : NetworkInterface)
            ).transmitDgramInQueue msg.sender_ip_address msg.sender_ethernet_address).1,
          (if msg.opcode = OPCODE_REQUEST ∧ msg.target_ip_address = n.ip_address_ then
              [arpToEthernetFrame
                (genArpEthernetFrame OPCODE_REPLY n.ethernet_address_ msg.sender_ethernet_address
                  n.ip_address_ msg.sender_ip_address)
                msg.sender_ethernet_address n.ethernet_address_ TYPE_ARP]
            else [])
            ++ ((({ n with
              map_ip_ :=
                (Function.update n.map_ip_ msg.sender_ip_address
                  (some ⟨msg.sender_ethernet_address, n.cur_time_⟩)) } : NetworkInterface)
            ).transmitDgramInQueue msg.sender_ip_address msg.sender_ethernet_address).2) := by
    unfold NetworkInterface.recv_frame
    dsimp only
    rw [if_neg (by
      intro h
      rcases hdst with h1 | h1
      · exact h.1 h1
      · exact h.2 h1), htype, if_neg (by decide), if_pos rfl, hparse]
  rw [hrecv]
  unfold NetworkInterface.transmitDgramInQueue
  dsimp only
  rw [transmit_loop_eq]
  refine ⟨?_, ?_, ?_, ?_, fun dgram next_hop => send_datagram_queue n dgram next_hop⟩
  · simp
  · simp only [datagramToEthernetFrame, List.nil_append, List.append_cancel_left_eq]
    rfl
  · simp
  · intro ip hip
    simp [Function.update, hip]

/-- C23 at a concrete state: two datagrams queued for `10.0.0.2`, then an ARP reply from
`10.0.0.2` at `bb:bb:bb:bb:bb:bb`. -/
theorem C23_arp_flushes_queue_in_order_witness :
    ((((NetworkInterface.new [170, 170, 170, 170, 170, 170] 167772161).send_datagram
          ⟨⟨4, 5, 0, 20, 1, false, false, 0, 64, 6, 0, 167772161, 167772162⟩, []⟩
          167772162).1.send_datagram
          ⟨⟨4, 5, 0, 20, 2, false, false, 0, 64, 6, 0, 167772161, 167772162⟩, []⟩
          167772162).1.recv_frame
        ⟨⟨[170, 170, 170, 170, 170, 170], [187, 187, 187, 187, 187, 187], TYPE_ARP⟩,
          .arp ⟨1, 2048, 2, [187, 187, 187, 187, 187, 187], 167772162,
            [170, 170, 170, 170, 170, 170], 167772161⟩⟩).2.map
        (fun f => (f.header.dst, f.payload))
      = [([187, 187, 187, 187, 187, 187],
            .datagram ⟨⟨4, 5, 0, 20, 1, false, false, 0, 64, 6, 0, 167772161, 167772162⟩, []⟩),
          ([187, 187, 187, 187, 187, 187],
            .datagram ⟨⟨4, 5, 0, 20, 2, false, false, 0, 64, 6, 0, 167772161, 167772162⟩, []⟩)] := by
  rw [(C23_arp_flushes_queue_in_order
    (((NetworkInterface.new [170, 170, 170, 170, 170, 170] 167772161).send_datagram
          ⟨⟨4, 5, 0, 20, 1, false, false, 0, 64, 6, 0, 167772161, 167772162⟩, []⟩
          167772162).1.send_datagram
          ⟨⟨4, 5, 0, 20, 2, false, false, 0, 64, 6, 0, 167772161, 167772162⟩, []⟩
          167772162).1
    ⟨⟨[170, 170, 170, 170, 170, 170], [187, 187, 187, 187, 187, 187], TYPE_ARP⟩,
          .arp ⟨1, 2048, 2, [187, 187, 187, 187, 187, 187], 167772162,
            [170, 170, 170, 170, 170, 170], 167772161⟩⟩
    ⟨1, 2048, 2, [187, 187, 187, 187, 187, 187], 167772162,
            [170, 170, 170, 170, 170, 170], 167772161⟩
    (Or.inl (by decide)) (by decide) (by decide)).2.1]
  decide

/-! ## Auxiliary facts: router.cc -/

theorem shift_eq_iff (len x y : Nat) (hlen : len ≤ 32) (hx : x < U32) (hy : y < U32) :
    ((if len > 0 then x >>> (32 - len) else 0) = (if len > 0 then y >>> (32 - len) else 0))
      ↔ ∀ k, k < len → x.testBit (31 - k) = y.testBit (31 - k) := by
  by_cases h0 : len > 0
  · rw [if_pos h0, if_pos h0]
    constructor
    · intro h k hk
      have e1 : 31 - k = (32 - len) + (len - 1 - k) := by omega
      rw [e1, ← Nat.testBit_shiftRight, ← Nat.testBit_shiftRight, h]
    · intro h
      apply Nat.eq_of_testBit_eq
      intro j
      rw [Nat.testBit_shiftRight, Nat.testBit_shiftRight]
      by_cases hj : 32 - len + j ≤ 31
      · have := h (31 - (32 - len + j)) (by omega)
        have e2 : 31 - (31 - (32 - len + j)) = 32 - len + j := by omega
        rw [e2] at this
        exact this
      · have hp : (2 : Nat) ^ 32 ≤ 2 ^ (32 - len + j) :=
          Nat.pow_le_pow_right (by decide) (by omega)
        have hx1 : x < 2 ^ (32 - len + j) := lt_of_lt_of_le hx hp
        have hy1 : y < 2 ^ (32 - len + j) := lt_of_lt_of_le hy hp
        rw [Nat.testBit_lt_two_pow hx1, Nat.testBit_lt_two_pow hy1]
  · rw [if_neg h0, if_neg h0]
    constructor
    · intro _ k hk
      omega
    · intro _
      rfl

theorem routeLoop_spec (dst size : Nat) (hdst : dst < U32) :
    ∀ (l done : List RouteEntry) (c : RouteChoice),
      (∀ R ∈ l, R.prefix_length_ ≤ 32 ∧ R.route_prefix_ < U32) →
      LongestMatch done dst size c →
      LongestMatch (done ++ l) dst size (Router.routeLoop dst c l) := by
  intro l
  induction l with
  | nil =>
    intro done c _ h
    rw [List.append_nil]
    exact h
  | cons item rest ih =>
    intro done c hl h
    have hitem := hl item (List.mem_cons_self _ _)
    have hrest : ∀ R ∈ rest, R.prefix_length_ ≤ 32 ∧ R.route_prefix_ < U32 :=
      fun R hR => hl R (List.mem_cons_of_mem _ hR)
    have hiff := shift_eq_iff item.prefix_length_ dst item.route_prefix_ hitem.1 hdst hitem.2
    have happ : done ++ item :: rest = (done ++ [item]) ++ rest := by simp
    rw [happ, Router.routeLoop]
    by_cases hm : (if item.prefix_length_ > 0 then dst >>> (32 - item.prefix_length_) else 0)
        = (if item.prefix_length_ > 0 then item.route_prefix_ >>> (32 - item.prefix_length_)
            else 0)
    · have hmatch : item.TopBitsMatch dst := hiff.mp hm
      rw [if_pos hm]
      by_cases hge : item.prefix_length_ ≥ c.max_prefix
      · rw [if_pos hge]
        apply ih _ _ hrest
        refine Or.inr ⟨done, item, [], rfl, hmatch, ?_, (fun R1 h1 => by cases h1), rfl⟩
        intro R1 h1 hm1
        rcases h with ⟨hno, _⟩ | ⟨pre, R, post, e1, e2, e3, e4, e5⟩
        · exact absurd hm1 (hno R1 h1)
        · rw [e5] at hge
          rw [e1] at h1
          rcases List.mem_append.mp h1 with h2 | h2
          · exact le_trans (e3 R1 h2 hm1) hge
          · rcases List.mem_cons.mp h2 with h3 | h3
            · rw [h3]
              exact hge
            · exact le_trans (Nat.le_of_lt (e4 R1 h3 hm1)) hge
      · rw [if_neg hge]
        apply ih _ _ hrest
        rcases h with ⟨_, hc⟩ | ⟨pre, R, post, e1, e2, e3, e4, e5⟩
        · rw [hc] at hge
          exact absurd (Nat.zero_le _) hge
        · refine Or.inr ⟨pre, R, post ++ [item], by rw [e1]; simp, e2, e3, ?_, e5⟩
          intro R1 h1 hm1
          rcases List.mem_append.mp h1 with h2 | h2
          · exact e4 R1 h2 hm1
          · rw [List.mem_singleton] at h2
            rw [h2]
            rw [e5] at hge
            exact Nat.lt_of_not_le hge
    · have hmatch : ¬ item.TopBitsMatch dst := fun h1 => hm (hiff.mpr h1)
      rw [if_neg hm]
      apply ih _ _ hrest
      rcases h with ⟨hno, hc⟩ | ⟨pre, R, post, e1, e2, e3, e4, e5⟩
      · refine Or.inl ⟨?_, hc⟩
        intro R1 h1
        rcases List.mem_append.mp h1 with h2 | h2
        · exact hno R1 h2
        · rw [List.mem_singleton] at h2
          rw [h2]
          exact hmatch
      · refine Or.inr ⟨pre, R, post ++ [item], by rw [e1]; simp, e2, e3, ?_, e5⟩
        intro R1 h1 hm1
        rcases List.mem_append.mp h1 with h2 | h2
        · exact e4 R1 h2 hm1
        · rw [List.mem_singleton] at h2
          rw [h2] at hm1
          exact absurd hm1 hmatch

theorem routeHelperFunc_spec (t : Routing) (dgram : InternetDatagram) :
    (Router.routeHelperFunc t dgram).calls
        = t.calls ++ callsFor t.router.router_table_ t.router._interfaces.length dgram
      ∧ (Router.routeHelperFunc t dgram).router.router_table_ = t.router.router_table_
      ∧ (Router.routeHelperFunc t dgram).router._interfaces.length = t.router._interfaces.length
      ∧ (Router.routeHelperFunc t dgram).router.received = t.router.received := by
  unfold Router.routeHelperFunc callsFor
  dsimp only
  by_cases hlt : (Router.routeLoop dgram.header.dst ⟨t.router._interfaces.length, 0, none⟩
      t.router.router_table_).route_interface < t.router._interfaces.length
  · rw [if_pos hlt, if_pos hlt, List.getElem?_eq_getElem hlt]
    dsimp only
    refine ⟨rfl, rfl, by simp, ?_⟩
    unfold Router.received
    dsimp only
    rw [List.map_set, send_datagram_received]
    apply List.ext_getElem?
    intro j
    by_cases hj : (Router.routeLoop dgram.header.dst ⟨t.router._interfaces.length, 0, none⟩
        t.router.router_table_).route_interface = j
    · subst hj
      rw [List.getElem?_set_self (by rw [List.length_map]; exact hlt), List.getElem?_map,
        List.getElem?_eq_getElem hlt]
      rfl
    · rw [List.getElem?_set_ne hj]
  · rw [if_neg hlt, if_neg hlt]
    exact ⟨by simp, rfl, rfl, rfl⟩

theorem routeFront_spec (t : Routing) (dgram : InternetDatagram) :
    (Router.routeFront t dgram).calls
        = t.calls ++ frontCalls t.router.router_table_ t.router._interfaces.length dgram
      ∧ (Router.routeFront t dgram).router.router_table_ = t.router.router_table_
      ∧ (Router.routeFront t dgram).router._interfaces.length = t.router._interfaces.length
      ∧ (Router.routeFront t dgram).router.received = t.router.received := by
  unfold Router.routeFront frontCalls
  dsimp only
  by_cases h0 : (decremented dgram).header.ttl ≠ 0
  · have h1 : ({ dgram with
        header := ({ dgram.header with
          ttl := (max ((dgram.header.ttl : Int) - 1) 0).toNat % 256 }).compute_checksum }
        : InternetDatagram).header.ttl ≠ 0 := h0
    rw [if_pos h1, if_pos h0]
    exact routeHelperFunc_spec t (decremented dgram)
  · have h1 : ¬ ({ dgram with
        header := ({ dgram.header with
          ttl := (max ((dgram.header.ttl : Int) - 1) 0).toNat % 256 }).compute_checksum }
        : InternetDatagram).header.ttl ≠ 0 := h0
    rw [if_neg h1, if_neg h0]
    exact ⟨by simp, rfl, rfl, rfl⟩

theorem received_getElem? (r : Router) (i : Nat) :
    r.received[i]? = (r._interfaces[i]?).map fun item => item.datagrams_received_ := by
  unfold Router.received
  rw [List.getElem?_map]

theorem drain_spec (i : Nat) :
    ∀ (q : List InternetDatagram) (fuel : Nat) (t : Routing),
      t.router.received[i]? = some q → q.length ≤ fuel →
      ∃ t1, Router.drain i fuel t = some t1
        ∧ t1.router.router_table_ = t.router.router_table_
        ∧ t1.router._interfaces.length = t.router._interfaces.length
        ∧ t1.router.received = t.router.received.set i []
        ∧ t1.calls = t.calls
            ++ q.flatMap (frontCalls t.router.router_table_ t.router._interfaces.length) := by
  intro q
  induction q with
  | nil =>
    intro fuel t hq _
    have hq1 := hq
    rw [received_getElem?] at hq1
    cases hi : t.router._interfaces[i]? with
    | none => rw [hi] at hq1; cases hq1
    | some item =>
      rw [hi] at hq1
      simp only [Option.map_some', Option.some.injEq] at hq1
      refine ⟨t, ?_, rfl, rfl, ?_, by simp⟩
      · cases fuel <;> simp [Router.drain, hi, hq1]
      · apply List.ext_getElem?
        intro j
        by_cases hj : i = j
        · subst hj
          have hlt : i < t.router.received.length := by
            rw [List.getElem?_eq_some_iff] at hq
            exact hq.1
          rw [List.getElem?_set_self hlt, hq]
        · rw [List.getElem?_set_ne hj]
  | cons d rest ih =>
    intro fuel t hq hfuel
    have hq1 := hq
    rw [received_getElem?] at hq1
    cases hi : t.router._interfaces[i]? with
    | none => rw [hi] at hq1; cases hq1
    | some item =>
      rw [hi] at hq1
      simp only [Option.map_some', Option.some.injEq] at hq1
      cases fuel with
      | zero => simp at hfuel
      | succ f =>
        obtain ⟨c1, c2, c3, c4⟩ := routeFront_spec t d
        have hq2 : (Router.routeFront t d).router.received[i]? = some (d :: rest) := by
          rw [c4]
          exact hq
        rw [received_getElem?] at hq2
        cases hi1 : (Router.routeFront t d).router._interfaces[i]? with
        | none => rw [hi1] at hq2; cases hq2
        | some item1 =>
          rw [hi1] at hq2
          simp only [Option.map_some', Option.some.injEq] at hq2
          have hlt : i < (Router.routeFront t d).router._interfaces.length := by
            rw [List.getElem?_eq_some_iff] at hi1
            exact hi1.1
          have hstep : Router.drain i (f + 1) t
              = Router.drain i f
                  { Router.routeFront t d with
                    router :=
                      { (Router.routeFront t d).router with
                        _interfaces := (Router.routeFront t d).router._interfaces.set i
                          { item1 with
                            datagrams_received_ := item1.datagrams_received_.tail } } } := by
            rw [Router.drain]
            simp only [hi, hq1, hi1]
          obtain ⟨t1, e1, e2, e3, e4, e5⟩ := ih f
            { Router.routeFront t d with
              router :=
                { (Router.routeFront t d).router with
                  _interfaces := (Router.routeFront t d).router._interfaces.set i
                    { item1 with datagrams_received_ := item1.datagrams_received_.tail } } }
            (by
              rw [received_getElem?]
              dsimp only
              rw [List.getElem?_set_self hlt, hq2]
              rfl)
            (by simp only [List.length_cons] at hfuel; omega)
          refine ⟨t1, by rw [hstep]; exact e1, by rw [e2]; exact c2, ?_, ?_, ?_⟩
          · rw [e3]
            simp only [List.length_set]
            exact c3
          · rw [e4]
            unfold Router.received
            dsimp only
            rw [List.map_set, List.set_set]
            show ((Router.routeFront t d).router.received).set i [] = _
            rw [c4]
            rfl
          · rw [e5, c1]
            simp only [List.length_set, List.flatMap_cons, List.append_assoc]
            rw [c2, c3]

theorem routeFrom_spec :
    ∀ (is : List Nat) (t : Routing), is.Nodup →
      ∃ t1, Router.routeFrom is t = some t1
        ∧ t1.router.router_table_ = t.router.router_table_
        ∧ t1.router._interfaces.length = t.router._interfaces.length
        ∧ (∀ j, t1.router.received[j]?
            = if j ∈ is then (t.router.received[j]?).map (fun _ => [])
              else t.router.received[j]?)
        ∧ t1.calls = t.calls ++ is.flatMap (fun i => ((t.router.received[i]?).getD []).flatMap
            (frontCalls t.router.router_table_ t.router._interfaces.length)) := by
  intro is
  induction is with
  | nil =>
    intro t _
    exact ⟨t, rfl, rfl, rfl, fun j => by simp, by simp⟩
  | cons i rest ih =>
    intro t hnd
    have hnd' := List.nodup_cons.mp hnd
    rw [Router.routeFrom]
    cases hi : t.router._interfaces[i]? with
    | none =>
      have hr : t.router.received[i]? = none := by rw [received_getElem?, hi]; rfl
      have hd : Router.drain i 0 t = some t := by simp [Router.drain, hi]
      dsimp only
      rw [hd, Option.some_bind]
      obtain ⟨t1, e1, e2, e3, e4, e5⟩ := ih t hnd'.2
      refine ⟨t1, e1, e2, e3, ?_, ?_⟩
      · intro j
        rw [e4 j]
        by_cases hj : j = i
        · subst hj
          simp [hnd'.1, hr]
        · simp [hj]
      · rw [e5, List.flatMap_cons, hr]
        simp
    | some item =>
      have hr : t.router.received[i]? = some item.datagrams_received_ := by
        rw [received_getElem?, hi]
        rfl
      dsimp only
      obtain ⟨t1, d1, d2, d3, d4, d5⟩ := drain_spec i item.datagrams_received_
        item.datagrams_received_.length t hr (Nat.le_refl _)
      rw [d1, Option.some_bind]
      obtain ⟨t2, e1, e2, e3, e4, e5⟩ := ih t1 hnd'.2
      have hlt : i < t.router.received.length := by
        rw [List.getElem?_eq_some_iff] at hr
        exact hr.1
      refine ⟨t2, e1, by rw [e2, d2], by rw [e3, d3], ?_, ?_⟩
      · intro j
        rw [e4 j, d4]
        by_cases hj : j = i
        · subst hj
          simp [hnd'.1, hr, List.getElem?_set_self hlt]
        · have hne : i ≠ j := fun h => hj h.symm
          rw [List.getElem?_set_ne hne]
          simp [hj]
      · rw [e5, d5, d2, d3, List.flatMap_cons, hr, List.append_assoc]
        congr 2
        apply List.flatMap_congr
        intro k hk
        have hne : i ≠ k := fun h => hnd'.1 (h ▸ hk)
        rw [d4, List.getElem?_set_ne hne]

theorem flatMap_range_getElem? {α β : Type} (g : α → List β) (d : α) (l : List α) :
    (List.range l.length).flatMap (fun i => g ((l[i]?).getD d)) = l.flatMap g := by
  induction l with
  | nil => simp
  | cons a rest ih =>
    rw [List.length_cons, List.range_succ_eq_map, List.flatMap_cons, List.flatMap_map]
    simp only [List.getElem?_cons_zero, Option.getD_some, List.getElem?_cons_succ,
      List.flatMap_cons]
    rw [← ih]

theorem route_spec (r : Router) :
    ∃ t, r.route = some t
      ∧ (∀ item ∈ t.router._interfaces, item.datagrams_received_ = [])
      ∧ t.calls = (r._interfaces.flatMap fun item => item.datagrams_received_).flatMap
          (frontCalls r.router_table_ r._interfaces.length) := by
  obtain ⟨t, e1, _, e3, e4, e5⟩ := routeFrom_spec (List.range r._interfaces.length) ⟨r, [], []⟩
    (List.nodup_range _)
  refine ⟨t, e1, ?_, ?_⟩
  · intro item hitem
    obtain ⟨j, hj⟩ := List.getElem?_of_mem hitem
    have hlt : j < r._interfaces.length := by
      rw [← e3]
      rw [List.getElem?_eq_some_iff] at hj
      exact hj.1
    have h1 := e4 j
    rw [if_pos (List.mem_range.mpr hlt), received_getElem?, hj, received_getElem?,
      List.getElem?_eq_getElem hlt] at h1
    simp only [Option.map_some', Option.some.injEq] at h1
    exact h1
  · rw [e5, List.nil_append]
    have := flatMap_range_getElem?
      (fun q : List InternetDatagram => q.flatMap (frontCalls r.router_table_ r._interfaces.length))
      [] r.received
    unfold Router.received at this
    rw [List.length_map] at this
    refine Eq.trans this ?_
    rw [List.flatMap_map, List.flatMap_assoc]

/-! ## Theorems: router.cc -/

theorem decremented_ttl (ttl : Nat) (h : ttl < 256) :
    (max ((ttl : Int) - 1) 0).toNat % 256 = ttl - 1 := by
  omega

theorem decremented_eq (dgram : InternetDatagram) (h : dgram.header.ttl < 256) :
    decremented dgram
      = { dgram with
          header := ({ dgram.header with ttl := dgram.header.ttl - 1 }).compute_checksum } := by
  unfold decremented
  rw [decremented_ttl _ h]

theorem routeFront_calls (r : Router) (dgram : InternetDatagram) :
    (Router.routeFront ⟨r, [], []⟩ dgram).calls
      = frontCalls r.router_table_ r._interfaces.length dgram := by
  rw [(routeFront_spec ⟨r, [], []⟩ dgram).1]
  rfl

/-- C24: longest-prefix match. For a routing table whose entries have a prefix length of at
most 32, a 32-bit prefix and a valid interface index, and a datagram at the front of a queue
with a 32-bit destination and an arriving TTL of at least 2 (an 8-bit value), the loop body of
`Router::route` calls `send_datagram` exactly once if some route matches and not at all
otherwise. The call is made on the interface of a route `R` whose top `prefix_length_` bits
equal those of the destination, such that no matching route has a larger prefix length and
every matching route added after `R` has a smaller one; the datagram passed has the TTL
decremented and the checksum recomputed, and the next hop passed is `R.next_hop_` if present
and the destination otherwise. -/
theorem C24_longest_prefix_match (r : Router) (dgram : InternetDatagram)
    (htable : ∀ R ∈ r.router_table_, R.prefix_length_ ≤ 32 ∧ R.route_prefix_ < U32
      ∧ R.interface_num_ < r._interfaces.length)
    (hdst : dgram.header.dst < U32) (h2 : 2 ≤ dgram.header.ttl)
    (h256 : dgram.header.ttl < 256) :
    ((∀ R ∈ r.router_table_, ¬ R.TopBitsMatch dgram.header.dst)
        ∧ (Router.routeFront ⟨r, [], []⟩ dgram).calls = [])
      ∨ ∃ pre R post, r.router_table_ = pre ++ R :: post
          ∧ R.TopBitsMatch dgram.header.dst
          ∧ (∀ R1 ∈ pre, R1.TopBitsMatch dgram.header.dst →
              R1.prefix_length_ ≤ R.prefix_length_)
          ∧ (∀ R1 ∈ post, R1.TopBitsMatch dgram.header.dst →
              R1.prefix_length_ < R.prefix_length_)
          ∧ (Router.routeFront ⟨r, [], []⟩ dgram).calls
              = [⟨R.interface_num_,
                  { dgram with
                    header :=
                      ({ dgram.header with ttl := dgram.header.ttl - 1 }).compute_checksum },
                  match R.next_hop_ with
                  | some address => address
                  | none => dgram.header.dst⟩] := by
  have hdec := decremented_eq dgram h256
  have hd : (decremented dgram).header.dst = dgram.header.dst := by rw [hdec]; rfl
  have ht : (decremented dgram).header.ttl ≠ 0 := by
    rw [hdec]
    show dgram.header.ttl - 1 ≠ 0
    omega
  have hspec := routeLoop_spec dgram.header.dst r._interfaces.length hdst r.router_table_ []
    ⟨r._interfaces.length, 0, none⟩
    (fun R hR => ⟨(htable R hR).1, (htable R hR).2.1⟩)
    (Or.inl ⟨(fun R hR => by cases hR), rfl⟩)
  rw [List.nil_append] at hspec
  rw [routeFront_calls]
  unfold frontCalls callsFor
  rw [if_pos ht, hd]
  rcases hspec with ⟨hno, hc⟩ | ⟨pre, R, post, e1, e2, e3, e4, e5⟩
  · refine Or.inl ⟨hno, ?_⟩
    rw [hc, if_neg (Nat.lt_irrefl _)]
  · refine Or.inr ⟨pre, R, post, e1, e2, e3, e4, ?_⟩
    have hR : R ∈ r.router_table_ := by rw [e1]; simp
    rw [e5, if_pos (htable R hR).2.2, hdec]

/-- C24 on the router of the spec's scenario and a datagram to `10.1.2.3` with TTL 2. -/
theorem C24_longest_prefix_match_witness :
    ((∀ R ∈ exampleRouter.router_table_,
          ¬ R.TopBitsMatch (exampleDatagram 167838211 2).header.dst)
        ∧ (Router.routeFront ⟨exampleRouter, [], []⟩ (exampleDatagram 167838211 2)).calls = [])
      ∨ ∃ pre R post, exampleRouter.router_table_ = pre ++ R :: post
          ∧ R.TopBitsMatch (exampleDatagram 167838211 2).header.dst
          ∧ (∀ R1 ∈ pre, R1.TopBitsMatch (exampleDatagram 167838211 2).header.dst →
              R1.prefix_length_ ≤ R.prefix_length_)
          ∧ (∀ R1 ∈ post, R1.TopBitsMatch (exampleDatagram 167838211 2).header.dst →
              R1.prefix_length_ < R.prefix_length_)
          ∧ (Router.routeFront ⟨exampleRouter, [], []⟩ (exampleDatagram 167838211 2)).calls
              = [⟨R.interface_num_,
                  { exampleDatagram 167838211 2 with
                    header :=
                      ({ (exampleDatagram 167838211 2).header with
                          ttl := (exampleDatagram 167838211 2).header.ttl - 1
                        }).compute_checksum },
                  match R.next_hop_ with
                  | some address => address
                  | none => (exampleDatagram 167838211 2).header.dst⟩] :=
  C24_longest_prefix_match exampleRouter (exampleDatagram 167838211 2) (by decide) (by decide)
    (by decide) (by decide)

/-- C25: `Router::route` returns, and when it returns the received-datagram queue of every
interface is empty. The `send_datagram` calls it makes are those its loop body makes for the
drained datagrams, interface by interface and front of the queue first. For a datagram with an
arriving TTL of at most 1 the loop body makes no call; for one with a larger (8-bit) TTL every
datagram it passes to `send_datagram` has the TTL one less, the same payload, and a header
equal to the arriving one in every field other than the TTL and the checksum. -/
theorem C25_ttl_handling (r : Router) :
    ∃ t, r.route = some t
      ∧ (∀ item ∈ t.router._interfaces, item.datagrams_received_ = [])
      ∧ t.calls = (r._interfaces.flatMap fun item => item.datagrams_received_).flatMap
          (fun dgram => (Router.routeFront ⟨r, [], []⟩ dgram).calls)
      ∧ (∀ dgram : InternetDatagram, dgram.header.ttl ≤ 1 →
          (Router.routeFront ⟨r, [], []⟩ dgram).calls = [])
      ∧ (∀ (dgram : InternetDatagram) (c : SendCall), dgram.header.ttl < 256 →
          c ∈ (Router.routeFront ⟨r, [], []⟩ dgram).calls →
          2 ≤ dgram.header.ttl ∧ c.dgram.payload = dgram.payload
            ∧ c.dgram.header
                = { dgram.header with
                    ttl := dgram.header.ttl - 1, cksum := c.dgram.header.cksum }) := by
  obtain ⟨t, e1, e2, e3⟩ := route_spec r
  refine ⟨t, e1, e2, ?_, ?_, ?_⟩
  · rw [e3]
    apply List.flatMap_congr
    intro dgram _
    rw [routeFront_calls]
  · intro dgram hle
    rw [routeFront_calls]
    unfold frontCalls
    have h0 : (decremented dgram).header.ttl = 0 := by
      rw [decremented_eq dgram (by omega)]
      show dgram.header.ttl - 1 = 0
      omega
    rw [if_neg (by rw [h0]; simp)]
  · intro dgram c h256 hc
    rw [routeFront_calls] at hc
    unfold frontCalls at hc
    have hdec := decremented_eq dgram h256
    by_cases h0 : (decremented dgram).header.ttl ≠ 0
    · rw [if_pos h0] at hc
      have h2 : 2 ≤ dgram.header.ttl := by
        rw [hdec] at h0
        have h1 : dgram.header.ttl - 1 ≠ 0 := h0
        omega
      unfold callsFor at hc
      split_ifs at hc
      · rw [List.mem_singleton] at hc
        rw [hc, hdec]
        exact ⟨h2, rfl, rfl⟩
      · cases hc
    · rw [if_neg h0] at hc
      cases hc

/-- C25 on the router of the spec's scenario: `route` returns and leaves every queue empty. -/
theorem C25_ttl_handling_witness :
    ∃ t, exampleRouter.route = some t
      ∧ (∀ item ∈ t.router._interfaces, item.datagrams_received_ = []) :=
  (C25_ttl_handling exampleRouter).imp fun _ h => ⟨h.1, h.2.1⟩
/-! ## Auxiliary facts: the outstanding list without a bound on the bytes sent -/

theorem Sent_le (isn : Wrap32) : ∀ (l : List TCPSenderMessage) (x n : Nat),
    Sent isn x l n → x ≤ n ∧ n ≤ x + (l.map TCPSenderMessage.sequence_length).sum := by
  intro l
  induction l with
  | nil =>
    intro x n h
    simp only [Sent] at h
    simp only [List.map_nil, List.sum_nil]
    omega
  | cons m rest ih =>
    intro x n h
    simp only [Sent] at h
    obtain ⟨_, _, h3⟩ := h
    have := ih _ _ h3
    simp only [List.map_cons, List.sum_cons, TCPSenderMessage.sequence_length] at this ⊢
    omega

theorem Sent_append (isn : Wrap32) (m : TCPSenderMessage) :
    ∀ (l : List TCPSenderMessage) (x n : Nat), Sent isn x l n → m.seqno = Wrap32.wrap n isn →
      1 ≤ m.sequence_length → Sent isn x (l ++ [m]) (n + b2n m.SYN + m.payload.length) := by
  intro l
  induction l with
  | nil =>
    intro x n h h1 h2
    simp only [Sent] at h
    subst h
    simp only [List.nil_append, Sent]
    exact ⟨h1, h2, trivial⟩
  | cons a rest ih =>
    intro x n h h1 h2
    simp only [Sent] at h
    simp only [List.cons_append, Sent]
    exact ⟨h.1, h.2.1, ih _ _ h.2.2 h1 h2⟩

theorem Sent_suffix (isn : Wrap32) (l1 : List TCPSenderMessage) :
    ∀ (pre : List TCPSenderMessage) (x n : Nat), Sent isn x (pre ++ l1) n →
      ∃ y, x ≤ y ∧ Sent isn y l1 n := by
  intro pre
  induction pre with
  | nil => exact fun x n h => ⟨x, le_refl _, h⟩
  | cons a rest ih =>
    intro x n h
    simp only [List.cons_append, Sent] at h
    obtain ⟨y, hy, hs⟩ := ih _ _ h.2.2
    exact ⟨y, by omega, hs⟩

theorem Sent_last (isn : Wrap32) : ∀ (l : List TCPSenderMessage) (x n : Nat) (m : TCPSenderMessage),
    Sent isn x l n → l.getLast? = some m →
      ∃ y, x ≤ y ∧ m.seqno = Wrap32.wrap y isn ∧ 1 ≤ m.sequence_length
        ∧ y + b2n m.SYN + m.payload.length = n := by
  intro l
  induction l with
  | nil => intro x n m _ h; simp at h
  | cons a rest ih =>
    intro x n m h hl
    simp only [Sent] at h
    cases rest with
    | nil =>
      simp only [List.getLast?_singleton, Option.some.injEq] at hl
      subst hl
      simp only [Sent] at h
      exact ⟨x, le_refl _, h.1, h.2.1, h.2.2⟩
    | cons b rest2 =>
      rw [List.getLast?_cons_cons] at hl
      obtain ⟨y, h1, h2⟩ := ih _ _ m h.2.2 hl
      exact ⟨y, by omega, h2⟩
theorem wrap_add (a b : Nat) (isn : Wrap32) :
    Wrap32.wrap (add64 a b) isn = Wrap32.wrap (a + b) isn := by
  simp only [Wrap32.wrap, add64, U64, U32, Wrap32.mk.injEq]
  omega

theorem pushBody_outstanding (cfg : TCPConfig) (s : TCPSender) :
    (s.pushBody cfg).1.outstanding = s.outstanding ++ [(s.pushBody cfg).2] := by
  obtain ⟨_, _, _, _, _, _, _, f8, _⟩ := pushBody_fields cfg s
  unfold TCPSender.outstanding
  rw [f8]
  simp [RetransmissionTimer.insertAcknoList]

theorem Sending_pushBody (cfg : TCPConfig) (s : TCPSender) (h : Sending s)
    (hmax : 1 ≤ cfg.MAX_PAYLOAD_SIZE) (hc : s.pushCond = true) :
    Sending (s.pushBody cfg).1 := by
  obtain ⟨f1, _, _, _, _, _, f7, _, _⟩ := pushBody_fields cfg s
  obtain ⟨m1, m2, _, m4, _⟩ := pushBody_msg cfg s
  obtain ⟨_, _, i3, _, _, _, _⟩ := pushBody_input cfg s h.inv.stream
  obtain ⟨g1, _, _⟩ := pushBody_progress cfg s h.inv.stream hmax hc
  have hfin := pushBody_has_fin cfg s
  have hout := pushBody_outstanding cfg s
  refine ⟨pushBody_inv cfg s h.inv hmax hc, ?_, ?_⟩
  · obtain ⟨x, hx⟩ := h.chain
    refine ⟨x, ?_⟩
    rw [hout, f1, f7, i3]
    have := Sent_append s.isn_ (s.pushBody cfg).2 _ _ _ hx
      (by rw [m1, wrap_add]; rfl) g1
    rw [m2] at this
    have e : s.input_.bytes_popped_ + (s.pushBody cfg).2.payload.length + b2n true
        = s.input_.bytes_popped_ + b2n s.has_isn_ + b2n (!s.has_isn_)
          + (s.pushBody cfg).2.payload.length := by
      cases s.has_isn_ <;> simp only [Bool.not_false, Bool.not_true, b2n_true, b2n_false] <;> omega
    rw [e]
    exact this
  · rw [hout, f7, i3]
    simp only [List.map_append, List.sum_append, List.map_cons, List.map_nil, List.sum_cons,
      List.sum_nil, b2n_true]
    have ht := h.total
    have hlen : (s.pushBody cfg).2.sequence_length
        = b2n (s.pushBody cfg).2.SYN + (s.pushBody cfg).2.payload.length
          + b2n (s.pushBody cfg).2.FIN := rfl
    rw [hlen, m2]
    have hF := b2n_le_one (s.pushBody cfg).2.FIN
    cases hisn : s.has_isn_
    · have hnil := h.inv.no_syn hisn
      rw [hnil]
      simp only [List.map_nil, List.sum_nil, Bool.not_false, b2n_true]
      omega
    · rw [hisn] at ht
      simp only [Bool.not_true, b2n_true, b2n_false] at ht ⊢
      have e2 : ({ s with input_ := (s.pushBody cfg).1.input_, has_isn_ := true } : TCPSender)
          = ({ s with input_ := (s.pushBody cfg).1.input_ } : TCPSender) := by
        rw [← hisn]
      rw [e2, ← m4] at hfin
      rw [hfin]
      cases hFF : (s.pushBody cfg).2.FIN
      · simp only [Bool.or_false, b2n_false]
        omega
      · rw [m4] at hFF
        have := (getCanSentFin_finished _ hFF).1
        have hf0 : s.has_fin_ = false := this
        rw [hf0] at ht ⊢
        simp only [Bool.or_true, b2n_true, b2n_false] at ht ⊢
        omega

theorem Sending_pushLoop (cfg : TCPConfig) (hmax : 1 ≤ cfg.MAX_PAYLOAD_SIZE) (transmit : Bool) :
    ∀ (fuel : Nat) (s : TCPSender) (out : List TCPSenderMessage) (r : Transmitted), Sending s →
      TCPSender.pushLoop cfg transmit fuel s out = some r → Sending r.sender := by
  intro fuel
  induction fuel with
  | zero =>
    intro s out r h hr
    simp only [TCPSender.pushLoop] at hr
    split_ifs at hr
    cases hr
    exact h
  | succ fuel ih =>
    intro s out r h hr
    simp only [TCPSender.pushLoop] at hr
    by_cases hc : s.pushCond = true
    · rw [if_pos hc] at hr
      have h1 := Sending_pushBody cfg s h hmax hc
      cases transmit
      · simp only [Bool.false_eq_true, ↓reduceIte, Option.some.injEq] at hr
        rw [← hr]
        exact h1
      · simp only [↓reduceIte] at hr
        exact ih _ _ r h1 hr
    · rw [if_neg hc] at hr
      cases hr
      exact h

theorem Sending_of_fields (s t : TCPSender) (h : Sending s) (hinv : SenderInv t)
    (hp : t.input_.bytes_popped_ = s.input_.bytes_popped_)
    (hisn : t.isn_ = s.isn_) (hh : t.has_isn_ = s.has_isn_) (hf : t.has_fin_ = s.has_fin_)
    (hsuf : t.outstanding <:+ s.outstanding) : Sending t := by
  refine ⟨hinv, ?_, ?_⟩
  · obtain ⟨x, hx⟩ := h.chain
    obtain ⟨pre, hpre⟩ := hsuf
    rw [← hpre] at hx
    obtain ⟨y, _, hy⟩ := Sent_suffix s.isn_ _ pre _ _ hx
    exact ⟨y, by rw [hisn, hp, hh]; exact hy⟩
  · have ht := h.total
    obtain ⟨pre, hpre⟩ := hsuf
    rw [← hpre] at ht
    simp only [List.map_append, List.sum_append] at ht
    rw [hp, hh, hf]
    omega

theorem Sending_push (cfg : TCPConfig) (hmax : 1 ≤ cfg.MAX_PAYLOAD_SIZE) (transmit : Bool)
    (s : TCPSender) (r : Transmitted) (h : Sending s) (hr : s.push cfg transmit = some r) :
    Sending r.sender := by
  unfold TCPSender.push at hr
  dsimp only at hr
  split_ifs at hr
  · have h0 : Sending ({ s with saveTransFunc_ := transmit } : TCPSender) :=
      Sending_of_fields s _ h
        (SenderInv_of_sublist s _ h.inv rfl rfl rfl (List.Sublist.refl _)) rfl rfl rfl rfl
        (List.suffix_refl _)
    exact Sending_pushLoop cfg hmax transmit _ _ _ r h0 hr
  · exact Sending_pushLoop cfg hmax transmit _ _ _ r h hr
theorem receiveAck_suffix (s : TCPSender) (msg : TCPReceiverMessage) (hrst : msg.RST = false) :
    (s.receiveAck msg).outstanding <:+ s.outstanding := by
  unfold TCPSender.receiveAck
  rw [hrst]
  simp only [Bool.false_eq_true, ↓reduceIte]
  cases msg.ackno with
  | none =>
    dsimp only
    split_ifs <;> exact List.suffix_refl _
  | some ackno =>
    dsimp only
    by_cases hw : msg.window_size ≠ 0
    · rw [if_pos hw]
      dsimp only
      cases s.has_isn_
      · simp only [Bool.false_eq_true, ↓reduceIte]
        exact List.suffix_refl _
      · simp only [↓reduceIte]
        unfold TCPSender.outstanding
        dsimp only
        have hsuf := (updateAcknoList_fields s.retransmissionTimer_
          (ackno.unwrap s.isn_ (add64 s.input_.bytes_popped (b2n true))) s.isn_
          (add64 s.input_.bytes_popped (b2n true))).1
        split_ifs
        · simp only [RetransmissionTimer.resetConsecutiveRetransmissions]
          rw [resetTimer_map]
          exact hsuf.map _
        · exact hsuf.map _
    · rw [if_neg hw]
      dsimp only
      cases s.has_isn_
      · simp only [Bool.false_eq_true, ↓reduceIte]
        exact List.suffix_refl _
      · simp only [↓reduceIte]
        unfold TCPSender.outstanding
        dsimp only
        have hsuf := (updateAcknoList_fields (s.retransmissionTimer_.updateWinNonZero 0)
          (ackno.unwrap s.isn_ (add64 s.input_.bytes_popped (b2n true))) s.isn_
          (add64 s.input_.bytes_popped (b2n true))).1
        split_ifs
        · simp only [RetransmissionTimer.resetConsecutiveRetransmissions]
          rw [resetTimer_map]
          exact hsuf.map _
        · exact hsuf.map _

theorem Sending_receiveAck (s : TCPSender) (msg : TCPReceiverMessage) (h : Sending s)
    (hrst : msg.RST = false) : Sending (s.receiveAck msg) := by
  obtain ⟨f1, f2, f3, f4, _⟩ := receiveAck_fields s msg hrst
  exact Sending_of_fields s _ h
    (SenderInv_of_sublist s _ h.inv f1 f2 f3 (receiveAck_sublist s msg hrst))
    (by rw [f1]) f2 f3 f4 (receiveAck_suffix s msg hrst)

theorem Sending_receive (cfg : TCPConfig) (hmax : 1 ≤ cfg.MAX_PAYLOAD_SIZE) (s : TCPSender)
    (msg : TCPReceiverMessage) (r : Transmitted) (h : Sending s) (hrst : msg.RST = false)
    (hr : s.receive cfg msg = some r) : Sending r.sender := by
  have h1 := Sending_receiveAck s msg h hrst
  unfold TCPSender.receive at hr
  dsimp only at hr
  split_ifs at hr
  · exact Sending_push cfg hmax _ _ r h1 hr
  · cases hr
    exact h1

theorem Sending_new (capacity : Nat) (isn : Wrap32) (initial_RTO_ms : Nat)
    (hcap : capacity < U64) (hisn : isn.raw_value_ < U32) :
    Sending (TCPSender.new (ByteStream.new capacity) isn initial_RTO_ms) :=
  ⟨SenderInv_new capacity isn initial_RTO_ms hcap hisn, ⟨0, rfl⟩, by
    simp [TCPSender.outstanding, TCPSender.new, RetransmissionTimer.new]⟩

theorem Sending_step (cfg : TCPConfig) (hmax : 1 ≤ cfg.MAX_PAYLOAD_SIZE) (t t1 : Transmitted)
    (op : SenderOp) (h : Sending t.sender) (hop : ∀ m, op = SenderOp.receive m → m.RST = false)
    (ht : t.step cfg op = some t1) : Sending t1.sender := by
  obtain ⟨t2, h2, hinv⟩ := SenderInv_step cfg hmax t op h.inv hop
  rw [ht] at h2
  cases h2
  cases op with
  | write data =>
    simp only [Transmitted.step, Option.some.injEq] at ht
    rw [← ht]
    rw [← ht] at hinv
    exact Sending_of_fields t.sender _ h hinv (push_is_finished _ data).1 rfl rfl rfl
      (List.suffix_refl _)
  | close =>
    simp only [Transmitted.step, Option.some.injEq] at ht
    rw [← ht]
    rw [← ht] at hinv
    exact Sending_of_fields t.sender _ h hinv rfl rfl rfl rfl (List.suffix_refl _)
  | push =>
    simp only [Transmitted.step, Option.map_eq_some'] at ht
    obtain ⟨r, hr, he⟩ := ht
    rw [← he]
    exact Sending_push cfg hmax true _ r h hr
  | receive msg =>
    simp only [Transmitted.step, Option.map_eq_some'] at ht
    obtain ⟨r, hr, he⟩ := ht
    rw [← he]
    exact Sending_receive cfg hmax _ msg r h (hop msg rfl) hr
  | tick ms =>
    simp only [Transmitted.step, Option.some.injEq] at ht
    rw [← ht]
    rw [← ht] at hinv
    refine Sending_of_fields t.sender _ h hinv rfl rfl rfl rfl ?_
    show List.map _ _ <:+ _
    simp only [TCPSender.tick]
    rw [updateRetransmissionTimer_map]
    exact List.suffix_refl _

theorem Sending_run (cfg : TCPConfig) (hmax : 1 ≤ cfg.MAX_PAYLOAD_SIZE) (ops : List SenderOp) :
    ∀ t t1 : Transmitted, Sending t.sender → (∀ m, SenderOp.receive m ∈ ops → m.RST = false) →
      t.run cfg ops = some t1 → Sending t1.sender := by
  induction ops with
  | nil =>
    intro t t1 h _ hr
    simp only [Transmitted.run, Option.some.injEq] at hr
    rw [← hr]
    exact h
  | cons op ops ih =>
    intro t t1 h hops hr
    simp only [Transmitted.run, Option.bind_eq_some] at hr
    obtain ⟨t2, h2, h3⟩ := hr
    exact ih t2 t1 (Sending_step cfg hmax t t2 op h
        (fun m hm => hops m (by rw [hm]; exact List.mem_cons_self _ _)) h2)
      (fun m hm => hops m (List.mem_cons_of_mem _ hm)) h3
theorem ackLoop_filter_of (ackno : Nat) (isn : Wrap32) (checkpoint : Nat) (l : List AckWrapper)
    (hunits : ∀ e ∈ l, 1 ≤ e.mes_.sequence_length
      ∧ e.mes_.seqno.unwrap isn checkpoint + e.mes_.sequence_length < U64)
    (hord : (l.map fun e => e.mes_).Pairwise fun a b =>
      a.seqno.unwrap isn checkpoint + a.sequence_length
        ≤ b.seqno.unwrap isn checkpoint + b.sequence_length) :
    ∀ is_first : Bool,
      (ackLoop ackno isn checkpoint is_first l).2
        = l.filter fun e => decide
            (ackno < add64 (e.mes_.seqno.unwrap isn checkpoint) e.mes_.sequence_length) := by
  induction l with
  | nil => intro _; simp [ackLoop]
  | cons it rest ih =>
    intro is_first
    have hit := hunits it (List.mem_cons_self _ _)
    simp only [List.map_cons, List.pairwise_cons, List.mem_map, forall_exists_index, and_imp,
      forall_apply_eq_imp_iff₂] at hord
    have hadd : ∀ e ∈ it :: rest,
        add64 (e.mes_.seqno.unwrap isn checkpoint) e.mes_.sequence_length
          = e.mes_.seqno.unwrap isn checkpoint + e.mes_.sequence_length :=
      fun e he => add64_of_lt (hunits e he).2
    have hkeep : ackno < it.mes_.seqno.unwrap isn checkpoint + it.mes_.sequence_length →
        (it :: rest).filter (fun e => decide
          (ackno < add64 (e.mes_.seqno.unwrap isn checkpoint) e.mes_.sequence_length))
          = it :: rest := by
      intro h
      rw [List.filter_eq_self]
      intro e he
      rw [hadd e he]
      rcases List.mem_cons.mp he with h1 | h1
      · rw [h1]; exact decide_eq_true h
      · have := hord.1 e h1
        exact decide_eq_true (by omega)
    simp only [ackLoop]
    rw [hadd it (List.mem_cons_self _ _)]
    by_cases h1 : ackno ≤ it.mes_.seqno.unwrap isn checkpoint
    · rw [if_pos h1]
      exact (hkeep (by omega)).symm
    · rw [if_neg h1]
      by_cases h2 : it.mes_.seqno.unwrap isn checkpoint + it.mes_.sequence_length ≤ ackno
      · rw [if_pos h2, ih (fun e he => hunits e (List.mem_cons_of_mem _ he)) hord.2 false,
          List.filter_cons_of_neg]
        rw [hadd it (List.mem_cons_self _ _)]
        simp only [decide_eq_true_eq]
        omega
      · rw [if_neg h2]
        exact (hkeep (by omega)).symm

theorem updateAcknoList_filter_of (t : RetransmissionTimer) (ackno : Nat) (isn : Wrap32)
    (checkpoint : Nat)
    (hunits : ∀ e ∈ t.expected_ackno_list_, 1 ≤ e.mes_.sequence_length
      ∧ e.mes_.seqno.unwrap isn checkpoint + e.mes_.sequence_length < U64)
    (hord : (t.expected_ackno_list_.map fun e => e.mes_).Pairwise fun a b =>
      a.seqno.unwrap isn checkpoint + a.sequence_length
        ≤ b.seqno.unwrap isn checkpoint + b.sequence_length)
    (hlast : ∀ e, t.expected_ackno_list_.getLast? = some e →
      ackno ≤ add64 (e.mes_.seqno.unwrap isn checkpoint) e.mes_.sequence_length) :
    (t.updateAcknoList ackno isn checkpoint).2.expected_ackno_list_
      = t.expected_ackno_list_.filter fun e => decide
          (ackno < add64 (e.mes_.seqno.unwrap isn checkpoint) e.mes_.sequence_length) := by
  unfold RetransmissionTimer.updateAcknoList
  cases hl : t.expected_ackno_list_.getLast? with
  | none => exact ackLoop_filter_of _ _ _ _ hunits hord true
  | some last_msg =>
    dsimp only
    have h1 := hlast last_msg hl
    rw [if_neg (by omega)]
    exact ackLoop_filter_of _ _ _ _ hunits hord true

theorem receiveAck_filter_of (s : TCPSender) (msg : TCPReceiverMessage) (ackno : Wrap32)
    (hrst : msg.RST = false) (hack : msg.ackno = some ackno) (hisn : s.has_isn_ = true)
    (hunits : ∀ m ∈ s.outstanding, 1 ≤ m.sequence_length
      ∧ m.seqno.unwrap s.isn_ (add64 s.input_.bytes_popped 1) + m.sequence_length < U64)
    (hord : s.outstanding.Pairwise fun a b =>
      a.seqno.unwrap s.isn_ (add64 s.input_.bytes_popped 1) + a.sequence_length
        ≤ b.seqno.unwrap s.isn_ (add64 s.input_.bytes_popped 1) + b.sequence_length)
    (hlast : ∀ m, s.outstanding.getLast? = some m →
      ackno.unwrap s.isn_ (add64 s.input_.bytes_popped 1)
        ≤ add64 (m.seqno.unwrap s.isn_ (add64 s.input_.bytes_popped 1)) m.sequence_length) :
    (s.receiveAck msg).outstanding
      = s.outstanding.filter fun m => decide
          (ackno.unwrap s.isn_ (add64 s.input_.bytes_popped 1)
            < add64 (m.seqno.unwrap s.isn_ (add64 s.input_.bytes_popped 1))
                m.sequence_length) := by
  have hu : ∀ e ∈ s.retransmissionTimer_.expected_ackno_list_,
      1 ≤ e.mes_.sequence_length
        ∧ e.mes_.seqno.unwrap s.isn_ (add64 s.input_.bytes_popped 1) + e.mes_.sequence_length
            < U64 :=
    fun e he => hunits e.mes_ (List.mem_map_of_mem _ he)
  have hl : ∀ e, s.retransmissionTimer_.expected_ackno_list_.getLast? = some e →
      ackno.unwrap s.isn_ (add64 s.input_.bytes_popped 1)
        ≤ add64 (e.mes_.seqno.unwrap s.isn_ (add64 s.input_.bytes_popped 1))
            e.mes_.sequence_length := by
    intro e he
    apply hlast
    unfold TCPSender.outstanding
    rw [List.getLast?_map, he]
    rfl
  have hf := updateAcknoList_filter_of s.retransmissionTimer_
    (ackno.unwrap s.isn_ (add64 s.input_.bytes_popped 1)) s.isn_
    (add64 s.input_.bytes_popped 1) hu hord hl
  have hf0 := updateAcknoList_filter_of (s.retransmissionTimer_.updateWinNonZero 0)
    (ackno.unwrap s.isn_ (add64 s.input_.bytes_popped 1)) s.isn_
    (add64 s.input_.bytes_popped 1) hu hord hl
  have hmap : ∀ l : List AckWrapper,
      (l.filter fun e => decide
          (ackno.unwrap s.isn_ (add64 s.input_.bytes_popped 1)
            < add64 (e.mes_.seqno.unwrap s.isn_ (add64 s.input_.bytes_popped 1))
                e.mes_.sequence_length)).map
        (fun e => e.mes_)
      = (l.map fun e => e.mes_).filter fun m => decide
          (ackno.unwrap s.isn_ (add64 s.input_.bytes_popped 1)
            < add64 (m.seqno.unwrap s.isn_ (add64 s.input_.bytes_popped 1))
                m.sequence_length) := by
    intro l
    rw [List.filter_map]
    rfl
  unfold TCPSender.receiveAck
  rw [hrst, hack]
  simp only [Bool.false_eq_true, ↓reduceIte]
  by_cases hw : msg.window_size ≠ 0
  · rw [if_pos hw]
    dsimp only
    rw [hisn]
    simp only [↓reduceIte, b2n_true]
    unfold TCPSender.outstanding
    dsimp only
    split_ifs
    · simp only [RetransmissionTimer.resetConsecutiveRetransmissions]
      rw [resetTimer_map]
      show List.map (fun e => e.mes_) (s.retransmissionTimer_.updateAcknoList _ _ _).2.expected_ackno_list_ = _
      rw [hf, hmap]
    · rw [hf, hmap]
  · rw [if_neg hw]
    dsimp only
    rw [hisn]
    simp only [↓reduceIte, b2n_true]
    unfold TCPSender.outstanding
    dsimp only
    split_ifs
    · simp only [RetransmissionTimer.resetConsecutiveRetransmissions]
      rw [resetTimer_map]
      show List.map (fun e => e.mes_)
        ((s.retransmissionTimer_.updateWinNonZero 0).updateAcknoList _ _ _).2.expected_ackno_list_ = _
      rw [hf0, hmap]
      rfl
    · rw [hf0, hmap]
      rfl
/-- Within less than 2^31 below a 64-bit checkpoint `unwrap` inverts `wrap` up to one fixed
shift: none for a checkpoint below `2^64 - 2^31`, and `2^64 - 2^32` above (there the rounding
addition wraps, `point` is 0 and the result is the 32-bit distance from the ISN). -/
theorem unwrap_wrap_window (checkpoint : Nat) (isn : Wrap32) (hz : isn.raw_value_ < U32)
    (hc : checkpoint < U64) :
    ∃ c, ∀ y, y ≤ checkpoint → checkpoint < y + 2147483648 →
      (Wrap32.wrap y isn).unwrap isn checkpoint + c = y := by
  obtain ⟨zero_point⟩ := isn
  by_cases h : checkpoint < U64 - 2147483648
  · refine ⟨0, fun y h1 h2 => ?_⟩
    simp only [Wrap32.unwrap, Wrap32.wrap, add64, sub64, toInt64, U32, U64] at *
    split_ifs <;> omega
  · refine ⟨18446744069414584320, fun y h1 h2 => ?_⟩
    simp only [Wrap32.unwrap, Wrap32.wrap, add64, sub64, toInt64, U32, U64] at *
    split_ifs <;> omega

theorem Sent_unwrap_shift (isn : Wrap32) (checkpoint c : Nat) :
    ∀ (l : List TCPSenderMessage) (x n : Nat), Sent isn x l n →
      (∀ y, x ≤ y → y ≤ n → (Wrap32.wrap y isn).unwrap isn checkpoint + c = y) →
      (∀ m ∈ l, x ≤ m.seqno.unwrap isn checkpoint + c ∧ 1 ≤ m.sequence_length
          ∧ m.seqno.unwrap isn checkpoint + c + m.sequence_length ≤ n + 1)
        ∧ l.Pairwise (fun a b =>
            a.seqno.unwrap isn checkpoint + a.sequence_length
              ≤ b.seqno.unwrap isn checkpoint + b.sequence_length) := by
  intro l
  induction l with
  | nil => intro x n _ _; simp
  | cons a rest ih =>
    intro x n h hU
    simp only [Sent] at h
    obtain ⟨h1, h2, h3⟩ := h
    have hle := Sent_le isn rest _ _ h3
    have hx : x ≤ n := by omega
    have hua : a.seqno.unwrap isn checkpoint + c = x := by rw [h1]; exact hU x (le_refl _) hx
    obtain ⟨i1, i2⟩ := ih _ _ h3 (fun y hy1 hy2 => hU y (by omega) hy2)
    have hfin := b2n_le_one a.FIN
    have hlen : a.sequence_length = b2n a.SYN + a.payload.length + b2n a.FIN := rfl
    constructor
    · intro m hm
      rcases List.mem_cons.mp hm with hm | hm
      · rw [hm, hua]
        exact ⟨le_refl _, h2, by omega⟩
      · obtain ⟨j1, j2, j3⟩ := i1 m hm
        exact ⟨by omega, j2, j3⟩
    · rw [List.pairwise_cons]
      refine ⟨?_, i2⟩
      intro b hb
      obtain ⟨j1, j2, j3⟩ := i1 b hb
      omega

theorem in_flight_eq (s : TCPSender)
    (h : (s.outstanding.map TCPSenderMessage.sequence_length).sum < U64) :
    s.sequence_numbers_in_flight
      = (s.outstanding.map TCPSenderMessage.sequence_length).sum := by
  have key : ∀ (l : List AckWrapper) (a : Nat),
      a + (l.map fun e => e.mes_.sequence_length).sum < U64 →
      l.foldl (fun sum i => add64 sum i.mes_.sequence_length) a
        = a + (l.map fun e => e.mes_.sequence_length).sum := by
    intro l
    induction l with
    | nil => intro a _; simp
    | cons u rest ih =>
      intro a h
      simp only [List.map_cons, List.sum_cons] at h
      rw [List.foldl_cons, add64_of_lt (by omega), ih _ (by omega)]
      simp only [List.map_cons, List.sum_cons]
      omega
  unfold TCPSender.sequence_numbers_in_flight RetransmissionTimer.getSequenceNumbersInFlight
  unfold TCPSender.outstanding at h ⊢
  rw [List.map_map] at h ⊢
  have := key s.retransmissionTimer_.expected_ackno_list_ 0 (by simpa using h)
  rw [this]
  simp
  rfl

/-- In a consistent sender with SYN sent, fewer than 2^31 sequence numbers in flight and 64-bit
counters that have not wrapped, the ends `updateAcknoList` computes for the outstanding
segments are 64-bit values and do not decrease along the list. -/
theorem Sending_ends (s : TCPSender) (h : Sending s) (hsyn : s.has_isn_ = true)
    (hfl : s.sequence_numbers_in_flight < I31) (hb : s.input_.bytes_popped + 3 < U64) :
    (∀ m ∈ s.outstanding, 1 ≤ m.sequence_length
        ∧ m.seqno.unwrap s.isn_ (add64 s.input_.bytes_popped 1) + m.sequence_length < U64)
      ∧ s.outstanding.Pairwise fun a b =>
          a.seqno.unwrap s.isn_ (add64 s.input_.bytes_popped 1) + a.sequence_length
            ≤ b.seqno.unwrap s.isn_ (add64 s.input_.bytes_popped 1) + b.sequence_length := by
  have hP : s.input_.bytes_popped = s.input_.bytes_popped_ := rfl
  rw [hP] at hb
  have ht := h.total
  have h1 := b2n_le_one s.has_fin_
  rw [hsyn, b2n_true] at ht
  have hsum : (s.outstanding.map TCPSenderMessage.sequence_length).sum < U64 := by omega
  rw [in_flight_eq s hsum] at hfl
  obtain ⟨x, hx⟩ := h.chain
  rw [hsyn, b2n_true] at hx
  have hle := Sent_le _ _ _ _ hx
  have hcp : add64 s.input_.bytes_popped 1 = s.input_.bytes_popped_ + 1 := by
    rw [hP]
    exact add64_of_lt (by omega)
  rw [hcp]
  obtain ⟨c, hc⟩ := unwrap_wrap_window (s.input_.bytes_popped_ + 1) s.isn_ h.inv.isn_lt (by omega)
  obtain ⟨u1, u2⟩ := Sent_unwrap_shift s.isn_ (s.input_.bytes_popped_ + 1) c _ _ _ hx
    (fun y hy1 hy2 => hc y hy2 (by simp only [I31] at hfl; omega))
  refine ⟨fun m hm => ?_, u2⟩
  obtain ⟨j1, j2, j3⟩ := u1 m hm
  exact ⟨j2, by omega⟩
theorem pushBody_in_flight (cfg : TCPConfig) (s : TCPSender) :
    (s.pushBody cfg).1.sequence_numbers_in_flight
      = add64 s.sequence_numbers_in_flight (s.pushBody cfg).2.sequence_length := by
  obtain ⟨_, _, _, _, _, _, _, f8, _⟩ := pushBody_fields cfg s
  unfold TCPSender.sequence_numbers_in_flight RetransmissionTimer.getSequenceNumbersInFlight
  rw [f8]
  simp [RetransmissionTimer.insertAcknoList]

theorem getCanSentFin_open (s : TCPSender) (h : s.input_.is_close_ = false) :
    s.getCanSentFin = false := by
  simp [TCPSender.getCanSentFin, ByteStream.is_finished, h]

/-- The loop of `push` when the window is smaller than what is in flight: the subtraction
`peer_win_size_ - sequence_numbers_in_flight()` wraps to a large value, so the loop goes on
until the buffer of the open input is empty, whatever the window. -/
theorem pushLoop_flood (cfg : TCPConfig) (hmax : 1 ≤ cfg.MAX_PAYLOAD_SIZE) :
    ∀ (fuel : Nat) (s : TCPSender) (out : List TCPSenderMessage), StreamInv s.input_ →
      s.has_isn_ = true → s.input_.is_close_ = false →
      s.peer_win_size_ < s.sequence_numbers_in_flight →
      s.sequence_numbers_in_flight + s.input_.buffered_ < U64 →
      s.input_.buffered_ ≤ fuel →
      ∃ r new, TCPSender.pushLoop cfg true fuel s out = some r
        ∧ r.threw = false ∧ r.segments = out ++ new
        ∧ r.sender.outstanding = s.outstanding ++ new
        ∧ (∀ m ∈ new, m.SYN = false ∧ m.FIN = false ∧ 1 ≤ m.payload.length
            ∧ m.payload.length ≤ cfg.MAX_PAYLOAD_SIZE)
        ∧ (0 < s.input_.buffered_ → new ≠ [])
        ∧ r.sender.sequence_numbers_in_flight
            = s.sequence_numbers_in_flight + s.input_.buffered_
        ∧ r.sender.input_.bytes_popped_ = s.input_.bytes_popped_ + s.input_.buffered_
        ∧ r.sender.input_.is_close_ = false
        ∧ r.sender.isn_ = s.isn_ ∧ r.sender.has_isn_ = true
        ∧ r.sender.has_fin_ = s.has_fin_ := by
  intro fuel
  induction fuel with
  | zero =>
    intro s out hs hisn hcl hw h64 hf
    have hb0 : s.input_.buffered_ = 0 := by omega
    have hc : s.pushCond = false := by
      simp [TCPSender.pushCond, getCanSentFin_open s hcl, hisn, ByteStream.bytes_buffered, hb0]
    refine ⟨⟨s, out, false⟩, [], ?_, rfl, by simp, by simp, by simp, by omega, (by dsimp only; omega),
      (by dsimp only; omega), hcl, rfl, hisn, rfl⟩
    simp [TCPSender.pushLoop, hc]
  | succ fuel ih =>
    intro s out hs hisn hcl hw h64 hf
    rcases Nat.eq_zero_or_pos s.input_.buffered_ with hb0 | hbpos
    · have hc : s.pushCond = false := by
        simp [TCPSender.pushCond, getCanSentFin_open s hcl, hisn, ByteStream.bytes_buffered, hb0]
      refine ⟨⟨s, out, false⟩, [], ?_, rfl, by simp, by simp, by simp, by omega, (by dsimp only; omega),
        (by dsimp only; omega), hcl, rfl, hisn, rfl⟩
      simp [TCPSender.pushLoop, hc]
    · have hsub : 0 < sub64 s.peer_win_size_ s.sequence_numbers_in_flight := by
        simp only [sub64, U64] at *
        omega
      have hc : s.pushCond = true := by
        simp [TCPSender.pushCond, ByteStream.bytes_buffered, hbpos, hsub]
      obtain ⟨f1, f2, _, _, _, _, f7, _, _⟩ := pushBody_fields cfg s
      obtain ⟨_, m2, _, m4, _⟩ := pushBody_msg cfg s
      obtain ⟨i1, i2, i3, i4, _, i6, _⟩ := pushBody_input cfg s hs
      have hfin := pushBody_has_fin cfg s
      have hout := pushBody_outstanding cfg s
      have hfl := pushBody_in_flight cfg s
      rw [hisn] at i6 m2
      simp only [↓reduceIte, Bool.not_true] at i6 m2
      have hcl1 : (s.pushBody cfg).1.input_.is_close_ = false := by rw [i2]; exact hcl
      have hF : (s.pushBody cfg).2.FIN = false := by
        rw [m4]
        exact getCanSentFin_open _ hcl1
      have hhf : (s.pushBody cfg).1.has_fin_ = s.has_fin_ := by
        rw [hfin, getCanSentFin_open
          ({ s with input_ := (s.pushBody cfg).1.input_, has_isn_ := true } : TCPSender) hcl1,
          Bool.or_false]
      have htl : 1 ≤ s.transLen cfg ∧ s.transLen cfg ≤ cfg.MAX_PAYLOAD_SIZE := by
        unfold TCPSender.transLen
        simp only [ByteStream.bytes_buffered]
        omega
      have hlen : (s.pushBody cfg).2.sequence_length = (s.pushBody cfg).2.payload.length := by
        unfold TCPSenderMessage.sequence_length
        rw [m2, hF]
        simp [b2n]
      rw [hlen, add64_of_lt (by omega)] at hfl
      obtain ⟨r, new, h1, h2, h3, h4, h5, _, h7, h8, h9, h10, h11, h12⟩ :=
        ih (s.pushBody cfg).1 (out ++ [(s.pushBody cfg).2]) i1 f7 hcl1
          (by rw [f2, hfl]; omega) (by rw [hfl]; omega) (by omega)
      refine ⟨r, (s.pushBody cfg).2 :: new, ?_, h2, by rw [h3]; simp, by rw [h4, hout]; simp,
        ?_, by simp, by rw [h7, hfl]; omega, by rw [h8, i3]; omega, h9, by rw [h10, f1], h11,
        by rw [h12, hhf]⟩
      · simp only [TCPSender.pushLoop, hc, ↓reduceIte]
        exact h1
      · intro m hm
        rcases List.mem_cons.mp hm with hm | hm
        · rw [hm]
          exact ⟨m2, hF, by omega, by omega⟩
        · exact h5 m hm
theorem updateAcknoList_stuck (t : RetransmissionTimer) (ackno : Nat) (isn : Wrap32)
    (checkpoint : Nat) (e0 : AckWrapper) (rest : List AckWrapper)
    (hl : t.expected_ackno_list_ = e0 :: rest)
    (h0 : ackno ≤ e0.mes_.seqno.unwrap isn checkpoint) :
    (t.updateAcknoList ackno isn checkpoint).2.expected_ackno_list_ = t.expected_ackno_list_ := by
  have hloop : (ackLoop ackno isn checkpoint true t.expected_ackno_list_).2
      = t.expected_ackno_list_ := by
    rw [hl]
    simp only [ackLoop]
    rw [if_pos h0]
  unfold RetransmissionTimer.updateAcknoList
  cases t.expected_ackno_list_.getLast? with
  | none => exact hloop
  | some last_msg =>
    dsimp only
    split_ifs
    · rfl
    · exact hloop

/-- An ack that does not exceed the absolute sequence number `updateAcknoList` computes for the
first outstanding segment removes nothing. -/
theorem receiveAck_stuck (s : TCPSender) (msg : TCPReceiverMessage) (ackno : Wrap32)
    (m0 : TCPSenderMessage) (tail : List TCPSenderMessage)
    (hrst : msg.RST = false) (hack : msg.ackno = some ackno) (hisn : s.has_isn_ = true)
    (hl : s.outstanding = m0 :: tail)
    (h0 : ackno.unwrap s.isn_ (add64 s.input_.bytes_popped 1)
      ≤ m0.seqno.unwrap s.isn_ (add64 s.input_.bytes_popped 1)) :
    (s.receiveAck msg).outstanding = s.outstanding := by
  unfold TCPSender.outstanding at hl
  obtain ⟨e0, rest, he, hm0, _⟩ := List.map_eq_cons_iff.mp hl
  rw [← hm0] at h0
  have hf := updateAcknoList_stuck s.retransmissionTimer_
    (ackno.unwrap s.isn_ (add64 s.input_.bytes_popped 1)) s.isn_
    (add64 s.input_.bytes_popped 1) e0 rest he h0
  have hf0 := updateAcknoList_stuck (s.retransmissionTimer_.updateWinNonZero 0)
    (ackno.unwrap s.isn_ (add64 s.input_.bytes_popped 1)) s.isn_
    (add64 s.input_.bytes_popped 1) e0 rest he h0
  unfold TCPSender.receiveAck
  rw [hrst, hack]
  simp only [Bool.false_eq_true, ↓reduceIte]
  by_cases hw : msg.window_size ≠ 0
  · rw [if_pos hw]
    dsimp only
    rw [hisn]
    simp only [↓reduceIte, b2n_true]
    unfold TCPSender.outstanding
    dsimp only
    split_ifs
    · simp only [RetransmissionTimer.resetConsecutiveRetransmissions]
      rw [resetTimer_map]
      show List.map (fun e => e.mes_) (s.retransmissionTimer_.updateAcknoList _ _ _).2.expected_ackno_list_ = _
      rw [hf]
    · rw [hf]
  · rw [if_neg hw]
    dsimp only
    rw [hisn]
    simp only [↓reduceIte, b2n_true]
    unfold TCPSender.outstanding
    dsimp only
    split_ifs
    · simp only [RetransmissionTimer.resetConsecutiveRetransmissions]
      rw [resetTimer_map]
      show List.map (fun e => e.mes_)
        ((s.retransmissionTimer_.updateWinNonZero 0).updateAcknoList _ _ _).2.expected_ackno_list_ = _
      rw [hf0]
      rfl
    · rw [hf0]
      rfl

theorem run_append (cfg : TCPConfig) (ops1 ops2 : List SenderOp) :
    ∀ t : Transmitted, t.run cfg (ops1 ++ ops2)
      = (t.run cfg ops1).bind fun t1 => t1.run cfg ops2 := by
  induction ops1 with
  | nil => intro t; rfl
  | cons op ops ih =>
    intro t
    simp only [List.cons_append, Transmitted.run]
    cases t.step cfg op with
    | none => rfl
    | some t1 => simp only [Option.some_bind]; exact ih t1
/-- The state after the SYN and one byte are in flight, the peer has shrunk its window to 1, and
`data` (which fits the buffer) is written and pushed: every byte of `data` is in flight. -/
theorem flooded (data : Bytes) (h1 : 1 ≤ data.length) (h2 : data.length ≤ 2147483648) :
    ∃ t new, (Transmitted.new 2147483648 ⟨0⟩ 1000).run ⟨1000⟩
        ([.push, .receive ⟨none, 2, false⟩, .write ['a'], .push, .receive ⟨none, 1, false⟩]
          ++ [.write data, .push]) = some t
      ∧ Sending t.sender
      ∧ t.sender.has_isn_ = true ∧ t.sender.isn_ = ⟨0⟩
      ∧ t.sender.input_.is_close_ = false
      ∧ t.sender.input_.bytes_popped_ = 1 + data.length
      ∧ t.sender.sequence_numbers_in_flight = 2 + data.length
      ∧ t.sender.outstanding
          = ⟨⟨0⟩, true, [], false, false⟩ :: ⟨⟨1⟩, false, ['a'], false, false⟩ :: new
      ∧ new ≠ []
      ∧ ∀ m ∈ new, m.SYN = false ∧ m.FIN = false ∧ m.payload.length ≤ 1000 := by
  have h0 : (Transmitted.new 2147483648 ⟨0⟩ 1000).run ⟨1000⟩
      [.push, .receive ⟨none, 2, false⟩, .write ['a'], .push, .receive ⟨none, 1, false⟩]
      = some ⟨{ input_ := ⟨2147483648, false, false, 0, 1, 1, [], []⟩, isn_ := ⟨0⟩,
                initial_RTO_ms_ := 1000, cur_ms_ := 0, peer_win_size_ := 1, largest_ackno := 0,
                has_isn_ := true, has_fin_ := false,
                retransmissionTimer_ :=
                  ⟨1000, 0, [⟨⟨⟨0⟩, true, [], false, false⟩, 0⟩,
                    ⟨⟨⟨1⟩, false, ['a'], false, false⟩, 0⟩], true⟩,
                saveTransFunc_ := true },
              [⟨⟨0⟩, true, [], false, false⟩, ⟨⟨1⟩, false, ['a'], false, false⟩], false⟩ := by
    decide
  have hS0 := Sending_run ⟨1000⟩ (by decide) _ _ _
    (Sending_new 2147483648 ⟨0⟩ 1000 (by decide) (by decide))
    (by intro m hm; simp at hm; rcases hm with h | h <;> rw [h]) h0
  rw [run_append, h0, Option.some_bind]
  simp only [Transmitted.run, Transmitted.step, Option.some_bind]
  generalize hin : (ByteStream.mk 2147483648 false false 0 1 1 [] []).push data = input at *
  have hst0 : StreamInv (ByteStream.mk 2147483648 false false 0 1 1 [] []) := hS0.inv.stream
  have hst : StreamInv input := by rw [← hin]; exact StreamInv_push _ data hst0
  obtain ⟨_, p2, _, _⟩ := push_open (ByteStream.mk 2147483648 false false 0 1 1 [] []) data rfl
  obtain ⟨q1, _, q3, _⟩ := push_fields (ByteStream.mk 2147483648 false false 0 1 1 [] []) data
  rw [hin] at p2 q1 q3
  have hav : (ByteStream.mk 2147483648 false false 0 1 1 [] []).available_capacity
      = 2147483648 := by decide
  rw [hav] at p2
  dsimp only at p2 q1 q3
  have hbuf : input.buffered_ = data.length := by omega
  unfold TCPSender.push
  dsimp only
  have hcan : ∀ s : TCPSender, s.input_ = input → s.getCanSentFin = false :=
    fun s hs => getCanSentFin_open s (by rw [hs]; exact q3)
  rw [hcan _ rfl]
  simp only [Bool.not_false, Bool.or_true, ↓reduceIte]
  obtain ⟨r, new, f1, f2, f3, f4, f5, f6, f7, f8, f9, f10, f11, f12⟩ :=
    pushLoop_flood ⟨1000⟩ (by decide) (input.bytes_buffered + 2)
      { input_ := input, isn_ := ⟨0⟩, initial_RTO_ms_ := 1000, cur_ms_ := 0, peer_win_size_ := 1,
        largest_ackno := 0, has_isn_ := true, has_fin_ := false,
        retransmissionTimer_ :=
          ⟨1000, 0, [⟨⟨⟨0⟩, true, [], false, false⟩, 0⟩,
            ⟨⟨⟨1⟩, false, ['a'], false, false⟩, 0⟩], true⟩,
        saveTransFunc_ := true } [] hst rfl q3 (by show (1 : Nat) < 2; omega)
      (by
        show 2 + input.buffered_ < U64
        simp only [U64]
        omega)
      (by simp only [ByteStream.bytes_buffered]; omega)
  rw [f1]
  simp only [Option.map_some', Option.some_bind]
  refine ⟨_, new, rfl, ?_, f11, f10, f9, ?_, ?_, f4, f6 (by dsimp only; omega), ?_⟩
  · have := Sending_run ⟨1000⟩ (by decide)
      ([.push, .receive ⟨none, 2, false⟩, .write ['a'], .push, .receive ⟨none, 1, false⟩]
        ++ [.write data, .push])
      (Transmitted.new 2147483648 ⟨0⟩ 1000)
      ⟨r.sender, [⟨⟨0⟩, true, [], false, false⟩, ⟨⟨1⟩, false, ['a'], false, false⟩]
        ++ r.segments, false || r.threw⟩
      (Sending_new 2147483648 ⟨0⟩ 1000 (by decide) (by decide))
      (by intro m hm; simp at hm; rcases hm with h | h <;> rw [h])
      (by
        rw [run_append, h0, Option.some_bind]
        simp only [Transmitted.run, Transmitted.step, Option.some_bind]
        rw [hin]
        unfold TCPSender.push
        dsimp only
        rw [hcan _ rfl]
        simp only [Bool.not_false, Bool.or_true, ↓reduceIte]
        rw [f1]
        rfl)
    exact this
  · rw [f8]
    dsimp only
    omega
  · rw [f7]
    show 2 + input.buffered_ = 2 + data.length
    omega
  · intro m hm
    obtain ⟨a1, a2, _, a4⟩ := f5 m hm
    exact ⟨a1, a2, a4⟩
/-- In the flooded state the peer acknowledges everything sent (`ackno = 2^31`, the next
sequence number), and `receive` removes nothing: `unwrap` places the SYN segment, 2^31 behind
the checkpoint, at `2^32`, so the loop of `updateAcknoList` breaks at the first entry. -/
theorem flooded_ack (data : Bytes) (hd : data.length = 2147483646) :
    ∃ t, (Transmitted.new 2147483648 ⟨0⟩ 1000).run ⟨1000⟩
        ([.push, .receive ⟨none, 2, false⟩, .write ['a'], .push, .receive ⟨none, 1, false⟩]
          ++ [.write data, .push]) = some t
      ∧ t.sender.has_isn_ = true
      ∧ t.sender.input_.bytes_popped = 2147483647
      ∧ t.sender.sequence_numbers_in_flight = 2147483648
      ∧ (Wrap32.mk 2147483648).unwrap t.sender.isn_
          (add64 t.sender.input_.bytes_popped (b2n t.sender.has_isn_)) = 2147483648
      ∧ (∀ m, t.sender.outstanding.getLast? = some m →
          add64 (m.seqno.unwrap t.sender.isn_
            (add64 t.sender.input_.bytes_popped (b2n t.sender.has_isn_))) m.sequence_length
            = 2147483648)
      ∧ ∃ r, t.sender.receive ⟨1000⟩ ⟨some ⟨2147483648⟩, 1, false⟩ = some r
        ∧ r.sender.outstanding = t.sender.outstanding
        ∧ r.sender.outstanding
          ≠ t.sender.outstanding.filter (fun m => decide
              ((Wrap32.mk 2147483648).unwrap t.sender.isn_
                  (add64 t.sender.input_.bytes_popped (b2n t.sender.has_isn_))
                < add64 (m.seqno.unwrap t.sender.isn_
                    (add64 t.sender.input_.bytes_popped (b2n t.sender.has_isn_)))
                  m.sequence_length))
            ++ (if (t.sender.receiveAck ⟨some ⟨2147483648⟩, 1, false⟩).getCanSentFin
                then [t.sender.finSegment] else []) := by
  obtain ⟨t, new, hrun, hS, hsyn, hisn, hcl, hP, hfl, hout, hne, hnew⟩ :=
    flooded data (by omega) (by omega)
  have hPv : t.sender.input_.bytes_popped = 2147483647 := by
    show t.sender.input_.bytes_popped_ = 2147483647
    omega
  have hcp : add64 t.sender.input_.bytes_popped (b2n t.sender.has_isn_) = 2147483648 := by
    rw [hPv, hsyn]
    decide
  have hA : (Wrap32.mk 2147483648).unwrap t.sender.isn_ 2147483648 = 2147483648 := by
    rw [hisn]
    decide
  -- the last outstanding segment ends at the next sequence number
  have hlast : ∀ m, t.sender.outstanding.getLast? = some m →
      add64 (m.seqno.unwrap t.sender.isn_ 2147483648) m.sequence_length = 2147483648 := by
    intro m hm
    have hmem : m ∈ new := by
      rw [hout] at hm
      have e : (⟨⟨0⟩, true, [], false, false⟩ :: ⟨⟨1⟩, false, ['a'], false, false⟩ :: new
          : List TCPSenderMessage)
          = [⟨⟨0⟩, true, [], false, false⟩, ⟨⟨1⟩, false, ['a'], false, false⟩] ++ new := rfl
      rw [e, List.getLast?_append_of_ne_nil _ hne] at hm
      exact List.mem_of_getLast?_eq_some hm
    obtain ⟨a1, a2, a3⟩ := hnew m hmem
    obtain ⟨x, hx⟩ := hS.chain
    obtain ⟨y, _, b2, _, b4⟩ := Sent_last _ _ _ _ m hx hm
    rw [hsyn, b2n_true, hP, hd] at b4
    rw [a1, b2n_false] at b4
    have hu := unwrap_wrap_near y 2147483648 t.sender.isn_ hS.inv.isn_lt (by decide)
      (by omega) (by omega)
    rw [b2, hu]
    have hlen : m.sequence_length = m.payload.length := by
      unfold TCPSenderMessage.sequence_length
      rw [a1, a2]
      simp [b2n]
    rw [hlen, add64_of_lt (by simp only [U64]; omega)]
    omega
  have hstuck := receiveAck_stuck t.sender ⟨some ⟨2147483648⟩, 1, false⟩ ⟨2147483648⟩ _ _
    rfl rfl hsyn hout (by
      rw [hPv, hisn]
      decide)
  have hcan : (t.sender.receiveAck ⟨some ⟨2147483648⟩, 1, false⟩).getCanSentFin = false := by
    apply getCanSentFin_open
    rw [(receiveAck_fields t.sender ⟨some ⟨2147483648⟩, 1, false⟩ rfl).1]
    exact hcl
  refine ⟨t, hrun, hsyn, hPv, by rw [hfl, hd], by rw [hcp]; exact hA,
    by rw [hcp]; exact hlast, ⟨t.sender.receiveAck ⟨some ⟨2147483648⟩, 1, false⟩, [], false⟩,
    ?_, hstuck, ?_⟩
  · unfold TCPSender.receive
    dsimp only
    rw [hcan]
    rfl
  · rw [hcan, hcp, hA]
    dsimp only
    rw [hstuck]
    simp only [Bool.false_eq_true, ↓reduceIte, List.append_nil]
    intro heq
    have hall := List.filter_eq_self.mp heq.symm
    have hne2 : t.sender.outstanding ≠ [] := by rw [hout]; simp
    have hm := List.getLast?_eq_getLast _ hne2
    have h1 := hall _ (List.getLast_mem hne2)
    rw [hlast _ hm] at h1
    simp at h1

/-! ## Theorems: cumulative acknowledgement -/

/-- C16 as stated fails, in two ways. First: window 2, `"ab"` in flight as one segment
`[1, 3)`, input closed. The ack 3 removes that segment, FIN becomes emissible and `receive`
itself pushes it: afterwards the outstanding list holds the FIN segment, which was not among
the prior entries. Second: the SYN and the byte `"a"` are in flight when the peer shrinks its
window to 1; `peer_win_size_ - sequence_numbers_in_flight()` then wraps, so the next `push`
sends all of the `2^31 - 2` bytes written, and 2^31 sequence numbers are in flight. The peer
acknowledges all of them (`ackno = 2^31`, the end of the last outstanding segment), and
`receive` removes none: the SYN segment lies 2^31 behind the checkpoint, `unwrap` places it at
`2^32`, and the loop of `updateAcknoList` breaks at this first entry. The list is left whole
although the end of its last segment is not greater than the ack. -/
theorem C16_counterexample :
    (((Transmitted.new 100 ⟨0⟩ 1000).run ⟨1000⟩
        [.push, .receive ⟨some ⟨1⟩, 2, false⟩, .write ['a', 'b'], .close, .push]).map
        (fun t => t.sender.retransmissionTimer_.expected_ackno_list_.map (fun e => e.mes_))
        = some [⟨⟨1⟩, false, ['a', 'b'], false, false⟩]
      ∧ ((Transmitted.new 100 ⟨0⟩ 1000).run ⟨1000⟩
          [.push, .receive ⟨some ⟨1⟩, 2, false⟩, .write ['a', 'b'], .close, .push,
            .receive ⟨some ⟨3⟩, 2, false⟩]).map
          (fun t => t.sender.retransmissionTimer_.expected_ackno_list_.map (fun e => e.mes_))
        = some [⟨⟨3⟩, false, [], true, false⟩])
    ∧ ∃ t, (Transmitted.new 2147483648 ⟨0⟩ 1000).run ⟨1000⟩
        [.push, .receive ⟨none, 2, false⟩, .write ['a'], .push, .receive ⟨none, 1, false⟩,
          .write (List.replicate 2147483646 'x'), .push] = some t
      ∧ t.sender.has_isn_ = true
      ∧ t.sender.input_.bytes_popped = 2147483647
      ∧ t.sender.sequence_numbers_in_flight = 2147483648
      ∧ (Wrap32.mk 2147483648).unwrap t.sender.isn_
          (add64 t.sender.input_.bytes_popped (b2n t.sender.has_isn_)) = 2147483648
      ∧ (∀ m, t.sender.outstanding.getLast? = some m →
          add64 (m.seqno.unwrap t.sender.isn_
            (add64 t.sender.input_.bytes_popped (b2n t.sender.has_isn_))) m.sequence_length
            = 2147483648)
      ∧ ∃ r, t.sender.receive ⟨1000⟩ ⟨some ⟨2147483648⟩, 1, false⟩ = some r
        ∧ r.sender.outstanding = t.sender.outstanding
        ∧ r.sender.outstanding
          ≠ t.sender.outstanding.filter (fun m => decide
              ((Wrap32.mk 2147483648).unwrap t.sender.isn_
                  (add64 t.sender.input_.bytes_popped (b2n t.sender.has_isn_))
                < add64 (m.seqno.unwrap t.sender.isn_
                    (add64 t.sender.input_.bytes_popped (b2n t.sender.has_isn_)))
                  m.sequence_length))
            ++ (if (t.sender.receiveAck ⟨some ⟨2147483648⟩, 1, false⟩).getCanSentFin
                then [t.sender.finSegment] else []) :=
  ⟨by decide, flooded_ack (List.replicate 2147483646 'x') (List.length_replicate _ _)⟩

/-- C16 (amended): for a sender state reached from construction by calls without RST, with SYN
sent and fewer than 2^31 sequence numbers in flight, and a non-RST receiver message whose
unwrapped ackno `A` does not exceed the end of the last outstanding segment: after `receive`
the outstanding segments are exactly the prior ones whose end (absolute seqno +
sequence_length, as `updateAcknoList` computes them) is greater than `A`, in their order and
unchanged, followed by the FIN segment when the ack made FIN emissible (`receive` then calls
`push` itself). A partially acknowledged segment is kept whole. The call ends by throwing
`std::bad_function_call`, after the FIN segment is recorded, exactly when FIN became emissible
and no `push` has stored a transmit function; otherwise it returns, and the FIN segment is the
one segment it transmits. The other hypotheses are bounds of the types: a 64-bit capacity, a
32-bit ISN, a byte counter that has not come within 3 of `2^64`, and a payload limit of at
least 1. -/
theorem C16_ack_keeps_unacked_then_fin (cfg : TCPConfig) (capacity : Nat) (isn : Wrap32)
    (initial_RTO_ms : Nat) (ops : List SenderOp) (t : Transmitted) (msg : TCPReceiverMessage)
    (ackno : Wrap32) (hmax : 1 ≤ cfg.MAX_PAYLOAD_SIZE) (hcap : capacity < U64)
    (hisn : isn.raw_value_ < U32)
    (hops : ∀ m, SenderOp.receive m ∈ ops → m.RST = false)
    (hrun : (Transmitted.new capacity isn initial_RTO_ms).run cfg ops = some t)
    (hsyn : t.sender.has_isn_ = true)
    (hfl : t.sender.sequence_numbers_in_flight < I31)
    (hb : t.sender.input_.bytes_popped + 3 < U64)
    (hrst : msg.RST = false) (hack : msg.ackno = some ackno)
    (hA : ∀ m, t.sender.outstanding.getLast? = some m →
      ackno.unwrap t.sender.isn_ (add64 t.sender.input_.bytes_popped (b2n t.sender.has_isn_))
        ≤ add64 (m.seqno.unwrap t.sender.isn_
            (add64 t.sender.input_.bytes_popped (b2n t.sender.has_isn_))) m.sequence_length) :
    ∃ r, t.sender.receive cfg msg = some r
      ∧ r.sender.outstanding
          = t.sender.outstanding.filter (fun m => decide
              (ackno.unwrap t.sender.isn_
                  (add64 t.sender.input_.bytes_popped (b2n t.sender.has_isn_))
                < add64 (m.seqno.unwrap t.sender.isn_
                    (add64 t.sender.input_.bytes_popped (b2n t.sender.has_isn_)))
                  m.sequence_length))
            ++ (if (t.sender.receiveAck msg).getCanSentFin then [t.sender.finSegment] else [])
      ∧ r.threw = ((t.sender.receiveAck msg).getCanSentFin && !t.sender.saveTransFunc_)
      ∧ r.segments
          = (if (t.sender.receiveAck msg).getCanSentFin && t.sender.saveTransFunc_
              then [t.sender.finSegment] else []) := by
  have hS := Sending_run cfg hmax ops (Transmitted.new capacity isn initial_RTO_ms) t
    (Sending_new capacity isn initial_RTO_ms hcap hisn) hops hrun
  obtain ⟨hunits, hord⟩ := Sending_ends t.sender hS hsyn hfl hb
  rw [hsyn, b2n_true] at hA ⊢
  have hfil := receiveAck_filter_of t.sender msg ackno hrst hack hsyn hunits hord hA
  obtain ⟨f1, f2, f3, _, _, f6, _⟩ := receiveAck_fields t.sender msg hrst
  have hfs : (t.sender.receiveAck msg).finSegment = t.sender.finSegment := by
    unfold TCPSender.finSegment
    rw [f1, f2]
  unfold TCPSender.receive
  dsimp only
  by_cases hc : (t.sender.receiveAck msg).getCanSentFin = true
  · rw [if_pos hc, if_pos hc, hc]
    obtain ⟨r, h1, h2, h3, h4⟩ := push_fin cfg (t.sender.receiveAck msg)
      (t.sender.receiveAck msg).saveTransFunc_ (by rw [f3]; exact hsyn) hc
    refine ⟨r, h1, by rw [h2, hfil, hfs], by rw [h4, f6]; rfl, ?_⟩
    rw [h3, hfs, f6]
    simp only [Bool.true_and]
  · rw [if_neg hc, if_neg hc]
    simp only [Bool.not_eq_true] at hc
    rw [hc]
    exact ⟨_, rfl, by rw [List.append_nil]; exact hfil, rfl, rfl⟩

/-- The amended property at the state of the counterexample: window 2, `"ab"` in flight as the
segment `[1, 3)`, input closed, ack 3. The segment is removed, the FIN segment follows and is
transmitted, and the call returns. -/
theorem C16_ack_keeps_unacked_then_fin_witness :
    ∃ r, TCPSender.receive ⟨1000⟩
          { input_ := ⟨100, true, false, 0, 2, 2, [], []⟩, isn_ := ⟨0⟩, initial_RTO_ms_ := 1000,
            cur_ms_ := 0, peer_win_size_ := 2, largest_ackno := 1, has_isn_ := true,
            has_fin_ := false,
            retransmissionTimer_ :=
              ⟨1000, 0, [⟨⟨⟨1⟩, false, ['a', 'b'], false, false⟩, 0⟩], true⟩,
            saveTransFunc_ := true }
          ⟨some ⟨3⟩, 2, false⟩ = some r
      ∧ r.sender.outstanding = [⟨⟨3⟩, false, [], true, false⟩]
      ∧ r.threw = false
      ∧ r.segments = [⟨⟨3⟩, false, [], true, false⟩] := by
  obtain ⟨r, h1, h2, h3, h4⟩ := C16_ack_keeps_unacked_then_fin ⟨1000⟩ 100 ⟨0⟩ 1000
    [.push, .receive ⟨some ⟨1⟩, 2, false⟩, .write ['a', 'b'], .close, .push]
    ⟨{ input_ := ⟨100, true, false, 0, 2, 2, [], []⟩, isn_ := ⟨0⟩, initial_RTO_ms_ := 1000,
        cur_ms_ := 0, peer_win_size_ := 2, largest_ackno := 1, has_isn_ := true,
        has_fin_ := false,
        retransmissionTimer_ :=
          ⟨1000, 0, [⟨⟨⟨1⟩, false, ['a', 'b'], false, false⟩, 0⟩], true⟩,
        saveTransFunc_ := true },
      [⟨⟨0⟩, true, [], false, false⟩, ⟨⟨1⟩, false, ['a', 'b'], false, false⟩], false⟩
    ⟨some ⟨3⟩, 2, false⟩ ⟨3⟩ (by decide) (by decide) (by decide)
    (by intro m hm; simp at hm; subst hm; rfl)
    (by decide) rfl (by decide) (by decide) rfl rfl (by intro m hm; cases hm; decide)
  exact ⟨r, h1, by rw [h2]; decide, by rw [h3]; decide, by rw [h4]; decide⟩

end Minnow
